import Mathlib

/-!
# GoStore (sms-store): a shallow embedding of the ingestion and query paths

The development follows the Go sources

* `models/sms_record.go`   (`KafkaEvent`, `SMSRecord`, `ToSMSRecord`, `parseJavaLocalDateTime`)
* `kafka/consumer.go`      (`consume`, `processMessage`)
* `services/sms_service.go` (`SaveMessage`, `GetMessagesByUserID`)
* `handlers/sms_handler.go` (`GetUserMessages`, `isValidPhoneNumber`)

Library code the sources call (`time.Parse`, `time.Date`, `regexp`, `encoding/json`)
is embedded for the fragment the sources exercise; every such definition says
which library function it follows.  Strings are lists of characters; every
string the library fragments accept is pure ASCII, so the byte view of Go and
the character view used here agree on them.
-/

namespace GoStore

/-! ## Go `time`: instants, calendar fields, `Date` -/

/-- Go `time.Location`, reduced to what a `Time` needs for its field accessors:
UTC, or a zone whose offset (seconds east of UTC) at the instant is known
(`time.FixedZone`, or `time.Local` when its offset matches). -/
inductive Location where
  | utc : Location
  | fixed (offset : Int) : Location
  deriving DecidableEq, Repr

/-- Seconds east of UTC of a location. -/
def Location.offset : Location → Int
  | .utc => 0
  | .fixed o => o

/-- Go `time.Time`: an instant (seconds and nanoseconds since the Unix epoch)
together with the location used to present it. -/
structure Time where
  unixSec : Int
  nsec : Int
  loc : Location
  deriving DecidableEq, Repr

def secondsPerMinute : Nat := 60

def secondsPerHour : Nat := 3600

def secondsPerDay : Nat := 86400

def daysPer400Years : Nat := 146097

def daysPer100Years : Nat := 36524

def daysPer4Years : Nat := 1461

/-- Go `absoluteZeroYear`: the year of the absolute epoch. -/
def absoluteZeroYear : Int := -292277022399

/-- Go `unixToInternal + internalToAbsolute`: seconds from the absolute epoch
to the Unix epoch. -/
def unixToAbsolute : Int := 9223372028715321600

/-- Go `time.isLeap`. -/
def isLeap (year : Int) : Bool :=
  year % 4 == 0 && (year % 100 != 0 || year % 400 == 0)

/-- Go `time.daysBefore`: `daysBefore i` is the number of days in a non-leap
year before month `i + 1` starts (13 entries, the last one is 365). -/
def daysBefore (i : Nat) : Nat :=
  match i with
  | 0 => 0
  | 1 => 31
  | 2 => 59
  | 3 => 90
  | 4 => 120
  | 5 => 151
  | 6 => 181
  | 7 => 212
  | 8 => 243
  | 9 => 273
  | 10 => 304
  | 11 => 334
  | _ => 365

/-- Go `time.daysIn`. -/
def daysIn (m : Nat) (year : Int) : Nat :=
  if m == 2 && isLeap year then 29 else daysBefore m - daysBefore (m - 1)

/-- Go `time.norm`: `(hi, lo)` with `lo` brought into `[0, base)`. -/
def norm (hi lo base : Int) : Int × Int :=
  let (hi, lo) :=
    if lo < 0 then
      let n := (-lo - 1) / base + 1
      (hi - n, lo + n * base)
    else (hi, lo)
  if lo ≥ base then
    let n := lo / base
    (hi + n, lo - n * base)
  else (hi, lo)

/-- Go `time.daysSinceEpoch`: days from the absolute epoch to 1 January of `year`. -/
def daysSinceEpoch (year : Int) : Nat :=
  let y := (year - absoluteZeroYear).toNat
  let n400 := y / 400
  let y := y - 400 * n400
  let d := daysPer400Years * n400
  let n100 := y / 100
  let y := y - 100 * n100
  let d := d + daysPer100Years * n100
  let n4 := y / 4
  let y := y - 4 * n4
  let d := d + daysPer4Years * n4
  d + 365 * y

/-- Go `time.Date`.  The unsigned 64-bit wrap-around of the original is never
reached for the four-digit years `time.Parse` produces, so the day count is
kept in `Int`. -/
def Date (year month day hour min sec nsec : Int) (loc : Location) : Time :=
  let m := month - 1
  let (year, m) := norm year m 12
  let month := m + 1
  let (sec, nsec) := norm sec nsec 1000000000
  let (min, sec) := norm min sec 60
  let (hour, min) := norm hour min 60
  let (day, hour) := norm day hour 24
  let d : Int := daysSinceEpoch year
  let d := d + daysBefore (month - 1).toNat
  let d := if isLeap year && month ≥ 3 then d + 1 else d
  let d := d + (day - 1)
  let abs := d * secondsPerDay
  let abs := abs + (hour * secondsPerHour + min * secondsPerMinute + sec)
  let unix := abs - unixToAbsolute
  { unixSec := unix - loc.offset, nsec := nsec, loc := loc }

/-- Go `Time.UTC`: the same instant, presented in UTC. -/
def Time.UTC (t : Time) : Time := { t with loc := .utc }

/-- Go `Time.addSec`. -/
def Time.addSec (t : Time) (d : Int) : Time := { t with unixSec := t.unixSec + d }

/-- Go `Time.abs`: seconds since the absolute epoch, shifted into the time's
location. -/
def Time.abs (t : Time) : Nat := (t.unixSec + t.loc.offset + unixToAbsolute).toNat

/-- Year and day-of-year part of Go `time.absDate`. -/
def absYear (abs : Nat) : Int × Nat :=
  let d := abs / secondsPerDay
  let n := d / daysPer400Years
  let y := 400 * n
  let d := d - daysPer400Years * n
  let n := d / daysPer100Years
  let n := n - n / 4
  let y := y + 100 * n
  let d := d - daysPer100Years * n
  let n := d / daysPer4Years
  let y := y + 4 * n
  let d := d - daysPer4Years * n
  let n := d / 365
  let n := n - n / 4
  let y := y + n
  let d := d - 365 * n
  ((y : Int) + absoluteZeroYear, d)

/-- Month and day-of-month part of Go `time.absDate`, from the year and the
zero-based day of the year. -/
def monthDay (year : Int) (yday : Nat) : Nat × Nat :=
  if isLeap year && yday == 31 + 29 - 1 then (2, 29)
  else
    let day := if isLeap year && yday > 31 + 29 - 1 then yday - 1 else yday
    let month := day / 31
    let e := daysBefore (month + 1)
    if day ≥ e then (month + 1 + 1, day - e + 1)
    else (month + 1, day - daysBefore month + 1)

/-- Go `time.absDate` with `full = true`: year, month, day of month. -/
def absDate (abs : Nat) : Int × Nat × Nat :=
  let (year, yday) := absYear abs
  let (month, day) := monthDay year yday
  (year, month, day)

/-- Go `time.absClock`. -/
def absClock (abs : Nat) : Nat × Nat × Nat :=
  let sec := abs % secondsPerDay
  let hour := sec / secondsPerHour
  let sec := sec - hour * secondsPerHour
  let min := sec / secondsPerMinute
  let sec := sec - min * secondsPerMinute
  (hour, min, sec)

def Time.Year (t : Time) : Int := (absDate t.abs).1

def Time.Month (t : Time) : Nat := (absDate t.abs).2.1

def Time.Day (t : Time) : Nat := (absDate t.abs).2.2

def Time.Hour (t : Time) : Nat := (absClock t.abs).1

def Time.Minute (t : Time) : Nat := (absClock t.abs).2.1

def Time.Second (t : Time) : Nat := (absClock t.abs).2.2

/-- The six calendar and clock fields of a time, as its accessors report them. -/
def Time.fields (t : Time) : Int × Nat × Nat × Nat × Nat × Nat :=
  (t.Year, t.Month, t.Day, t.Hour, t.Minute, t.Second)

/-- Go zero `time.Time{}`: 1 January of year 1, 00:00:00 UTC. -/
def Time.zero : Time := { unixSec := -62135596800, nsec := 0, loc := .utc }

/-! ## Go `time.Parse` for the layouts of `parseJavaLocalDateTime` -/

/-- Go `time.isDigit` on one character: an ASCII decimal digit. -/
def isDigit (c : Char) : Bool := 48 ≤ c.toNat && c.toNat ≤ 57

/-- The value `c - '0'` of a digit character. -/
def digitVal (c : Char) : Int := ((c.toNat - 48 : Nat) : Int)

/-- Go `time.commaOrPeriod`. -/
def commaOrPeriod (c : Char) : Bool := c == '.' || c == ','

/-- Go `time.getnum`: a one- or two-digit number (exactly two when `fixed`). -/
def getnum (s : List Char) (fixed : Bool) : Option (Int × List Char) :=
  match s with
  | [] => none
  | [c0] =>
    if !isDigit c0 then none
    else if fixed then none
    else some (digitVal c0, [])
  | c0 :: c1 :: rest =>
    if !isDigit c0 then none
    else if !isDigit c1 then
      if fixed then none else some (digitVal c0, c1 :: rest)
    else some (digitVal c0 * 10 + digitVal c1, rest)

/-- Go `time.leadingInt`: consume the leading digits.  Its overflow exit is
out of reach for the at most nine digits the callers below pass. -/
def leadingInt : List Char → Int → Int × List Char
  | [], x => (x, [])
  | c :: rest, x =>
    if isDigit c then leadingInt rest (x * 10 + digitVal c) else (x, c :: rest)

/-- Go `time.atoi`: an optionally signed decimal integer filling the whole string. -/
def atoi (s : List Char) : Option Int :=
  let neg := s.head? == some '-'
  let s := if s.head? == some '-' || s.head? == some '+' then s.tail else s
  let (q, rem) := leadingInt s 0
  if rem.isEmpty then some (if neg then -q else q) else none

/-- Errors of `time.Parse`: `errBad`, a field out of range, or extra text. -/
inductive ParseError where
  | bad : ParseError
  | outOfRange (what : String) : ParseError
  | extraText : ParseError
  deriving DecidableEq, Repr

/-- Go `time.parseNanoseconds`: `value` starts with the separator, `nbytes`
counts the separator and the digits taken. -/
def parseNanoseconds (value : List Char) (nbytes : Nat) : Except ParseError Int :=
  match value with
  | [] => .error .bad
  | c :: _ =>
    if !commaOrPeriod c then .error .bad
    else
      let nbytes := if nbytes > 10 then 10 else nbytes
      match atoi ((value.take nbytes).drop 1) with
      | none => .error .bad
      | some ns =>
        if ns < 0 then .error (.outOfRange "fractional second")
        else .ok (ns * 10 ^ (10 - nbytes))

/-- The layout elements (Go `std...` codes) that occur in the three layouts. -/
inductive Std where
  | stdLongYear : Std
  | stdZeroMonth : Std
  | stdZeroDay : Std
  | stdHour : Std
  | stdZeroMinute : Std
  | stdZeroSecond : Std
  | stdFracSecond9 (digits : Nat) : Std
  | stdISO8601ColonTZ : Std
  deriving DecidableEq, Repr

/-- A layout as Go `time.nextStdChunk` cuts it: each element with the literal
text that precedes it.  None of the three layouts has text after its last
element. -/
abbrev Layout := List (List Char × Std)

/-- Layout `"2006-01-02T15:04:05"`. -/
def layoutLocal : Layout :=
  [ ([], .stdLongYear), (['-'], .stdZeroMonth), (['-'], .stdZeroDay),
    (['T'], .stdHour), ([':'], .stdZeroMinute), ([':'], .stdZeroSecond) ]

/-- Layout `"2006-01-02T15:04:05.999999"`. -/
def layoutMicro : Layout := layoutLocal ++ [ ([], .stdFracSecond9 6) ]

/-- Layout `time.RFC3339`, `"2006-01-02T15:04:05Z07:00"`. -/
def layoutRFC3339 : Layout := layoutLocal ++ [ ([], .stdISO8601ColonTZ) ]

/-- The `layouts` slice of `parseJavaLocalDateTime`, in order. -/
def layouts : List Layout := [layoutLocal, layoutMicro, layoutRFC3339]

/-- Go `time.skip` for a prefix without spaces (the prefixes of the three
layouts are `-`, `T`, `:` or empty). -/
def skip : List Char → List Char → Option (List Char)
  | value, [] => some value
  | [], _ :: _ => none
  | v :: value, p :: pre => if v != p then none else skip value pre

/-- The variables `time.parse` fills while it walks the layout, with their
initial values. -/
structure Parsed where
  year : Int := 0
  month : Int := -1
  day : Int := -1
  hour : Int := 0
  min : Int := 0
  sec : Int := 0
  nsec : Int := 0
  z : Option Location := none
  zoneOffset : Int := -1
  deriving DecidableEq, Repr

/-- Whether the next layout element is a fractional-second element. -/
def nextIsFrac : Layout → Bool
  | (_, .stdFracSecond9 _) :: _ => true
  | _ => false

/-- The zone part of an `stdISO8601ColonTZ` value that is not `Z`:
sign, two-digit hour, colon, two-digit minute. -/
def parseColonTZ (sign h1 h2 colon m1 m2 : Char) : Except ParseError Int :=
  if colon != ':' then .error .bad
  else
    let hr := getnum [h1, h2] true
    let mm := if hr.isSome then getnum [m1, m2] true else none
    let hrv : Int := (hr.map Prod.fst).getD 0
    let mmv : Int := (mm.map Prod.fst).getD 0
    if hrv > 24 then .error (.outOfRange "time zone offset hour")
    else if mmv > 60 then .error (.outOfRange "time zone offset minute")
    else if hr.isNone || mm.isNone then .error .bad
    else
      let zoneOffset := (hrv * 60 + mmv) * 60 + 0
      if sign == '+' then .ok zoneOffset
      else if sign == '-' then .ok (-zoneOffset)
      else .error .bad

/-- One turn of the `switch std & stdMask` of Go `time.parse`, for the
elements of the three layouts. -/
def parseStd (std : Std) (fracNext : Bool) (value : List Char) (p : Parsed) :
    Except ParseError (List Char × Parsed) :=
  match std with
  | .stdLongYear =>
    match value with
    | a :: b :: c :: d :: rest =>
      if !isDigit a then .error .bad
      else
        match atoi [a, b, c, d] with
        | none => .error .bad
        | some y => .ok (rest, { p with year := y })
    | _ => .error .bad
  | .stdZeroMonth =>
    match getnum value true with
    | none => .error .bad
    | some (m, rest) =>
      if m ≤ 0 || 12 < m then .error (.outOfRange "month")
      else .ok (rest, { p with month := m })
  | .stdZeroDay =>
    match getnum value true with
    | none => .error .bad
    | some (d, rest) => .ok (rest, { p with day := d })
  | .stdHour =>
    match getnum value false with
    | none => .error .bad
    | some (h, rest) =>
      if h < 0 || 24 ≤ h then .error (.outOfRange "hour")
      else .ok (rest, { p with hour := h })
  | .stdZeroMinute =>
    match getnum value true with
    | none => .error .bad
    | some (m, rest) =>
      if m < 0 || 60 ≤ m then .error (.outOfRange "minute")
      else .ok (rest, { p with min := m })
  | .stdZeroSecond =>
    match getnum value true with
    | none => .error .bad
    | some (s, rest) =>
      if s < 0 || 60 ≤ s then .error (.outOfRange "second")
      else
        match rest with
        | c0 :: c1 :: more =>
          if commaOrPeriod c0 && isDigit c1 && !fracNext then
            let n := 2 + (more.takeWhile isDigit).length
            match parseNanoseconds rest n with
            | .error e => .error e
            | .ok ns => .ok (rest.drop n, { p with sec := s, nsec := ns })
          else .ok (rest, { p with sec := s })
        | _ => .ok (rest, { p with sec := s })
  | .stdFracSecond9 _ =>
    match value with
    | c0 :: c1 :: more =>
      if commaOrPeriod c0 && isDigit c1 then
        let i := 1 + (more.takeWhile isDigit).length
        match parseNanoseconds value (1 + i) with
        | .error e => .error e
        | .ok ns => .ok (value.drop (1 + i), { p with nsec := ns })
      else .ok (value, p)
    | _ => .ok (value, p)
  | .stdISO8601ColonTZ =>
    match value with
    | [] => .error .bad
    | c :: rest =>
      if c == 'Z' then .ok (rest, { p with z := some .utc })
      else
        match value with
        | sign :: h1 :: h2 :: colon :: m1 :: m2 :: rest6 =>
          match parseColonTZ sign h1 h2 colon m1 m2 with
          | .error e => .error e
          | .ok off => .ok (rest6, { p with zoneOffset := off })
        | _ => .error .bad

/-- The main loop of Go `time.parse`: skip the literal prefix, read the
element, go on with the rest of the layout; at the end of the layout no text
may be left. -/
def parseChunks : Layout → List Char → Parsed → Except ParseError Parsed
  | [], value, p => if value.isEmpty then .ok p else .error .extraText
  | (pre, std) :: layout, value, p =>
    match skip value pre with
    | none => .error .bad
    | some value =>
      match parseStd std (nextIsFrac layout) value p with
      | .error e => .error e
      | .ok (value, p) => parseChunks layout value p

/-- What Go `time.parse` does after the layout is consumed: validate the day
of the month and build the time from the fields, in UTC unless the value
carried a zone. -/
def buildTime (p : Parsed) : Except ParseError Time :=
  if p.day < 1 || p.day > daysIn p.month.toNat p.year then
    .error (.outOfRange "day")
  else
    match p.z with
    | some z => .ok (Date p.year p.month p.day p.hour p.min p.sec p.nsec z)
    | none =>
      if p.zoneOffset != -1 then
        let t := (Date p.year p.month p.day p.hour p.min p.sec p.nsec .utc).addSec (-p.zoneOffset)
        .ok { t with loc := .fixed p.zoneOffset }
      else .ok (Date p.year p.month p.day p.hour p.min p.sec p.nsec .utc)

/-- Go `time.Parse(layout, value)` for the three layouts.  (The RFC 3339 fast
path of recent Go releases returns the same time whenever it succeeds and
falls back to this parser otherwise.) -/
def Parse (layout : Layout) (value : String) : Except ParseError Time :=
  match parseChunks layout value.data {} with
  | .error e => .error e
  | .ok p => buildTime p

/-! ## `models/sms_record.go` -/

/-- The loop of `parseJavaLocalDateTime`: the first layout that parses wins
and its time is returned `.UTC()`; otherwise the zero time and the last error. -/
def parseLayouts : List Layout → String → Option ParseError → Time × Option ParseError
  | [], _, lastErr => (Time.zero, lastErr)
  | layout :: rest, timestamp, _ =>
    match Parse layout timestamp with
    | .ok t => (t.UTC, none)
    | .error e => parseLayouts rest timestamp (some e)

/-- `parseJavaLocalDateTime` of `models/sms_record.go`: the time and the error
(`none` is Go `nil`). -/
def parseJavaLocalDateTime (timestamp : String) : Time × Option ParseError :=
  parseLayouts layouts timestamp none

/-- Go `primitive.ObjectID`: twelve bytes. -/
structure ObjectID where
  bytes : List Nat
  deriving DecidableEq, Repr

/-- Go `primitive.NilObjectID`, the zero value. -/
def NilObjectID : ObjectID := ⟨List.replicate 12 0⟩

/-- `SMSRecord` of `models/sms_record.go`. -/
structure SMSRecord where
  ID : ObjectID
  UserID : String
  PhoneNumber : String
  Message : String
  Status : String
  CreatedAt : Time
  deriving DecidableEq, Repr

/-- `KafkaEvent` of `models/sms_record.go`. -/
structure KafkaEvent where
  EventID : String
  UserID : String
  PhoneNumber : String
  Message : String
  Status : String
  CreatedAt : String
  deriving DecidableEq, Repr

/-- `KafkaEvent.ToSMSRecord`.  `now` is what `time.Now()` returns when it is
called.  The result is the pair `(*SMSRecord, error)`: `none` in the first
component is a nil pointer, `none` in the second a nil error. -/
def KafkaEvent.ToSMSRecord (k : KafkaEvent) (now : Time) :
    Option SMSRecord × Option ParseError :=
  let (createdAt, err) := parseJavaLocalDateTime k.CreatedAt
  let createdAt := if err.isSome then now.UTC else createdAt
  (some { ID := NilObjectID, UserID := k.UserID, PhoneNumber := k.PhoneNumber,
          Message := k.Message, Status := k.Status, CreatedAt := createdAt },
   none)

/-! ## Go `encoding/json`: `json.Unmarshal` into a `KafkaEvent` -/

/-- A JSON value. -/
inductive JSON where
  | null : JSON
  | bool (b : Bool) : JSON
  | number (text : List Char) : JSON
  | string (s : List Char) : JSON
  | array (items : List JSON) : JSON
  | object (members : List (List Char × JSON)) : JSON
  deriving Repr

/-- JSON insignificant whitespace. -/
def isJSONSpace (c : Char) : Bool := c == ' ' || c == '\t' || c == '\r' || c == '\n'

def skipWS (s : List Char) : List Char := s.dropWhile isJSONSpace

/-- Value of a hexadecimal digit. -/
def hexVal (c : Char) : Option Nat :=
  if 48 ≤ c.toNat && c.toNat ≤ 57 then some (c.toNat - 48)
  else if 97 ≤ c.toNat && c.toNat ≤ 102 then some (c.toNat - 87)
  else if 65 ≤ c.toNat && c.toNat ≤ 70 then some (c.toNat - 55)
  else none

/-- The four hexadecimal digits of a `\u` escape. -/
def hex4 (s : List Char) : Option (Nat × List Char) :=
  match s with
  | a :: b :: c :: d :: rest =>
    match hexVal a, hexVal b, hexVal c, hexVal d with
    | some a, some b, some c, some d => some (((a * 16 + b) * 16 + c) * 16 + d, rest)
    | _, _, _, _ => none
  | _ => none

/-- The text of a JSON string after its opening quote, up to the closing
quote, with escapes decoded (a surrogate pair becomes one character, a lone
surrogate U+FFFD, as `encoding/json` does). -/
def parseStringBody : Nat → List Char → List Char → Option (List Char × List Char)
  | 0, _, _ => none
  | _ + 1, [], _ => none
  | fuel + 1, c :: rest, acc =>
    if c == '"' then some (acc.reverse, rest)
    else if c == '\\' then
      match rest with
      | [] => none
      | e :: rest1 =>
        if e == '"' then parseStringBody fuel rest1 ('"' :: acc)
        else if e == '\\' then parseStringBody fuel rest1 ('\\' :: acc)
        else if e == '/' then parseStringBody fuel rest1 ('/' :: acc)
        else if e == 'b' then parseStringBody fuel rest1 (Char.ofNat 8 :: acc)
        else if e == 'f' then parseStringBody fuel rest1 (Char.ofNat 12 :: acc)
        else if e == 'n' then parseStringBody fuel rest1 ('\n' :: acc)
        else if e == 'r' then parseStringBody fuel rest1 ('\r' :: acc)
        else if e == 't' then parseStringBody fuel rest1 ('\t' :: acc)
        else if e == 'u' then
          match hex4 rest1 with
          | none => none
          | some (u, rest2) =>
            if 0xD800 ≤ u && u < 0xDC00 then
              match rest2 with
              | b :: v :: rest3 =>
                match hex4 rest3 with
                | some (lo, rest4) =>
                  if b == '\\' && v == 'u' && 0xDC00 ≤ lo && lo < 0xE000 then
                    parseStringBody fuel rest4
                      (Char.ofNat (0x10000 + (u - 0xD800) * 0x400 + (lo - 0xDC00)) :: acc)
                  else parseStringBody fuel rest2 (Char.ofNat 0xFFFD :: acc)
                | none => parseStringBody fuel rest2 (Char.ofNat 0xFFFD :: acc)
              | _ => parseStringBody fuel rest2 (Char.ofNat 0xFFFD :: acc)
            else if 0xDC00 ≤ u && u < 0xE000 then
              parseStringBody fuel rest2 (Char.ofNat 0xFFFD :: acc)
            else parseStringBody fuel rest2 (Char.ofNat u :: acc)
        else none
    else if c.toNat < 32 then none
    else parseStringBody fuel rest (c :: acc)

/-- A non-empty run of digits and what follows it. -/
def digits1 (s : List Char) : Option (List Char × List Char) :=
  let ds := s.takeWhile isDigit
  if ds.isEmpty then none else some (ds, s.dropWhile isDigit)

/-- A JSON number: its text and the rest of the input. -/
def parseNumber (s : List Char) : Option (List Char × List Char) :=
  let (sign, s) := if s.head? == some '-' then (['-'], s.tail) else ([], s)
  match digits1 s with
  | none => none
  | some (ip, s) =>
    if ip.head? == some '0' && ip.length > 1 then none
    else
      let frac :=
        if s.head? == some '.' then (digits1 s.tail).map fun r => ('.' :: r.1, r.2)
        else some ([], s)
      match frac with
      | none => none
      | some (fp, s) =>
        if s.head? == some 'e' || s.head? == some 'E' then
          let e := s.take 1
          let s := s.tail
          let (es, s) :=
            if s.head? == some '+' || s.head? == some '-' then (s.take 1, s.tail) else ([], s)
          (digits1 s).map fun r => (sign ++ ip ++ fp ++ e ++ es ++ r.1, r.2)
        else some (sign ++ ip ++ fp, s)

mutual

/-- A JSON value and the rest of the input; `fuel` bounds the number of
nested calls (the length of the input plus one is enough). -/
def parseValue : Nat → List Char → Option (JSON × List Char)
  | 0, _ => none
  | fuel + 1, s =>
    match skipWS s with
    | [] => none
    | c :: rest =>
      if c == '{' then
        match skipWS rest with
        | [] => none
        | d :: rest1 =>
          if d == '}' then some (.object [], rest1)
          else parseMembers fuel (d :: rest1) []
      else if c == '[' then
        match skipWS rest with
        | [] => none
        | d :: rest1 =>
          if d == ']' then some (.array [], rest1)
          else parseElements fuel (d :: rest1) []
      else if c == '"' then
        (parseStringBody (rest.length + 1) rest []).map fun r => (.string r.1, r.2)
      else if (c :: rest).take 4 == ['t', 'r', 'u', 'e'] then some (.bool true, rest.drop 3)
      else if (c :: rest).take 5 == ['f', 'a', 'l', 's', 'e'] then some (.bool false, rest.drop 4)
      else if (c :: rest).take 4 == ['n', 'u', 'l', 'l'] then some (.null, rest.drop 3)
      else (parseNumber (c :: rest)).map fun r => (.number r.1, r.2)

/-- The members of an object after the opening brace, up to the closing one. -/
def parseMembers : Nat → List Char → List (List Char × JSON) → Option (JSON × List Char)
  | 0, _, _ => none
  | fuel + 1, s, acc =>
    match skipWS s with
    | [] => none
    | q :: rest =>
      if q != '"' then none
      else
        match parseStringBody (rest.length + 1) rest [] with
        | none => none
        | some (key, rest1) =>
          match skipWS rest1 with
          | [] => none
          | colon :: rest2 =>
            if colon != ':' then none
            else
              match parseValue fuel rest2 with
              | none => none
              | some (v, rest3) =>
                match skipWS rest3 with
                | [] => none
                | d :: rest4 =>
                  if d == '}' then some (.object (acc ++ [(key, v)]), rest4)
                  else if d == ',' then parseMembers fuel rest4 (acc ++ [(key, v)])
                  else none

/-- The elements of an array after the opening bracket, up to the closing one. -/
def parseElements : Nat → List Char → List JSON → Option (JSON × List Char)
  | 0, _, _ => none
  | fuel + 1, s, acc =>
    match parseValue fuel s with
    | none => none
    | some (v, rest) =>
      match skipWS rest with
      | [] => none
      | d :: rest1 =>
        if d == ']' then some (.array (acc ++ [v]), rest1)
        else if d == ',' then parseElements fuel rest1 (acc ++ [v])
        else none

end

/-- A complete JSON text: one value surrounded by whitespace (what
`json.checkValid` accepts). -/
def parseJSON (s : List Char) : Option JSON :=
  match parseValue (s.length + 1) s with
  | none => none
  | some (v, rest) => if (skipWS rest).isEmpty then some v else none

/-- Case folding of `encoding/json` for object keys: ASCII letters, plus the
two non-ASCII characters that fold to `s` and `k`. -/
def foldChar (c : Char) : Char :=
  if c.toNat == 0x17F then 's'
  else if c.toNat == 0x212A then 'k'
  else if 65 ≤ c.toNat && c.toNat ≤ 90 then Char.ofNat (c.toNat + 32)
  else c

/-- Whether a JSON object key selects the struct field with JSON name `name`. -/
def keyMatches (key : List Char) (name : String) : Bool :=
  key.map foldChar == name.data.map foldChar

/-- Errors of `json.Unmarshal`: `*json.SyntaxError` and `*json.UnmarshalTypeError`. -/
inductive UnmarshalError where
  | syntaxError : UnmarshalError
  | typeError : UnmarshalError
  deriving DecidableEq, Repr

/-- Store one object member into the event: a string value sets the field its
key selects, `null` leaves it, a value of another JSON type is a type error
(decoding goes on, the error is reported at the end); a key that selects no
field is ignored. -/
def setField (st : KafkaEvent × Option UnmarshalError) (member : List Char × JSON) :
    KafkaEvent × Option UnmarshalError :=
  let (e, err) := st
  let (key, v) := member
  let known := ["eventId", "userId", "phoneNumber", "message", "status", "createdAt"].any
    fun n => keyMatches key n
  if !known then (e, err)
  else
    match v with
    | .null => (e, err)
    | .string s =>
      let s := String.mk s
      if keyMatches key "eventId" then ({ e with EventID := s }, err)
      else if keyMatches key "userId" then ({ e with UserID := s }, err)
      else if keyMatches key "phoneNumber" then ({ e with PhoneNumber := s }, err)
      else if keyMatches key "message" then ({ e with Message := s }, err)
      else if keyMatches key "status" then ({ e with Status := s }, err)
      else ({ e with CreatedAt := s }, err)
    | _ => (e, err.orElse fun _ => some .typeError)

/-- The zero value of `KafkaEvent` (`var event models.KafkaEvent`). -/
def KafkaEvent.zero : KafkaEvent :=
  { EventID := "", UserID := "", PhoneNumber := "", Message := "", Status := "",
    CreatedAt := "" }

/-- Go `json.Unmarshal(data, &event)` for `event` starting as the zero
`KafkaEvent`: the decoded event, or the error returned. -/
def Unmarshal (data : String) : Except UnmarshalError KafkaEvent :=
  match parseJSON data.data with
  | none => .error .syntaxError
  | some .null => .ok KafkaEvent.zero
  | some (.object members) =>
    match members.foldl setField (KafkaEvent.zero, none) with
    | (e, none) => .ok e
    | (_, some err) => .error err
  | some _ => .error .typeError

/-! ## `services/sms_service.go` -/

/-- A Go error value, by its message. -/
abbrev GoError := String

/-- How a call into an external system ends: it returns without error, it
returns an error, or it panics. -/
inductive CallResult where
  | ok : CallResult
  | failed (err : GoError) : CallResult
  | panics (v : String) : CallResult
  deriving DecidableEq, Repr

/-- Go `kafka.Message`, with the fields the consumer reads. -/
structure Message where
  Partition : Int
  Offset : Int
  Value : String
  deriving DecidableEq, Repr

/-- How `reader.FetchMessage` ends: a message, `context.DeadlineExceeded`,
another error, or a panic. -/
inductive FetchResult where
  | message (m : Message) : FetchResult
  | deadlineExceeded : FetchResult
  | failed (err : GoError) : FetchResult
  | panics (v : String) : FetchResult
  deriving DecidableEq, Repr

/-- Log lines and external calls of the ingestion path, in the order they happen. -/
inductive Event where
  | stopReceived : Event
  | fetchMessage (r : FetchResult) : Event
  | sleep (seconds : Nat) : Event
  | logFetchError (err : GoError) : Event
  | logTimestampWarning : Event
  | insertOne (record : SMSRecord) (r : CallResult) : Event
  | logProcessError (err : GoError) : Event
  | commitMessages (m : Message) (r : CallResult) : Event
  | logCommitError (err : GoError) : Event
  | logPanicRecovered (v : String) : Event
  deriving DecidableEq, Repr

/-- `SMSService.SaveMessage`: `record` is the pointer argument (`none` is nil,
whose dereference in the first log line panics), `insert` is how
`collection.InsertOne` ends for it. -/
def SaveMessage (record : Option SMSRecord) (insert : CallResult) : List Event × CallResult :=
  match record with
  | none => ([], .panics "nil pointer dereference")
  | some r =>
    match insert with
    | .ok => ([.insertOne r .ok], .ok)
    | .failed err => ([.insertOne r (.failed err)], .failed ("failed to insert SMS record: " ++ err))
    | .panics v => ([.insertOne r (.panics v)], .panics v)

/-- A Go slice: `none` is the nil slice, `some l` a non-nil slice with the
elements `l`. -/
abbrev Slice (α : Type) := Option (List α)

/-- What the store answers to the query of `GetMessagesByUserID`: `Find`
fails, or it returns a cursor whose `All` fails, or a cursor over the
documents `docs` (already filtered by `user_id` and sorted as asked). -/
inductive QueryResult where
  | findFails (err : GoError) : QueryResult
  | allFails (err : GoError) : QueryResult
  | documents (docs : List SMSRecord) : QueryResult
  deriving DecidableEq, Repr

/-- The mongo driver `Cursor.All(ctx, &records)` on a cursor over `docs`: the
documents are decoded into `records` from index 0, growing it as needed, and
`records` is set to its first `len(docs)` elements; a nil slice with no
document to store stays nil. -/
def cursorAll (docs : List SMSRecord) (records : Slice SMSRecord) : Slice SMSRecord :=
  match docs with
  | [] => records.map fun _ => []
  | _ :: _ => some docs

/-- `SMSService.GetMessagesByUserID`: the pair `([]*SMSRecord, error)`. -/
def GetMessagesByUserID (store : String → QueryResult) (userID : String) :
    Slice SMSRecord × Option GoError :=
  match store userID with
  | .findFails err => (none, some ("failed to query messages: " ++ err))
  | .allFails err => (none, some ("failed to decode messages: " ++ err))
  | .documents docs =>
    let records : Slice SMSRecord := none
    let records := cursorAll docs records
    (records, none)

/-! ## `kafka/consumer.go` -/

/-- What the outside world does during one turn of the consume loop: whether
`stopChan` is closed when the `select` runs, how `FetchMessage` ends, the
clock reading `time.Now()` would give, and how `InsertOne` and
`CommitMessages` end if they are called. -/
structure Turn where
  stopClosed : Bool
  fetch : FetchResult
  now : Time
  insert : CallResult
  commit : CallResult
  deriving DecidableEq, Repr

/-- `Consumer.processMessage`: the events it causes and how it ends
(`ok` is a nil error). -/
def processMessage (message : Message) (now : Time) (insert : CallResult) :
    List Event × CallResult :=
  match Unmarshal message.Value with
  | .error _ => ([], .failed "failed to unmarshal Kafka event")
  | .ok event =>
    let (record, err) := event.ToSMSRecord now
    let warn : List Event := if err.isSome then [.logTimestampWarning] else []
    match SaveMessage record insert with
    | (evs, .ok) => (warn ++ evs, .ok)
    | (evs, .failed e) => (warn ++ evs, .failed ("failed to save message to database: " ++ e))
    | (evs, .panics v) => (warn ++ evs, .panics v)

/-- How one turn of the loop of `consume` leaves the loop: it goes on with the
next turn, it executes `return` (stop signal), or a panic unwinds out of it. -/
inductive Ctl where
  | running : Ctl
  | returned : Ctl
  | panicked (v : String) : Ctl
  deriving DecidableEq, Repr

/-- One turn of the `for` loop of `Consumer.consume`. -/
def loopBody (t : Turn) : List Event × Ctl :=
  if t.stopClosed then ([.stopReceived], .returned)
  else
    match t.fetch with
    | .panics v => ([.fetchMessage (.panics v)], .panicked v)
    | .deadlineExceeded => ([.fetchMessage .deadlineExceeded], .running)
    | .failed err =>
      ([.fetchMessage (.failed err), .logFetchError err, .sleep 1], .running)
    | .message m =>
      match processMessage m t.now t.insert with
      | (evs, .panics v) => (.fetchMessage (.message m) :: evs, .panicked v)
      | (evs, .failed err) =>
        (.fetchMessage (.message m) :: evs ++ [.logProcessError err], .running)
      | (evs, .ok) =>
        match t.commit with
        | .ok => (.fetchMessage (.message m) :: evs ++ [.commitMessages m .ok], .running)
        | .failed err =>
          (.fetchMessage (.message m) :: evs ++
            [.commitMessages m (.failed err), .logCommitError err], .running)
        | .panics v =>
          (.fetchMessage (.message m) :: evs ++ [.commitMessages m (.panics v)], .panicked v)

/-- The `for` loop of `Consumer.consume` against a finite script of turns:
the events of the turns that ran, and how the last of them left the loop
(`running`: the script ended with the loop still going). -/
def consumeLoop : List Turn → List Event × Ctl
  | [] => ([], .running)
  | t :: rest =>
    match loopBody t with
    | (evs, .running) =>
      let (evs1, ctl) := consumeLoop rest
      (evs ++ evs1, ctl)
    | (evs, ctl) => (evs, ctl)

/-- How `consume` itself ends. -/
inductive Exit where
  | stillRunning : Exit
  | stopped : Exit
  | recovered : Exit
  deriving DecidableEq, Repr

/-- `Consumer.consume`: the loop, and around the whole function body the
deferred `recover()`, which logs a panic that unwinds out of the loop and
lets `consume` return. -/
def consume (script : List Turn) : List Event × Exit :=
  match consumeLoop script with
  | (evs, .running) => (evs, .stillRunning)
  | (evs, .returned) => (evs, .stopped)
  | (evs, .panicked v) => (evs ++ [.logPanicRecovered v], .recovered)

/-! ## `handlers/sms_handler.go` -/

/-! ### Go `regexp` (the operators the two patterns of the handler use) -/

/-- Syntax of the regular expressions in `handlers/sms_handler.go`. -/
inductive Regex where
  | empty : Regex
  | lit (c : Char) : Regex
  | cls (ranges : List (Char × Char)) (negated : Bool) : Regex
  | seq (a b : Regex) : Regex
  | opt (a : Regex) : Regex
  | rep (a : Regex) (lo hi : Nat) : Regex
  | plus (a : Regex) : Regex
  | group (index : Nat) (a : Regex) : Regex
  | bol : Regex
  | eol : Regex
  deriving Repr

/-- A position of the matcher in the input: the text still to read, the number
of characters already passed, and the text of the groups closed so far. -/
structure MState where
  rest : List Char
  pos : Nat
  caps : List (Nat × List Char)
  deriving DecidableEq, Repr

/-- Whether a character belongs to a character class. -/
def inClass (ranges : List (Char × Char)) (negated : Bool) (c : Char) : Bool :=
  (ranges.any fun r => r.1.toNat ≤ c.toNat && c.toNat ≤ r.2.toNat) != negated

/-- Read one character that satisfies `p`. -/
def stepChar (p : Char → Bool) (st : MState) : List MState :=
  match st.rest with
  | [] => []
  | c :: cs => if p c then [{ st with rest := cs, pos := st.pos + 1 }] else []

/-- Greedy bounded repetition `x{lo,hi}` of a matcher `f`. -/
def repeatRun (f : MState → List MState) : Nat → Nat → MState → List MState
  | lo, 0, st => if lo = 0 then [st] else []
  | lo, hi + 1, st =>
    (f st).flatMap (repeatRun f (lo - 1) hi) ++ (if lo = 0 then [st] else [])

/-- Greedy repetition `x*` of a matcher `f`; a turn that reads nothing is not
repeated, so at most `fuel` turns are needed for `fuel` characters. -/
def starRun (f : MState → List MState) : Nat → MState → List MState
  | 0, st => [st]
  | fuel + 1, st =>
    ((f st).filter fun st1 => st1.pos != st.pos).flatMap (starRun f fuel) ++ [st]

/-- All ways a regular expression matches at a position, in the order a
backtracking matcher tries them (preferred match first). -/
def Regex.run : Regex → MState → List MState
  | .empty, st => [st]
  | .lit c, st => stepChar (fun x => x == c) st
  | .cls ranges negated, st => stepChar (inClass ranges negated) st
  | .seq a b, st => (a.run st).flatMap b.run
  | .opt a, st => a.run st ++ [st]
  | .rep a lo hi, st => repeatRun a.run lo hi st
  | .plus a, st => (a.run st).flatMap (starRun a.run st.rest.length)
  | .group i a, st =>
    (a.run st).map fun st1 =>
      { st1 with caps := st1.caps ++ [(i, st.rest.take (st1.pos - st.pos))] }
  | .bol, st => if st.pos = 0 then [st] else []
  | .eol, st => if st.rest.isEmpty then [st] else []

/-- Go `Regexp.NumSubexp`. -/
def Regex.numSubexp : Regex → Nat
  | .seq a b => a.numSubexp + b.numSubexp
  | .opt a => a.numSubexp
  | .rep a _ _ => a.numSubexp
  | .plus a => a.numSubexp
  | .group _ a => a.numSubexp + 1
  | _ => 0

/-- The literal text `s` as a regular expression. -/
def Regex.text : List Char → Regex
  | [] => .empty
  | c :: cs => .seq (.lit c) (Regex.text cs)

/-- Leftmost-first search: the first start offset at which the expression
matches, with the preferred match there.  Returns the text from the start
offset on and the final matcher state. -/
def Regex.search (re : Regex) : List Char → Nat → Option (List Char × MState)
  | [], pos => (re.run ⟨[], pos, []⟩).head?.map fun st => ([], st)
  | c :: cs, pos =>
    match re.run ⟨c :: cs, pos, []⟩ with
    | st :: _ => some (c :: cs, st)
    | [] => Regex.search re cs (pos + 1)

/-- Go `Regexp.MatchString`. -/
def Regex.MatchString (re : Regex) (s : String) : Bool :=
  (re.search s.data 0).isSome

/-- Go `Regexp.FindStringSubmatch`: `[]` (nil) when there is no match, else
the matched text followed by the text of each group (empty for a group that
did not take part). -/
def Regex.FindStringSubmatch (re : Regex) (s : String) : List String :=
  match re.search s.data 0 with
  | none => []
  | some (start, st) =>
    String.mk (start.take (start.length - st.rest.length)) ::
      (List.range re.numSubexp).map fun i =>
        String.mk (((st.caps.reverse.find? fun c => c.1 == i + 1).map Prod.snd).getD [])

/-- Pattern `^/v0/user/([^/]+)/messages$` of `GetUserMessages`. -/
def userMessagesPattern : Regex :=
  .seq .bol (.seq (Regex.text "/v0/user/".data)
    (.seq (.group 1 (.plus (.cls [('/', '/')] true)))
      (.seq (Regex.text "/messages".data) .eol)))

/-- Pattern `^\+?[1-9]\d{9,14}$` of `isValidPhoneNumber`. -/
def phonePattern : Regex :=
  .seq .bol (.seq (.opt (.lit '+'))
    (.seq (.cls [('1', '9')] false)
      (.seq (.rep (.cls [('0', '9')] false) 9 14) .eol)))

/-- `isValidPhoneNumber` of `handlers/sms_handler.go`.  The pattern is a
constant that compiles, so the error branch of `regexp.MatchString` is not
reachable. -/
def isValidPhoneNumber (phoneNumber : String) : Bool :=
  phonePattern.MatchString phoneNumber

/-- Payload given to `respondWithJSON`: an `ErrorResponse`, or the slice of
records. -/
inductive Body where
  | error (error message : String) : Body
  | messages (records : Slice SMSRecord) : Body
  deriving DecidableEq, Repr

/-- What a request handler did: the user IDs for which it called
`GetMessagesByUserID`, in order, and the status code and payload it wrote. -/
structure Response where
  serviceCalls : List String
  status : Nat
  body : Body
  deriving DecidableEq, Repr

/-- Go `http.StatusText` for the two error codes the handler uses. -/
def statusText (code : Nat) : String :=
  if code = 400 then "Bad Request"
  else if code = 500 then "Internal Server Error"
  else ""

/-- `respondWithError`, as the payload it hands to `respondWithJSON`. -/
def respondWithError (statusCode : Nat) (message : String) : Nat × Body :=
  (statusCode, .error (statusText statusCode) message)

/-- `SMSHandler.GetUserMessages` for a request with URL path `path`, against
a store answering queries as `store` says. -/
def GetUserMessages (store : String → QueryResult) (path : String) : Response :=
  let matched := userMessagesPattern.FindStringSubmatch path
  if matched.length != 2 then
    let (code, body) := respondWithError 400 "Invalid URL format"
    { serviceCalls := [], status := code, body := body }
  else
    let userID := matched.getD 1 ""
    if !isValidPhoneNumber userID then
      let (code, body) := respondWithError 400 "Invalid user_id format. Expected phone number."
      { serviceCalls := [], status := code, body := body }
    else
      let (messages, err) := GetMessagesByUserID store userID
      if err.isSome then
        let (code, body) := respondWithError 500 "Failed to retrieve messages"
        { serviceCalls := [userID], status := code, body := body }
      else
        let messages := if messages.isNone then some [] else messages
        { serviceCalls := [userID], status := 200, body := .messages messages }

/-! ## Timestamps of the form `YYYY-MM-DDTHH:MM:SS` -/

/-- The character of the last decimal digit of `n`. -/
def digitChar (n : Nat) : Char := Char.ofNat (48 + n % 10)

/-- A number below 100 written with two digits. -/
def twoDigits (n : Nat) : List Char := [digitChar (n / 10), digitChar n]

/-- A number below 10000 written with four digits. -/
def fourDigits (n : Nat) : List Char :=
  [digitChar (n / 1000), digitChar (n / 100), digitChar (n / 10), digitChar n]

/-- The text `YYYY-MM-DDTHH:MM:SS` for the given date and time of day. -/
def formatLocal (year month day hour min sec : Nat) : String :=
  String.mk (fourDigits year ++ ('-' :: (twoDigits month ++ ('-' :: (twoDigits day ++
    ('T' :: (twoDigits hour ++ (':' :: (twoDigits min ++ (':' :: twoDigits sec))))))))))



/-- The ranges `time.parse` keeps its variables in while it walks a layout:
a field is either still at its initial value or within the range its layout
element checks. -/
def Parsed.PartialOK (p : Parsed) : Prop :=
  (0 ≤ p.year ∧ p.year ≤ 9999) ∧ (p.month = -1 ∨ (1 ≤ p.month ∧ p.month ≤ 12)) ∧
  (-1 ≤ p.day ∧ p.day ≤ 99) ∧ (0 ≤ p.hour ∧ p.hour < 24) ∧ (0 ≤ p.min ∧ p.min < 60) ∧
  (0 ≤ p.sec ∧ p.sec < 60) ∧ (0 ≤ p.nsec ∧ p.nsec < 1000000000)

/-- The zone offset written in a parsed value, in seconds east of UTC: zero
for `Z` and for a value without zone. -/
def Parsed.writtenOffset (p : Parsed) : Int :=
  match p.z with
  | some z => z.offset
  | none => if p.zoneOffset != -1 then p.zoneOffset else 0

/-- The date and time of day written in a parsed value. -/
def Parsed.written (p : Parsed) : Int × Nat × Nat × Nat × Nat × Nat :=
  (p.year, p.month.toNat, p.day.toNat, p.hour.toNat, p.min.toNat, p.sec.toNat)

/-- The written date and time, read as a UTC time. -/
def Parsed.asUTC (p : Parsed) : Time :=
  Date p.year p.month p.day p.hour p.min p.sec p.nsec .utc

/-- Whether a layout has a zone element. -/
def hasZone (layout : Layout) : Bool := layout.any fun x => x.2 == .stdISO8601ColonTZ

/-- The error `processMessage` returns for an `InsertOne` outcome (`fmt.Errorf`
wrapping in `SaveMessage` and `processMessage`); success and panics pass through. -/
def wrapSaveResult : CallResult → CallResult
  | .ok => .ok
  | .failed err =>
    .failed ("failed to save message to database: " ++ ("failed to insert SMS record: " ++ err))
  | .panics v => .panics v

/-- The events of a turn in which `processMessage` returned nil: what
`CommitMessages` adds to the trace. -/
def commitEvents (m : Message) : CallResult → List Event
  | .failed err => [.commitMessages m (.failed err), .logCommitError err]
  | r => [.commitMessages m r]

/-- Whether an event comes from `processMessage` or from the commit step
that follows it: an `InsertOne` or `CommitMessages` call, or one of their log
lines. -/
def Event.isProcessingOrCommit : Event → Bool
  | .insertOne _ _ => true
  | .commitMessages _ _ => true
  | .logTimestampWarning => true
  | .logProcessError _ => true
  | .logCommitError _ => true
  | _ => false

/-- The payload `{}`: a JSON object without members. -/
def emptyObjectPayload : String := "\x7b\x7d"

/-- The payload of the end-to-end scenario. -/
def scenarioPayload : String :=
  "\x7b\"eventId\":\"e1\",\"userId\":\"+15551234567\",\"phoneNumber\":\"+15559876543\"," ++
  "\"message\":\"hi\",\"status\":\"DELIVERED\",\"createdAt\":\"2025-12-25T10:30:00\"\x7d"

/-- A turn in which the scenario message is fetched while the stop channel is
open, and `InsertOne` and `CommitMessages` end as given. -/
def scenarioTurn (offset : Int) (insert commit : CallResult) : Turn :=
  { stopClosed := false, fetch := .message ⟨0, offset, scenarioPayload⟩,
    now := ⟨1766658700, 0, .utc⟩, insert := insert, commit := commit }

/-- The record the scenario message is converted to. -/
def scenarioRecord : SMSRecord :=
  { ID := NilObjectID, UserID := "+15551234567", PhoneNumber := "+15559876543",
    Message := "hi", Status := "DELIVERED", CreatedAt := ⟨1766658600, 0, .utc⟩ }



/-- Insert-before-commit on a trace: every `CommitMessages` call is directly
preceded by a successful `InsertOne` of the record converted from the
committed message, and that by the `FetchMessage` that returned this message. -/
def CommitGuarded (trace : List Event) : Prop :=
  ∀ pre post m r, trace = pre ++ Event.commitMessages m r :: post →
    ∃ pre1 ev now rec,
      pre = pre1 ++ [Event.fetchMessage (.message m), Event.insertOne rec .ok] ∧
      Unmarshal m.Value = .ok ev ∧ ev.ToSMSRecord now = (some rec, none)

/-- Whether an event is a call of `CommitMessages`. -/
def Event.isCommit : Event → Bool
  | .commitMessages _ _ => true
  | _ => false

/-- The matcher position `k` characters further on. -/
def MState.advance (st : MState) (k : Nat) : MState :=
  { rest := st.rest.drop k, pos := st.pos + k, caps := st.caps }

/-- The shape `isValidPhoneNumber` is meant to accept: an optional single
leading `+`, then 10 to 15 ASCII decimal digits of which the first is not `0`,
and nothing else. -/
def PhoneShape (s : List Char) : Prop :=
  ∃ sign first more, s = sign ++ first :: more ∧ (sign = [] ∨ sign = ['+']) ∧
    (isDigit first = true ∧ first ≠ '0') ∧ (∀ c ∈ more, isDigit c = true) ∧
    10 ≤ (first :: more).length ∧ (first :: more).length ≤ 15

/-- The shape of a request path `/v0/user/{id}/messages` with `id` non-empty
and free of `/`. -/
def UserMessagesPath (path id : List Char) : Prop :=
  path = "/v0/user/".data ++ id ++ "/messages".data ∧ id ≠ [] ∧ '/' ∉ id

/-! ## `config/config.go` -/

/-- `Config` of `config/config.go`. -/
structure Config where
  ServerPort : String
  MongoURI : String
  MongoDatabase : String
  MongoUser : String
  MongoPassword : String
  KafkaBrokers : List String
  KafkaTopic : String
  KafkaGroupID : String
  deriving DecidableEq, Repr

/-- The process environment as `os.Getenv` sees it: the value of a variable,
the empty string when it is not set. -/
abbrev Environ := String → String

/-- `getEnv` of `config/config.go`. -/
def getEnv (env : Environ) (key defaultValue : String) : String :=
  if env key != "" then env key else defaultValue

/-- `Config.validate`: `none` is a nil error. -/
def Config.validate (c : Config) : Option GoError :=
  if c.ServerPort == "" then some "server port is required"
  else if c.MongoURI == "" then some "MongoDB URI is required"
  else if c.MongoDatabase == "" then some "MongoDB database name is required"
  else if c.KafkaBrokers.length == 0 then some "at least one Kafka broker is required"
  else if c.KafkaTopic == "" then some "Kafka topic is required"
  else if c.KafkaGroupID == "" then some "Kafka group ID is required"
  else none

/-- `Load` of `config/config.go`: the pair `(*Config, error)`. -/
def Load (env : Environ) : Option Config × Option GoError :=
  let serverPort := getEnv env "GO_SERVICE_PORT" "8090"
  let mongoDatabase := getEnv env "MONGO_DATABASE" "sms_store"
  let mongoUser := getEnv env "MONGO_APP_USER" "smsapp"
  let mongoPassword := getEnv env "MONGO_APP_PASSWORD" "smsapp123"
  let kafkaTopic := getEnv env "KAFKA_TOPIC" "sms.events"
  let kafkaGroupID := getEnv env "KAFKA_GROUP_ID" "sms-store-consumer-group"
  let mongoHost := getEnv env "MONGO_HOST" "mongodb"
  let mongoPort := getEnv env "MONGO_PORT" "27017"
  let mongoURI := "mongodb://" ++ mongoUser ++ ":" ++ mongoPassword ++ "@" ++ mongoHost ++ ":" ++
    mongoPort ++ "/" ++ mongoDatabase ++ "?authSource=" ++ mongoDatabase
  let kafkaBrokerList := getEnv env "KAFKA_BROKERS" "kafka:9092"
  let config : Config :=
    { ServerPort := serverPort, MongoURI := mongoURI, MongoDatabase := mongoDatabase,
      MongoUser := mongoUser, MongoPassword := mongoPassword,
      KafkaBrokers := [kafkaBrokerList], KafkaTopic := kafkaTopic,
      KafkaGroupID := kafkaGroupID }
  match config.validate with
  | some err => (none, some ("configuration validation failed: " ++ err))
  | none => (some config, none)

/-- The entries of a comma-separated list: what the comment above the broker
assignment in `Load` announces (Go `strings.Split(s, ",")`). -/
def commaSeparated : List Char → List (List Char)
  | [] => [[]]
  | c :: cs =>
    match commaSeparated cs with
    | [] => [[c]]
    | entry :: entries => if c == ',' then [] :: entry :: entries else (c :: entry) :: entries

/-- An environment in which only `KAFKA_BROKERS` is set, to `value`. -/
def brokersOnly (value : String) : Environ :=
  fun key => if key == "KAFKA_BROKERS" then value else ""

/-! ## Timestamps with a fraction and a zone -/

/-- The zone designator at the end of a timestamp text: none, `Z`, or a
numeric offset `+hh:mm` / `-hh:mm`. -/
inductive ZoneText where
  | absent : ZoneText
  | zulu : ZoneText
  | offset (negative : Bool) (hours minutes : Nat) : ZoneText
  deriving DecidableEq, Repr

/-- The characters of a zone designator. -/
def ZoneText.text : ZoneText → List Char
  | .absent => []
  | .zulu => ['Z']
  | .offset negative hours minutes =>
    (if negative then '-' else '+') :: (twoDigits hours ++ (':' :: twoDigits minutes))

/-- What a zone designator means: seconds east of UTC. -/
def ZoneText.seconds : ZoneText → Int
  | .absent => 0
  | .zulu => 0
  | .offset negative hours minutes =>
    if negative then -((hours : Int) * 3600 + (minutes : Int) * 60)
    else (hours : Int) * 3600 + (minutes : Int) * 60

/-- A numeric offset is written with hours up to 23 and minutes up to 59. -/
def ZoneText.Valid : ZoneText → Prop
  | .offset _ hours minutes => hours ≤ 23 ∧ minutes ≤ 59
  | _ => True

/-- The characters of a fraction of a second: nothing for no digits, else `.`
and the digits. -/
def fracText (frac : List Nat) : List Char :=
  if frac.isEmpty then [] else '.' :: frac.map digitChar

/-- The number a list of decimal digits writes, continuing from `acc`. -/
def decimalValue (digits : List Nat) (acc : Int) : Int :=
  digits.foldl (fun a d => a * 10 + ((d % 10 : Nat) : Int)) acc

/-- What a fraction of a second means in nanoseconds: its first nine digits,
padded with zeros to nine. -/
def fracNanos (frac : List Nat) : Int :=
  decimalValue (frac.take 9) 0 * 10 ^ (9 - (frac.take 9).length)

/-- The text `YYYY-MM-DDTHH:MM:SS`, then the fraction, then the zone. -/
def formatTimestamp (year month day hour min sec : Nat) (frac : List Nat) (zone : ZoneText) :
    String :=
  String.mk ((formatLocal year month day hour min sec).data ++ (fracText frac ++ zone.text))

/-- What may follow the seconds and their fraction: nothing, or a character
that is neither a separator of the fraction nor a digit. -/
def EndsFraction (tail : List Char) : Prop :=
  tail = [] ∨ ∃ c cs, tail = c :: cs ∧ commaOrPeriod c = false ∧ isDigit c = false

/-- The fields `time.parse` holds after the date, the time of day and the
fraction of a timestamp text. -/
def parsedTimestamp (y m d h mi s : Nat) (frac : List Nat) : Parsed :=
  { year := y, month := m, day := d, hour := h, min := mi, sec := s, nsec := fracNanos frac }

/-- The hour text: two digits, or a single digit. -/
def hourText (h : Nat) (short : Bool) : List Char :=
  if short then [digitChar h] else twoDigits h

/-- The characters of a fraction of a second after the separator `sep`. -/
def fracTextSep (sep : Char) (frac : List Nat) : List Char :=
  if frac.isEmpty then [] else sep :: frac.map digitChar

/-- A timestamp text in all the variants `time.Parse` accepts: the hour with
two digits or one, the fraction after `.` or `,`. -/
def timestampText (y m d h : Nat) (short : Bool) (mi s : Nat) (sep : Char) (frac : List Nat)
    (zone : ZoneText) : List Char :=
  fourDigits y ++ ('-' :: (twoDigits m ++ ('-' :: (twoDigits d ++ ('T' :: (hourText h short ++
    (':' :: (twoDigits mi ++ (':' :: (twoDigits s ++ (fracTextSep sep frac ++ zone.text)))))))))))

/-- The numeric offsets `time.Parse` lets through: hours up to 24, minutes up
to 60. -/
def ZoneText.Accepted : ZoneText → Prop
  | .offset _ hours minutes => hours ≤ 24 ∧ minutes ≤ 60
  | _ => True

/-- The fields `time.parse` holds once it has read a zone designator. -/
def Parsed.withZone (p : Parsed) : ZoneText → Parsed
  | .absent => p
  | .zulu => { p with z := some .utc }
  | .offset negative hours minutes =>
    { p with zoneOffset := (ZoneText.offset negative hours minutes).seconds }

/-! # Theorems -/

/-! ## Calendar arithmetic: `Date` followed by the field accessors -/

theorem norm_inRange (hi lo base : Int) (h0 : 0 ≤ lo) (h1 : lo < base) :
    norm hi lo base = (hi, lo) := by
  unfold norm
  have h2 : ¬ lo < 0 := by omega
  have h3 : ¬ lo ≥ base := by omega
  simp [h2, h3]

theorem cutCycle (base b r : Nat) (hbase : 0 < base) (hb : b < 4)
    (h : r < base ∨ (b = 3 ∧ r = base)) :
    (base * b + r) / base - (base * b + r) / base / 4 = b := by
  rcases h with h | ⟨h3, hr⟩
  · have : (base * b + r) / base = b := by
      rw [Nat.mul_comm, Nat.add_comm, Nat.add_mul_div_right _ _ hbase, Nat.div_eq_of_lt h]
      omega
    rw [this]; omega
  · have : (base * b + r) / base = 4 := by
      have : base * b + r = 4 * base := by rw [h3, hr]; omega
      rw [this, Nat.mul_div_cancel _ hbase]
    rw [this, h3]

theorem absYear_lin (a b c e yday secs : Nat) (hb : b < 4) (hc : c < 25) (he : e < 4)
    (hy : yday < 365 + (if e = 3 ∧ (c ≠ 24 ∨ b = 3) then 1 else 0)) (hs : secs < 86400) :
    absYear ((146097 * a + 36524 * b + 1461 * c + 365 * e + yday) * 86400 + secs)
      = (((400 * a + 100 * b + 4 * c + e : Nat) : Int) + absoluteZeroYear, yday) := by
  have hy1 : yday < 365 ∨ (e = 3 ∧ yday = 365) := by split at hy <;> omega
  have hy3 : yday < 365 ∨ c ≠ 24 ∨ b = 3 := by split at hy <;> omega
  clear hy
  have hr2 : 1461 * c + (365 * e + yday) < 36524 ∨
      (b = 3 ∧ 1461 * c + (365 * e + yday) = 36524) := by omega
  have e4 := cutCycle 36524 b (1461 * c + (365 * e + yday)) (by omega) hb hr2
  have e8 := cutCycle 365 e yday (by omega) he hy1
  unfold absYear
  simp only [secondsPerDay, daysPer400Years, daysPer100Years, daysPer4Years]
  have h1 : ((146097 * a + 36524 * b + 1461 * c + 365 * e + yday) * 86400 + secs) / 86400
      = 146097 * a + (36524 * b + (1461 * c + (365 * e + yday))) := by omega
  have h2 : (146097 * a + (36524 * b + (1461 * c + (365 * e + yday)))) / 146097 = a := by omega
  have h3 : 146097 * a + (36524 * b + (1461 * c + (365 * e + yday))) - 146097 * a
      = 36524 * b + (1461 * c + (365 * e + yday)) := by omega
  have h5 : 36524 * b + (1461 * c + (365 * e + yday)) - 36524 * b
      = 1461 * c + (365 * e + yday) := by omega
  have h6 : (1461 * c + (365 * e + yday)) / 1461 = c := by omega
  have h7 : 1461 * c + (365 * e + yday) - 1461 * c = 365 * e + yday := by omega
  have h9 : 365 * e + yday - 365 * e = yday := by omega
  rw [h1, h2, h3, e4, h5, h6, h7, e8, h9]

/-- The year, split along the 400-, 100- and 4-year cycles of the absolute epoch. -/
theorem year_split (year : Int) (h0 : absoluteZeroYear ≤ year) :
    ∃ a b c e : Nat, b < 4 ∧ c < 25 ∧ e < 4 ∧
      year = ((400 * a + 100 * b + 4 * c + e : Nat) : Int) + absoluteZeroYear ∧
      daysSinceEpoch year = 146097 * a + 36524 * b + 1461 * c + 365 * e ∧
      (isLeap year = true ↔ (e = 3 ∧ (c ≠ 24 ∨ b = 3))) := by
  obtain ⟨y, hy⟩ : ∃ y : Nat, year = (y : Int) + absoluteZeroYear :=
    ⟨(year - absoluteZeroYear).toNat, by unfold absoluteZeroYear at *; omega⟩
  refine ⟨y / 400, y % 400 / 100, y % 100 / 4, y % 4, by omega, by omega, by omega, ?_, ?_, ?_⟩
  · rw [hy]; congr 1; norm_cast; omega
  · unfold daysSinceEpoch
    have : (year - absoluteZeroYear).toNat = y := by omega
    simp only [this, daysPer400Years, daysPer100Years, daysPer4Years]
    omega
  · unfold isLeap
    simp only [Bool.and_eq_true, Bool.or_eq_true, beq_iff_eq, bne_iff_ne, ne_eq]
    unfold absoluteZeroYear at hy
    omega

theorem daysBefore_eq (i : Nat) :
    daysBefore i = if i = 0 then 0 else if i = 1 then 31 else if i = 2 then 59
      else if i = 3 then 90 else if i = 4 then 120 else if i = 5 then 151
      else if i = 6 then 181 else if i = 7 then 212 else if i = 8 then 243
      else if i = 9 then 273 else if i = 10 then 304 else if i = 11 then 334 else 365 := by
  unfold daysBefore
  split
  all_goals first
    | rfl
    | simp_all

theorem monthEstimate (m day : Nat) (hm1 : 1 ≤ m) (hm2 : m ≤ 12)
    (h1 : daysBefore (m - 1) ≤ day) (h2 : day < daysBefore m) :
    (if day ≥ daysBefore (day / 31 + 1) then (day / 31 + 1 + 1, day - daysBefore (day / 31 + 1) + 1)
      else (day / 31 + 1, day - daysBefore (day / 31) + 1))
      = (m, day - daysBefore (m - 1) + 1) := by
  have hm : m = 1 ∨ m = 2 ∨ m = 3 ∨ m = 4 ∨ m = 5 ∨ m = 6 ∨ m = 7 ∨ m = 8 ∨ m = 9 ∨
      m = 10 ∨ m = 11 ∨ m = 12 := by omega
  generalize hq : day / 31 = q
  rw [daysBefore_eq] at h1 h2
  rw [daysBefore_eq (q + 1), daysBefore_eq q, daysBefore_eq (m - 1)]
  have hq' : q < 12 := by
    rcases hm with h | h | h | h | h | h | h | h | h | h | h | h <;> subst h <;>
      simp at h2 <;> omega
  have hqc : q = 0 ∨ q = 1 ∨ q = 2 ∨ q = 3 ∨ q = 4 ∨ q = 5 ∨ q = 6 ∨ q = 7 ∨ q = 8 ∨
      q = 9 ∨ q = 10 ∨ q = 11 := by omega
  rcases hm with h | h | h | h | h | h | h | h | h | h | h | h <;> subst h <;>
    simp at h1 h2 <;>
    rcases hqc with h | h | h | h | h | h | h | h | h | h | h | h <;> subst h <;>
    first
      | omega
      | (simp; omega)

theorem monthDay_spec (year : Int) (m d : Nat) (hm1 : 1 ≤ m) (hm2 : m ≤ 12)
    (hd1 : 1 ≤ d) (hd2 : d ≤ daysIn m year) :
    monthDay year (daysBefore (m - 1) + (if isLeap year && decide (m ≥ 3) then 1 else 0) + (d - 1))
        = (m, d) ∧
      daysBefore (m - 1) + (if isLeap year && decide (m ≥ 3) then 1 else 0) + (d - 1)
        < 365 + (if isLeap year then 1 else 0) := by
  have hmono : daysBefore (m - 1) < daysBefore m ∧ daysBefore m ≤ 365 ∧
      (m = 2 → daysBefore (m - 1) = 31 ∧ daysBefore m = 59) ∧
      (m = 1 → daysBefore (m - 1) = 0 ∧ daysBefore m = 31) ∧
      (3 ≤ m → 59 ≤ daysBefore (m - 1)) := by
    rw [daysBefore_eq, daysBefore_eq m]
    have hm : m = 1 ∨ m = 2 ∨ m = 3 ∨ m = 4 ∨ m = 5 ∨ m = 6 ∨ m = 7 ∨ m = 8 ∨ m = 9 ∨
        m = 10 ∨ m = 11 ∨ m = 12 := by omega
    rcases hm with h | h | h | h | h | h | h | h | h | h | h | h <;> subst h <;> simp
  obtain ⟨hlt, hle, hfeb, hjan, hmar⟩ := hmono
  unfold daysIn at hd2
  cases hl : isLeap year
  · -- common year
    have hd3 : d ≤ daysBefore m - daysBefore (m - 1) := by simpa [hl] using hd2
    simp only [Bool.false_and, Bool.false_eq_true, if_false, Nat.add_zero]
    refine ⟨?_, by omega⟩
    unfold monthDay
    simp only [hl, Bool.false_and, Bool.false_eq_true, if_false]
    rw [monthEstimate m _ hm1 hm2 (by omega) (by omega)]
    congr 1
    omega
  · by_cases h2 : m = 2
    · -- February of a leap year
      obtain ⟨hb1, hb2⟩ := hfeb h2
      subst h2
      have hd3 : d ≤ 29 := by simpa [hl] using hd2
      simp only [Bool.true_and, if_true]
      have hdec : decide (2 ≥ 3) = false := by decide
      simp only [hdec, Bool.false_eq_true, if_false, Nat.add_zero]
      refine ⟨?_, by omega⟩
      unfold monthDay
      simp only [hl, Bool.true_and]
      by_cases h29 : d = 29
      · subst h29
        simp [hb1]
      · have hne : ¬ (daysBefore (2 - 1) + (d - 1) = 31 + 29 - 1) := by omega
        have hng : ¬ (daysBefore (2 - 1) + (d - 1) > 31 + 29 - 1) := by omega
        simp only [beq_iff_eq, hne, if_false, decide_eq_true_eq, hng]
        rw [monthEstimate 2 _ (by omega) (by omega) (by omega) (by omega)]
        congr 1
        omega
    · have hd3 : d ≤ daysBefore m - daysBefore (m - 1) := by
        have : (m == 2) = false := by simpa using h2
        simpa [this] using hd2
      simp only [Bool.true_and, if_true]
      by_cases h3 : 3 ≤ m
      · have hdec : decide (m ≥ 3) = true := by simpa using h3
        simp only [hdec, if_true]
        have h59 := hmar h3
        refine ⟨?_, by omega⟩
        unfold monthDay
        simp only [hl, Bool.true_and]
        have hne : ¬ (daysBefore (m - 1) + 1 + (d - 1) = 31 + 29 - 1) := by omega
        have hgt : daysBefore (m - 1) + 1 + (d - 1) > 31 + 29 - 1 := by omega
        simp only [beq_iff_eq, hne, if_false, decide_eq_true_eq, hgt, if_true]
        rw [monthEstimate m _ hm1 hm2 (by omega) (by omega)]
        congr 1
        omega
      · have h1 : m = 1 := by omega
        obtain ⟨hb1, hb2⟩ := hjan h1
        have hdec : decide (m ≥ 3) = false := by simpa using h3
        simp only [hdec, Bool.false_eq_true, if_false, Nat.add_zero]
        refine ⟨?_, by omega⟩
        unfold monthDay
        simp only [hl, Bool.true_and]
        have hne : ¬ (daysBefore (m - 1) + (d - 1) = 31 + 29 - 1) := by omega
        have hng : ¬ (daysBefore (m - 1) + (d - 1) > 31 + 29 - 1) := by omega
        simp only [beq_iff_eq, hne, if_false, decide_eq_true_eq, hng]
        rw [monthEstimate m _ hm1 hm2 (by omega) (by omega)]
        congr 1
        omega

theorem absClock_spec (days h mi s : Nat) (hh : h < 24) (hmi : mi < 60) (hs : s < 60) :
    absClock (days * 86400 + (h * 3600 + mi * 60 + s)) = (h, mi, s) := by
  unfold absClock
  simp only [secondsPerDay, secondsPerHour, secondsPerMinute]
  have e1 : (days * 86400 + (h * 3600 + mi * 60 + s)) % 86400 = h * 3600 + mi * 60 + s := by
    omega
  have e2 : (h * 3600 + mi * 60 + s) / 3600 = h := by omega
  have e3 : h * 3600 + mi * 60 + s - h * 3600 = mi * 60 + s := by omega
  have e4 : (mi * 60 + s) / 60 = mi := by omega
  have e5 : mi * 60 + s - mi * 60 = s := by omega
  rw [e1, e2, e3, e4, e5]

/-- The instant `Date` builds from fields that are in range, counted in
seconds from the absolute epoch. -/
theorem Date_unixSec (year : Int) (m d h mi s : Nat) (nsec : Int) (loc : Location)
    (hm1 : 1 ≤ m) (hm2 : m ≤ 12) (hh : h < 24) (hmi : mi < 60) (hs : s < 60)
    (hn1 : 0 ≤ nsec) (hn2 : nsec < 1000000000) :
    Date year m d h mi s nsec loc =
      { unixSec := (((daysSinceEpoch year + (daysBefore (m - 1) +
            (if isLeap year && decide (m ≥ 3) then 1 else 0)) : Nat) : Int) + ((d : Int) - 1)) * 86400
            + ((h * 3600 + mi * 60 + s : Nat) : Int) - unixToAbsolute - loc.offset,
        nsec := nsec, loc := loc } := by
  have n1 := norm_inRange year ((m : Int) - 1) 12 (by omega) (by omega)
  have n2 := norm_inRange (s : Int) nsec 1000000000 hn1 hn2
  have n3 := norm_inRange (mi : Int) (s : Int) 60 (by omega) (by omega)
  have n4 := norm_inRange (h : Int) (mi : Int) 60 (by omega) (by omega)
  have n5 := norm_inRange (d : Int) (h : Int) 24 (by omega) (by omega)
  unfold Date
  simp only [n1, n2, n3, n4, n5, secondsPerDay, secondsPerHour, secondsPerMinute]
  have e1 : ((m : Int) - 1 + 1 - 1).toNat = m - 1 := by omega
  have e2 : (decide ((m : Int) - 1 + 1 ≥ 3)) = decide (m ≥ 3) := by
    apply Bool.decide_congr; omega
  rw [e1, e2]
  congr 1
  cases hl : (isLeap year && decide (m ≥ 3))
  · simp
  · simp; ring

/-- The field accessors of a time whose local second count is that of an
in-range civil date and clock reading give back that date and reading. -/
theorem fields_of_abs (t : Time) (year : Int) (m d h mi s : Nat)
    (hy : absoluteZeroYear ≤ year) (hm1 : 1 ≤ m) (hm2 : m ≤ 12)
    (hd1 : 1 ≤ d) (hd2 : d ≤ daysIn m year) (hh : h < 24) (hmi : mi < 60) (hs : s < 60)
    (habs : t.abs = (daysSinceEpoch year + (daysBefore (m - 1) +
        (if isLeap year && decide (m ≥ 3) then 1 else 0) + (d - 1))) * 86400
        + (h * 3600 + mi * 60 + s)) :
    t.fields = (year, m, d, h, mi, s) := by
  obtain ⟨hmd, hyd⟩ := monthDay_spec year m d hm1 hm2 hd1 hd2
  obtain ⟨a, b, c, e, hb, hc, he, hyear, hdse, hleap⟩ := year_split year hy
  have hyd' : daysBefore (m - 1) + (if isLeap year && decide (m ≥ 3) then 1 else 0) + (d - 1)
      < 365 + (if e = 3 ∧ (c ≠ 24 ∨ b = 3) then 1 else 0) := by
    by_cases hl : isLeap year = true
    · rw [if_pos (hleap.mp hl)]; simpa [hl] using hyd
    · have hl' : isLeap year = false := by simpa using hl
      rw [if_neg (fun hc => hl (hleap.mpr hc))]; simpa [hl'] using hyd
  have hsecs : h * 3600 + mi * 60 + s < 86400 := by omega
  have hY := absYear_lin a b c e _ (h * 3600 + mi * 60 + s) hb hc he hyd' hsecs
  have hclock := absClock_spec (daysSinceEpoch year + (daysBefore (m - 1) +
        (if isLeap year && decide (m ≥ 3) then 1 else 0) + (d - 1))) h mi s hh hmi hs
  have hdate : absDate t.abs = (year, m, d) := by
    unfold absDate
    rw [habs, hdse]
    rw [hY, ← hyear]
    simp only [hmd]
  unfold Time.fields Time.Year Time.Month Time.Day Time.Hour Time.Minute Time.Second
  rw [hdate, habs, hclock]

/-- Calendar round trip: the accessors of `Date` on in-range fields, read in the
location the date was built for, return those fields.  The same holds for the
time `time.Parse` builds from a zone offset. -/
theorem Date_fields (year : Int) (m d h mi s : Nat) (nsec : Int)
    (hy : absoluteZeroYear ≤ year) (hm1 : 1 ≤ m) (hm2 : m ≤ 12)
    (hd1 : 1 ≤ d) (hd2 : d ≤ daysIn m year) (hh : h < 24) (hmi : mi < 60) (hs : s < 60)
    (hn1 : 0 ≤ nsec) (hn2 : nsec < 1000000000) :
    (Date year m d h mi s nsec .utc).fields = (year, m, d, h, mi, s) := by
  apply fields_of_abs _ year m d h mi s hy hm1 hm2 hd1 hd2 hh hmi hs
  rw [Date_unixSec year m d h mi s nsec .utc hm1 hm2 hh hmi hs hn1 hn2]
  unfold Time.abs
  simp only [Location.offset]
  have hu : (0 : Int) ≤ unixToAbsolute := by unfold unixToAbsolute; omega
  omega

/-! ## Parsing `YYYY-MM-DDTHH:MM:SS` -/

theorem digitChar_facts (n : Nat) :
    isDigit (digitChar n) = true ∧ digitVal (digitChar n) = ((n % 10 : Nat) : Int) ∧
      digitChar n ≠ '-' ∧ digitChar n ≠ '+' := by
  have h : n % 10 < 10 := Nat.mod_lt _ (by decide)
  unfold digitChar
  generalize n % 10 = k at h
  interval_cases k <;> decide

theorem getnum_twoDigits (n : Nat) (hn : n < 100) (rest : List Char) (fixed : Bool) :
    getnum (twoDigits n ++ rest) fixed = some ((n : Int), rest) := by
  obtain ⟨d1, v1, -, -⟩ := digitChar_facts (n / 10)
  obtain ⟨d2, v2, -, -⟩ := digitChar_facts n
  simp only [twoDigits, List.cons_append, List.nil_append, getnum, d1, d2, v1, v2,
    Bool.not_true, Bool.false_eq_true, if_false]
  congr 2
  omega

theorem atoi_fourDigits (n : Nat) (hn : n < 10000) :
    atoi (fourDigits n) = some (n : Int) := by
  obtain ⟨d1, v1, m1, p1⟩ := digitChar_facts (n / 1000)
  obtain ⟨d2, v2, -, -⟩ := digitChar_facts (n / 100)
  obtain ⟨d3, v3, -, -⟩ := digitChar_facts (n / 10)
  obtain ⟨d4, v4, -, -⟩ := digitChar_facts n
  have e1 : (some (digitChar (n / 1000)) == some '-') = false := by simpa using m1
  have e2 : (some (digitChar (n / 1000)) == some '+') = false := by simpa using p1
  simp only [atoi, fourDigits, List.head?_cons, e1, e2, Bool.or_self, Bool.false_eq_true,
    if_false, leadingInt, d1, d2, d3, d4, v1, v2, v3, v4, if_true, List.isEmpty_nil]
  congr 1
  omega

theorem skip_one (c : Char) (rest : List Char) : skip (c :: rest) [c] = some rest := by
  simp [skip]

theorem parseStd_year (y : Nat) (hy : y < 10000) (f : Bool) (rest : List Char) (p : Parsed) :
    parseStd .stdLongYear f (fourDigits y ++ rest) p = .ok (rest, { p with year := y }) := by
  obtain ⟨d1, -, -, -⟩ := digitChar_facts (y / 1000)
  have a1 := atoi_fourDigits y hy
  simp only [fourDigits] at a1
  simp only [parseStd, fourDigits, List.cons_append, List.nil_append, d1, Bool.not_true,
    Bool.false_eq_true, if_false, a1]

theorem parseStd_month (m : Nat) (hm1 : 1 ≤ m) (hm2 : m ≤ 12) (f : Bool) (rest : List Char)
    (p : Parsed) :
    parseStd .stdZeroMonth f (twoDigits m ++ rest) p = .ok (rest, { p with month := m }) := by
  have r : (decide ((m : Int) ≤ 0) || decide ((12 : Int) < m)) = false := by
    simp only [Bool.or_eq_false_iff, decide_eq_false_iff_not]; omega
  simp only [parseStd, getnum_twoDigits m (by omega) rest true, r, Bool.false_eq_true, if_false]

theorem parseStd_day (d : Nat) (hd : d < 100) (f : Bool) (rest : List Char) (p : Parsed) :
    parseStd .stdZeroDay f (twoDigits d ++ rest) p = .ok (rest, { p with day := d }) := by
  simp only [parseStd, getnum_twoDigits d hd rest true]

theorem parseStd_hour (h : Nat) (hh : h < 24) (f : Bool) (rest : List Char) (p : Parsed) :
    parseStd .stdHour f (twoDigits h ++ rest) p = .ok (rest, { p with hour := h }) := by
  have r : (decide ((h : Int) < 0) || decide ((24 : Int) ≤ h)) = false := by
    simp only [Bool.or_eq_false_iff, decide_eq_false_iff_not]; omega
  simp only [parseStd, getnum_twoDigits h (by omega) rest false, r, Bool.false_eq_true, if_false]

theorem parseStd_minute (mi : Nat) (hmi : mi < 60) (f : Bool) (rest : List Char) (p : Parsed) :
    parseStd .stdZeroMinute f (twoDigits mi ++ rest) p = .ok (rest, { p with min := mi }) := by
  have r : (decide ((mi : Int) < 0) || decide ((60 : Int) ≤ mi)) = false := by
    simp only [Bool.or_eq_false_iff, decide_eq_false_iff_not]; omega
  simp only [parseStd, getnum_twoDigits mi (by omega) rest true, r, Bool.false_eq_true, if_false]

theorem parseStd_second_end (s : Nat) (hs : s < 60) (f : Bool) (p : Parsed) :
    parseStd .stdZeroSecond f (twoDigits s) p = .ok ([], { p with sec := s }) := by
  have r : (decide ((s : Int) < 0) || decide ((60 : Int) ≤ s)) = false := by
    simp only [Bool.or_eq_false_iff, decide_eq_false_iff_not]; omega
  have g := getnum_twoDigits s (by omega) [] true
  simp only [List.append_nil] at g
  simp only [parseStd, g, r, Bool.false_eq_true, if_false]

theorem skip_nil (value : List Char) : skip value [] = some value := by
  cases value <;> rfl

theorem parseChunks_step (pre : List Char) (std : Std) (layout : Layout)
    (value v1 v2 : List Char) (p p2 : Parsed) (h1 : skip value pre = some v1)
    (h2 : parseStd std (nextIsFrac layout) v1 p = .ok (v2, p2)) :
    parseChunks ((pre, std) :: layout) value p = parseChunks layout v2 p2 := by
  simp only [parseChunks, h1, h2]

theorem parseChunks_formatLocal (y m d h mi s : Nat) (hy : y < 10000)
    (hm1 : 1 ≤ m) (hm2 : m ≤ 12) (hd : d < 100) (hh : h < 24) (hmi : mi < 60) (hs : s < 60) :
    parseChunks layoutLocal (formatLocal y m d h mi s).data {} =
      .ok { year := y, month := m, day := d, hour := h, min := mi, sec := s } := by
  unfold layoutLocal formatLocal
  rw [parseChunks_step _ _ _ _ _ _ _ _ (skip_nil _) (parseStd_year y hy _ _ _),
    parseChunks_step _ _ _ _ _ _ _ _ (skip_one _ _) (parseStd_month m hm1 hm2 _ _ _),
    parseChunks_step _ _ _ _ _ _ _ _ (skip_one _ _) (parseStd_day d hd _ _ _),
    parseChunks_step _ _ _ _ _ _ _ _ (skip_one _ _) (parseStd_hour h hh _ _ _),
    parseChunks_step _ _ _ _ _ _ _ _ (skip_one _ _) (parseStd_minute mi hmi _ _ _),
    parseChunks_step _ _ _ _ _ _ _ _ (skip_one _ _) (parseStd_second_end s hs _ _)]
  rfl

/-! ## What a successful `time.Parse` guarantees -/

theorem digitVal_range (c : Char) (h : isDigit c = true) : 0 ≤ digitVal c ∧ digitVal c ≤ 9 := by
  unfold isDigit at h
  unfold digitVal
  simp only [Bool.and_eq_true, decide_eq_true_eq] at h
  omega

theorem getnum_range (s : List Char) (fixed : Bool) (n : Int) (rest : List Char)
    (h : getnum s fixed = some (n, rest)) : 0 ≤ n ∧ n ≤ 99 := by
  unfold getnum at h
  split at h
  · simp at h
  · rename_i c0
    by_cases h0 : isDigit c0 = true
    · have r0 := digitVal_range c0 h0
      cases fixed <;> simp [h0] at h
      omega
    · simp [h0] at h
  · rename_i c0 c1 tl
    by_cases h0 : isDigit c0 = true
    · have r0 := digitVal_range c0 h0
      by_cases h1 : isDigit c1 = true
      · have r1 := digitVal_range c1 h1
        simp [h0, h1] at h
        omega
      · cases fixed <;> simp [h0, h1] at h
        omega
    · simp [h0] at h

theorem leadingInt_range (l : List Char) :
    ∀ x : Int, 0 ≤ x → (leadingInt l x).2 = [] →
      0 ≤ (leadingInt l x).1 ∧ (leadingInt l x).1 < (x + 1) * 10 ^ l.length := by
  induction l with
  | nil => intro x hx _; simp [leadingInt]; omega
  | cons c tl ih =>
    intro x hx h
    unfold leadingInt at h ⊢
    by_cases hc : isDigit c = true
    · simp only [hc, if_true] at h ⊢
      have r := digitVal_range c hc
      obtain ⟨h1, h2⟩ := ih (x * 10 + digitVal c) (by omega) h
      refine ⟨h1, lt_of_lt_of_le h2 ?_⟩
      have hp : (0 : Int) < 10 ^ tl.length := by positivity
      rw [List.length_cons, pow_succ]
      nlinarith
    · simp [hc] at h

theorem atoi_range (l : List Char) (n : Int) (h : atoi l = some n) :
    n < 10 ^ l.length := by
  unfold atoi at h
  simp only [] at h
  have hlen : (if (l.head? == some '-' || l.head? == some '+') = true then l.tail else l).length
      ≤ l.length := by
    split
    · simp
    · exact le_refl _
  generalize (if (l.head? == some '-' || l.head? == some '+') = true then l.tail else l) = l1
    at h hlen
  by_cases hrem : (leadingInt l1 0).2 = []
  · have r := leadingInt_range l1 0 (le_refl _) hrem
    have hp : (10 : Int) ^ l1.length ≤ 10 ^ l.length := pow_le_pow_right₀ (by norm_num) hlen
    have hp0 : (0 : Int) < 10 ^ l.length := by positivity
    simp only [hrem, List.isEmpty_nil, if_true, Option.some.injEq] at h
    split at h <;> omega
  · have : (leadingInt l1 0).2.isEmpty = false := by
      cases hx : (leadingInt l1 0).2 with
      | nil => exact absurd hx hrem
      | cons _ _ => rfl
    simp [this] at h

theorem parseNanoseconds_range (value : List Char) (nbytes : Nat) (ns : Int)
    (h : parseNanoseconds value nbytes = .ok ns) : 0 ≤ ns ∧ ns < 1000000000 := by
  unfold parseNanoseconds at h
  split at h
  · simp at h
  · rename_i c tl
    split at h
    · simp at h
    · simp only [] at h
      split at h
      · simp at h
      · rename_i raw hraw
        split at h
        · simp at h
        · rename_i hneg
          simp only [Except.ok.injEq] at h
          have hb := atoi_range _ _ hraw
          generalize hnb : (if nbytes > 10 then 10 else nbytes) = nb at h hb hraw
          have hnb10 : nb ≤ 10 := by rw [← hnb]; split <;> omega
          have hlen : (List.drop 1 (List.take nb (c :: tl))).length ≤ nb - 1 := by
            simp only [List.length_drop, List.length_take]
            omega
          have hp : (10 : Int) ^ (List.drop 1 (List.take nb (c :: tl))).length ≤ 10 ^ (nb - 1) :=
            pow_le_pow_right₀ (by norm_num) hlen
          have hraw2 : raw < 10 ^ (nb - 1) := lt_of_lt_of_le hb hp
          have hraw0 : 0 ≤ raw := by omega
          subst h
          clear hb hp hlen hraw hnb
          interval_cases nb <;> simp at hraw2 ⊢ <;> omega

theorem atoi_nonneg (l : List Char) (n : Int) (hs : (l.head? == some '-') = false)
    (h : atoi l = some n) : 0 ≤ n := by
  unfold atoi at h
  simp only [hs, Bool.false_or, Bool.false_eq_true, if_false] at h
  generalize (if (l.head? == some '+') = true then l.tail else l) = l1 at h
  by_cases hrem : (leadingInt l1 0).2 = []
  · have r := leadingInt_range l1 0 (le_refl _) hrem
    simp only [hrem, List.isEmpty_nil, if_true, Option.some.injEq] at h
    omega
  · have : (leadingInt l1 0).2.isEmpty = false := by
      cases hx : (leadingInt l1 0).2 with
      | nil => exact absurd hx hrem
      | cons _ _ => rfl
    simp [this] at h

theorem isDigit_ne_minus (c : Char) (h : isDigit c = true) : (some c == some '-') = false := by
  have : c ≠ '-' := by
    intro hc
    subst hc
    exact absurd h (by decide)
  simpa using this

/-- Every layout element keeps the parsed fields within their ranges. -/
theorem parseStd_preserves (std : Std) (f : Bool) (v v1 : List Char) (p p1 : Parsed)
    (hp : p.PartialOK) (h : parseStd std f v p = .ok (v1, p1)) : p1.PartialOK := by
  obtain ⟨hy, hm, hd, hh, hmi, hs, hn⟩ := hp
  cases std with
  | stdLongYear =>
    unfold parseStd at h
    simp only [] at h
    split at h
    · rename_i a b c d rest
      by_cases ha : isDigit a = true
      · simp only [ha, Bool.not_true, Bool.false_eq_true, if_false] at h
        split at h
        · simp at h
        · rename_i y hyv
          have h1 := atoi_range _ _ hyv
          have h2 := atoi_nonneg _ _ (by simpa using isDigit_ne_minus a ha) hyv
          simp only [Except.ok.injEq, Prod.mk.injEq] at h
          obtain ⟨-, rfl⟩ := h
          refine ⟨⟨h2, ?_⟩, hm, hd, hh, hmi, hs, hn⟩
          simp at h1
          show y ≤ 9999
          omega
      · simp [ha] at h
    · simp at h
  | stdZeroMonth =>
    unfold parseStd at h
    simp only [] at h
    split at h
    · simp at h
    · rename_i m rest hg
      split at h
      · simp at h
      · rename_i hr
        simp only [Except.ok.injEq, Prod.mk.injEq] at h
        obtain ⟨-, rfl⟩ := h
        simp only [Bool.or_eq_true, decide_eq_true_eq, not_or, not_le, not_lt] at hr
        exact ⟨hy, Or.inr ⟨by show (1 : Int) ≤ m; omega, by show m ≤ 12; omega⟩, hd, hh, hmi, hs, hn⟩
  | stdZeroDay =>
    unfold parseStd at h
    simp only [] at h
    split at h
    · simp at h
    · rename_i d rest hg
      have r := getnum_range _ _ _ _ hg
      simp only [Except.ok.injEq, Prod.mk.injEq] at h
      obtain ⟨-, rfl⟩ := h
      exact ⟨hy, hm, ⟨by show (-1 : Int) ≤ d; omega, by show d ≤ 99; omega⟩, hh, hmi, hs, hn⟩
  | stdHour =>
    unfold parseStd at h
    simp only [] at h
    split at h
    · simp at h
    · rename_i x rest hg
      split at h
      · simp at h
      · rename_i hr
        simp only [Except.ok.injEq, Prod.mk.injEq] at h
        obtain ⟨-, rfl⟩ := h
        simp only [Bool.or_eq_true, decide_eq_true_eq, not_or, not_le, not_lt] at hr
        exact ⟨hy, hm, hd, ⟨by show (0 : Int) ≤ x; omega, by show x < 24; omega⟩, hmi, hs, hn⟩
  | stdZeroMinute =>
    unfold parseStd at h
    simp only [] at h
    split at h
    · simp at h
    · rename_i x rest hg
      split at h
      · simp at h
      · rename_i hr
        simp only [Except.ok.injEq, Prod.mk.injEq] at h
        obtain ⟨-, rfl⟩ := h
        simp only [Bool.or_eq_true, decide_eq_true_eq, not_or, not_le, not_lt] at hr
        exact ⟨hy, hm, hd, hh, ⟨by show (0 : Int) ≤ x; omega, by show x < 60; omega⟩, hs, hn⟩
  | stdZeroSecond =>
    unfold parseStd at h
    simp only [] at h
    split at h
    · simp at h
    · rename_i x rest hg
      split at h
      · simp at h
      · rename_i hr
        simp only [Bool.or_eq_true, decide_eq_true_eq, not_or, not_le, not_lt] at hr
        have hx : (0 : Int) ≤ x ∧ x < 60 := by omega
        split at h
        · split at h
          · split at h
            · simp at h
            · rename_i ns hns
              have r := parseNanoseconds_range _ _ _ hns
              simp only [Except.ok.injEq, Prod.mk.injEq] at h
              obtain ⟨-, rfl⟩ := h
              exact ⟨hy, hm, hd, hh, hmi, hx, r⟩
          · simp only [Except.ok.injEq, Prod.mk.injEq] at h
            obtain ⟨-, rfl⟩ := h
            exact ⟨hy, hm, hd, hh, hmi, hx, hn⟩
        · simp only [Except.ok.injEq, Prod.mk.injEq] at h
          obtain ⟨-, rfl⟩ := h
          exact ⟨hy, hm, hd, hh, hmi, hx, hn⟩
  | stdFracSecond9 k =>
    unfold parseStd at h
    simp only [] at h
    split at h
    · split at h
      · split at h
        · simp at h
        · rename_i ns hns
          have r := parseNanoseconds_range _ _ _ hns
          simp only [Except.ok.injEq, Prod.mk.injEq] at h
          obtain ⟨-, rfl⟩ := h
          exact ⟨hy, hm, hd, hh, hmi, hs, r⟩
      · simp only [Except.ok.injEq, Prod.mk.injEq] at h
        obtain ⟨-, rfl⟩ := h
        exact ⟨hy, hm, hd, hh, hmi, hs, hn⟩
    · simp only [Except.ok.injEq, Prod.mk.injEq] at h
      obtain ⟨-, rfl⟩ := h
      exact ⟨hy, hm, hd, hh, hmi, hs, hn⟩
  | stdISO8601ColonTZ =>
    unfold parseStd at h
    simp only [] at h
    split at h
    · simp at h
    · split at h
      · simp only [Except.ok.injEq, Prod.mk.injEq] at h
        obtain ⟨-, rfl⟩ := h
        exact ⟨hy, hm, hd, hh, hmi, hs, hn⟩
      · split at h
        · split at h
          · simp at h
          · simp only [Except.ok.injEq, Prod.mk.injEq] at h
            obtain ⟨-, rfl⟩ := h
            exact ⟨hy, hm, hd, hh, hmi, hs, hn⟩
        · simp at h

/-- An element other than the zone element leaves the zone variables alone. -/
theorem parseStd_zone (std : Std) (f : Bool) (v v1 : List Char) (p p1 : Parsed)
    (hstd : std ≠ .stdISO8601ColonTZ) (h : parseStd std f v p = .ok (v1, p1)) :
    p1.z = p.z ∧ p1.zoneOffset = p.zoneOffset := by
  cases std with
  | stdISO8601ColonTZ => exact absurd rfl hstd
  | stdLongYear =>
    unfold parseStd at h
    simp only [] at h
    repeat' split at h
    all_goals first
      | (simp at h; done)
      | (simp only [Except.ok.injEq, Prod.mk.injEq] at h; obtain ⟨-, rfl⟩ := h; exact ⟨rfl, rfl⟩)
  | stdZeroMonth =>
    unfold parseStd at h
    simp only [] at h
    repeat' split at h
    all_goals first
      | (simp at h; done)
      | (simp only [Except.ok.injEq, Prod.mk.injEq] at h; obtain ⟨-, rfl⟩ := h; exact ⟨rfl, rfl⟩)
  | stdZeroDay =>
    unfold parseStd at h
    simp only [] at h
    repeat' split at h
    all_goals first
      | (simp at h; done)
      | (simp only [Except.ok.injEq, Prod.mk.injEq] at h; obtain ⟨-, rfl⟩ := h; exact ⟨rfl, rfl⟩)
  | stdHour =>
    unfold parseStd at h
    simp only [] at h
    repeat' split at h
    all_goals first
      | (simp at h; done)
      | (simp only [Except.ok.injEq, Prod.mk.injEq] at h; obtain ⟨-, rfl⟩ := h; exact ⟨rfl, rfl⟩)
  | stdZeroMinute =>
    unfold parseStd at h
    simp only [] at h
    repeat' split at h
    all_goals first
      | (simp at h; done)
      | (simp only [Except.ok.injEq, Prod.mk.injEq] at h; obtain ⟨-, rfl⟩ := h; exact ⟨rfl, rfl⟩)
  | stdZeroSecond =>
    unfold parseStd at h
    simp only [] at h
    repeat' split at h
    all_goals first
      | (simp at h; done)
      | (simp only [Except.ok.injEq, Prod.mk.injEq] at h; obtain ⟨-, rfl⟩ := h; exact ⟨rfl, rfl⟩)
  | stdFracSecond9 k =>
    unfold parseStd at h
    simp only [] at h
    repeat' split at h
    all_goals first
      | (simp at h; done)
      | (simp only [Except.ok.injEq, Prod.mk.injEq] at h; obtain ⟨-, rfl⟩ := h; exact ⟨rfl, rfl⟩)

theorem parseChunks_preserves (layout : Layout) :
    ∀ (v : List Char) (p p1 : Parsed), p.PartialOK → parseChunks layout v p = .ok p1 →
      p1.PartialOK := by
  induction layout with
  | nil =>
    intro v p p1 hp h
    unfold parseChunks at h
    split at h
    · simp only [Except.ok.injEq] at h; exact h ▸ hp
    · simp at h
  | cons x rest ih =>
    intro v p p1 hp h
    obtain ⟨pre, std⟩ := x
    unfold parseChunks at h
    split at h
    · simp at h
    · split at h
      · simp at h
      · rename_i v2 p2 hstep
        exact ih v2 p2 p1 (parseStd_preserves _ _ _ _ _ _ hp hstep) h

theorem parseChunks_zone (layout : Layout) :
    ∀ (v : List Char) (p p1 : Parsed), hasZone layout = false → parseChunks layout v p = .ok p1 →
      p1.z = p.z ∧ p1.zoneOffset = p.zoneOffset := by
  induction layout with
  | nil =>
    intro v p p1 _ h
    unfold parseChunks at h
    split at h
    · simp only [Except.ok.injEq] at h; exact h ▸ ⟨rfl, rfl⟩
    · simp at h
  | cons x rest ih =>
    intro v p p1 hz h
    obtain ⟨pre, std⟩ := x
    have hz1 : std ≠ .stdISO8601ColonTZ ∧ hasZone rest = false := by
      unfold hasZone at hz ⊢
      simp only [List.any_cons, Bool.or_eq_false_iff, beq_eq_false_iff_ne, ne_eq] at hz
      exact hz
    unfold parseChunks at h
    split at h
    · simp at h
    · split at h
      · simp at h
      · rename_i v2 p2 hstep
        obtain ⟨e1, e2⟩ := parseStd_zone _ _ _ _ _ _ hz1.1 hstep
        obtain ⟨e3, e4⟩ := ih v2 p2 p1 hz1.2 h
        exact ⟨e3.trans e1, e4.trans e2⟩

theorem fields_congr (t1 t2 : Time) (h : t1.abs = t2.abs) : t1.fields = t2.fields := by
  unfold Time.fields Time.Year Time.Month Time.Day Time.Hour Time.Minute Time.Second
  rw [h]

/-- The time `time.parse` builds from fields that passed its range checks: the
same instant as the written date and time read in UTC and moved back by the
written offset, and it shows the written fields in its own location; the
written fields are what `Date` gives back in UTC. -/
theorem buildTime_spec (p : Parsed) (t : Time) (hp : p.PartialOK) (h : buildTime p = .ok t) :
    p.asUTC.fields = p.written ∧ t.UTC = p.asUTC.addSec (-p.writtenOffset) ∧
      t.fields = p.written ∧ (p.writtenOffset = 0 → t.UTC.fields = p.written) := by
  obtain ⟨hy, hm, hd, hh, hmi, hs, hn⟩ := hp
  unfold buildTime at h
  split at h
  · simp at h
  · rename_i hday
    simp only [Bool.or_eq_true, decide_eq_true_eq, not_or, not_lt] at hday
    obtain ⟨hd1, hd2⟩ := hday
    have hm1 : 1 ≤ p.month ∧ p.month ≤ 12 := by
      rcases hm with hm | hm
      · rw [hm] at hd2
        have : daysIn (Int.toNat (-1)) p.year = 0 := by
          simp [daysIn, daysBefore]
        rw [this] at hd2
        omega
      · exact hm
    have e1 : ((p.month.toNat : Nat) : Int) = p.month := Int.toNat_of_nonneg (by omega)
    have e2 : ((p.day.toNat : Nat) : Int) = p.day := Int.toNat_of_nonneg (by omega)
    have e3 : ((p.hour.toNat : Nat) : Int) = p.hour := Int.toNat_of_nonneg (by omega)
    have e4 : ((p.min.toNat : Nat) : Int) = p.min := Int.toNat_of_nonneg (by omega)
    have e5 : ((p.sec.toNat : Nat) : Int) = p.sec := Int.toNat_of_nonneg (by omega)
    have hazy : absoluteZeroYear ≤ p.year := by unfold absoluteZeroYear; omega
    have hF := Date_fields p.year p.month.toNat p.day.toNat p.hour.toNat p.min.toNat p.sec.toNat
      p.nsec hazy (by omega) (by omega) (by omega) (by omega) (by omega) (by omega) (by omega)
      hn.1 hn.2
    rw [e1, e2, e3, e4, e5] at hF
    have hU := fun loc => Date_unixSec p.year p.month.toNat p.day.toNat p.hour.toNat p.min.toNat
      p.sec.toNat p.nsec loc (by omega) (by omega) (by omega) (by omega) (by omega) hn.1 hn.2
    simp only [e1, e2, e3, e4, e5] at hU
    have hF1 : p.asUTC.fields = p.written := hF
    have hUs : ∀ loc, (Date p.year p.month p.day p.hour p.min p.sec p.nsec loc).unixSec
        = p.asUTC.unixSec - loc.offset := by
      intro loc
      unfold Parsed.asUTC
      rw [hU loc, hU .utc]
      simp [Location.offset]
    have hUl : ∀ loc, (Date p.year p.month p.day p.hour p.min p.sec p.nsec loc).loc = loc := by
      intro loc
      rw [hU loc]
    have hloc : p.asUTC.loc = .utc := hUl .utc
    have hUn : ∀ loc, (Date p.year p.month p.day p.hour p.min p.sec p.nsec loc).nsec
        = p.asUTC.nsec := by
      intro loc
      unfold Parsed.asUTC
      rw [hU loc, hU .utc]
    have hutc : ∀ (t1 : Time) (off : Int), t1.unixSec = p.asUTC.unixSec - off →
        t1.nsec = p.asUTC.nsec → t1.UTC = p.asUTC.addSec (-off) := by
      intro t1 off h1 h2
      unfold Time.UTC Time.addSec
      rw [h1, h2, hloc]
      congr 1
    have habs : ∀ t1 : Time, t1.unixSec + t1.loc.offset = p.asUTC.unixSec →
        t1.fields = p.written := by
      intro t1 ht1
      rw [← hF1]
      apply fields_congr
      unfold Time.abs
      rw [ht1, hloc]
      simp [Location.offset]
    refine ⟨hF1, ?_⟩
    unfold Parsed.writtenOffset
    split at h
    · rename_i z hz
      simp only [Except.ok.injEq] at h
      subst h
      refine ⟨hutc _ _ (hUs z) (hUn z), habs _ (by rw [hUs z, hUl z]; omega), ?_⟩
      intro h0
      apply habs
      show (Date p.year p.month p.day p.hour p.min p.sec p.nsec z).unixSec + 0 = _
      rw [hUs z, h0]; omega
    · rename_i hz
      split at h
      · rename_i hoff
        simp only [Except.ok.injEq] at h
        subst h
        simp only [hoff, if_true]
        have h1 : ((Date p.year p.month p.day p.hour p.min p.sec p.nsec .utc).addSec
            (-p.zoneOffset)).unixSec = p.asUTC.unixSec - p.zoneOffset := by
          show p.asUTC.unixSec + -p.zoneOffset = _
          omega
        refine ⟨hutc _ _ h1 (hUn .utc), habs _ ?_, ?_⟩
        · show ((Date p.year p.month p.day p.hour p.min p.sec p.nsec .utc).addSec
            (-p.zoneOffset)).unixSec + p.zoneOffset = _
          rw [h1]; omega
        · intro h0
          apply habs
          show ((Date p.year p.month p.day p.hour p.min p.sec p.nsec .utc).addSec
            (-p.zoneOffset)).unixSec + 0 = _
          rw [h1, h0]; omega
      · rename_i hoff
        simp only [Except.ok.injEq] at h
        subst h
        simp only [hoff, Bool.false_eq_true, if_false]
        refine ⟨hutc p.asUTC 0 (by omega) rfl, hF1, fun _ => hF1⟩

theorem PartialOK_init : ({} : Parsed).PartialOK := by
  unfold Parsed.PartialOK
  decide

theorem Parse_inv (layout : Layout) (s : String) (t : Time) (h : Parse layout s = .ok t) :
    ∃ p, parseChunks layout s.data {} = .ok p ∧ p.PartialOK ∧ buildTime p = .ok t ∧
      (hasZone layout = false → p.writtenOffset = 0) := by
  unfold Parse at h
  split at h
  · simp at h
  · rename_i p hp
    refine ⟨p, hp, parseChunks_preserves layout _ _ _ PartialOK_init hp, h, ?_⟩
    intro hz
    obtain ⟨e1, e2⟩ := parseChunks_zone layout _ _ _ hz hp
    unfold Parsed.writtenOffset
    rw [e1, e2]
    rfl

theorem parseJavaLocalDateTime_inv (s : String) (t : Time)
    (h : parseJavaLocalDateTime s = (t, none)) :
    ∃ layout t0, layout ∈ layouts ∧ Parse layout s = .ok t0 ∧ t = t0.UTC := by
  unfold parseJavaLocalDateTime layouts at h
  simp only [parseLayouts] at h
  split at h
  · rename_i t0 h0
    exact ⟨layoutLocal, t0, by simp [layouts], h0, by simp at h; exact h.symm⟩
  · split at h
    · rename_i t0 h0
      exact ⟨layoutMicro, t0, by simp [layouts], h0, by simp at h; exact h.symm⟩
    · split at h
      · rename_i t0 h0
        exact ⟨layoutRFC3339, t0, by simp [layouts], h0, by simp at h; exact h.symm⟩
      · simp at h

/-! ## Claims about `models/sms_record.go` -/

theorem ToSMSRecord_eq (k : KafkaEvent) (now : Time) :
    k.ToSMSRecord now =
      (some { ID := NilObjectID, UserID := k.UserID, PhoneNumber := k.PhoneNumber,
              Message := k.Message, Status := k.Status,
              CreatedAt := if (parseJavaLocalDateTime k.CreatedAt).2.isSome then now.UTC
                else (parseJavaLocalDateTime k.CreatedAt).1 }, none) := by
  unfold KafkaEvent.ToSMSRecord
  rfl

theorem SaveMessage_events (r : SMSRecord) (insert : CallResult) :
    (SaveMessage (some r) insert).1 = [.insertOne r insert] := by
  cases insert <;> rfl

/-- C2. Conversion totality: for every event and clock reading, `ToSMSRecord`
returns a non-nil record and a nil error.  Whenever `parseJavaLocalDateTime`
rejects the event's `CreatedAt`, the record's `CreatedAt` is the clock reading
in UTC: the instant of `now` (same seconds and nanoseconds) with location UTC;
otherwise it is the parsed time.  Hence `processMessage` never writes the
"Failed to parse timestamp" warning. -/
theorem ToSMSRecord_total (k : KafkaEvent) (now : Time) (m : Message) (insert : CallResult) :
    (∃ r : SMSRecord, k.ToSMSRecord now = (some r, none) ∧
        ((parseJavaLocalDateTime k.CreatedAt).2.isSome = true →
          r.CreatedAt.loc = .utc ∧ r.CreatedAt.unixSec = now.unixSec ∧
          r.CreatedAt.nsec = now.nsec) ∧
        ((parseJavaLocalDateTime k.CreatedAt).2 = none →
          r.CreatedAt = (parseJavaLocalDateTime k.CreatedAt).1)) ∧
      Event.logTimestampWarning ∉ (processMessage m now insert).1 := by
  refine ⟨⟨_, ToSMSRecord_eq k now, ?_, ?_⟩, ?_⟩
  · intro h
    simp only [h, if_true]
    exact ⟨rfl, rfl, rfl⟩
  · intro h
    simp [h]
  · unfold processMessage
    split
    · simp
    · rename_i ev _
      rw [ToSMSRecord_eq ev now]
      simp only [Option.isSome_none, Bool.false_eq_true, if_false, List.nil_append]
      have hev := SaveMessage_events
        { ID := NilObjectID, UserID := ev.UserID, PhoneNumber := ev.PhoneNumber,
          Message := ev.Message, Status := ev.Status,
          CreatedAt := if (parseJavaLocalDateTime ev.CreatedAt).2.isSome then now.UTC
            else (parseJavaLocalDateTime ev.CreatedAt).1 } insert
      split <;> rename_i evs _ hs <;> (rw [hs] at hev; simp only at hev; subst hev; simp)

/-- C2, at an event whose timestamp no layout accepts, converted when the
local clock (one hour east of UTC) reads `1766658600.000000005`: the record
carries that instant, in UTC. -/
theorem ToSMSRecord_total_witness :
    (parseJavaLocalDateTime "yesterday").2.isSome = true ∧
    KafkaEvent.ToSMSRecord ⟨"e1", "u", "p", "m", "s", "yesterday"⟩ ⟨1766658600, 5, .fixed 3600⟩
      = (some ⟨NilObjectID, "u", "p", "m", "s", ⟨1766658600, 5, .utc⟩⟩, none) ∧
    ((∃ r : SMSRecord,
        KafkaEvent.ToSMSRecord ⟨"e1", "u", "p", "m", "s", "yesterday"⟩
          ⟨1766658600, 5, .fixed 3600⟩ = (some r, none) ∧
        ((parseJavaLocalDateTime "yesterday").2.isSome = true →
          r.CreatedAt.loc = .utc ∧ r.CreatedAt.unixSec = 1766658600 ∧ r.CreatedAt.nsec = 5) ∧
        ((parseJavaLocalDateTime "yesterday").2 = none →
          r.CreatedAt = (parseJavaLocalDateTime "yesterday").1)) ∧
      Event.logTimestampWarning ∉
        (processMessage ⟨0, 0, emptyObjectPayload⟩ ⟨1766658600, 5, .fixed 3600⟩ .ok).1) :=
  ⟨by decide, by rfl,
   ToSMSRecord_total ⟨"e1", "u", "p", "m", "s", "yesterday"⟩ ⟨1766658600, 5, .fixed 3600⟩
    ⟨0, 0, emptyObjectPayload⟩ .ok⟩

/-- C3 as stated fails: `"2025-12-25T10:30:00+05:30"` parses (under the
RFC 3339 layout) with the written fields 2025-12-25 10:30:00 and offset
+05:30, but the returned UTC time reads 2025-12-25 05:00:00. -/
theorem parseJavaLocalDateTime_offset_shifts :
    parseChunks layoutRFC3339 "2025-12-25T10:30:00+05:30".data {} =
        .ok { year := 2025, month := 12, day := 25, hour := 10, min := 30, sec := 0,
              zoneOffset := 19800 } ∧
      parseJavaLocalDateTime "2025-12-25T10:30:00+05:30" = (⟨1766638800, 0, .utc⟩, none) ∧
      (parseJavaLocalDateTime "2025-12-25T10:30:00+05:30").1.fields = (2025, 12, 25, 5, 0, 0) ∧
      (parseJavaLocalDateTime "2025-12-25T10:30:00+05:30").1.fields ≠ (2025, 12, 25, 10, 30, 0) := by
  refine ⟨by rfl, by rfl, by rfl, by decide⟩

theorem daysIn_le (m : Nat) (year : Int) (hm1 : 1 ≤ m) (hm2 : m ≤ 12) : daysIn m year ≤ 31 := by
  unfold daysIn
  split
  · omega
  · rw [daysBefore_eq, daysBefore_eq (m - 1)]
    have hm : m = 1 ∨ m = 2 ∨ m = 3 ∨ m = 4 ∨ m = 5 ∨ m = 6 ∨ m = 7 ∨ m = 8 ∨ m = 9 ∨
        m = 10 ∨ m = 11 ∨ m = 12 := by omega
    rcases hm with h | h | h | h | h | h | h | h | h | h | h | h <;> subst h <;> simp

/-- C4. Offset-free timestamps: for every valid calendar date and time of
day, the event whose `CreatedAt` is that date and time written as
`YYYY-MM-DDTHH:MM:SS` is converted to a record whose `CreatedAt` is the same
date and time in UTC. -/
theorem ToSMSRecord_local_timestamp (k : KafkaEvent) (now : Time) (y m d h mi s : Nat)
    (hy : y ≤ 9999) (hm1 : 1 ≤ m) (hm2 : m ≤ 12) (hd1 : 1 ≤ d) (hd2 : d ≤ daysIn m y)
    (hh : h < 24) (hmi : mi < 60) (hs : s < 60)
    (hc : k.CreatedAt = formatLocal y m d h mi s) :
    ∃ r : SMSRecord, k.ToSMSRecord now = (some r, none) ∧
      r.CreatedAt = Date y m d h mi s 0 .utc ∧ r.CreatedAt.loc = .utc ∧
      r.CreatedAt.fields = ((y : Int), m, d, h, mi, s) := by
  have hd3 : d < 100 := by have := daysIn_le m y hm1 hm2; omega
  have hparse : Parse layoutLocal k.CreatedAt = .ok (Date y m d h mi s 0 .utc) := by
    unfold Parse
    rw [hc, parseChunks_formatLocal y m d h mi s (by omega) hm1 hm2 hd3 hh hmi hs]
    simp only [buildTime]
    rw [if_neg (by simp only [Int.toNat_ofNat, Bool.or_eq_true, decide_eq_true_eq]; omega)]
    rfl
  have hloc : (Date y m d h mi s 0 .utc).loc = .utc := by
    rw [Date_unixSec y m d h mi s 0 .utc hm1 hm2 hh hmi hs (by omega) (by omega)]
  have hutc : (Date y m d h mi s 0 .utc).UTC = Date y m d h mi s 0 .utc := by
    rw [Date_unixSec y m d h mi s 0 .utc hm1 hm2 hh hmi hs (by omega) (by omega)]
    rfl
  have hpj : parseJavaLocalDateTime k.CreatedAt = (Date y m d h mi s 0 .utc, none) := by
    unfold parseJavaLocalDateTime layouts
    simp only [parseLayouts, hparse, hutc]
  refine ⟨_, ToSMSRecord_eq k now, ?_, ?_, ?_⟩
  · simp [hpj]
  · simp [hpj, hloc]
  · simp only [hpj, Option.isSome_none, Bool.false_eq_true, if_false]
    exact Date_fields y m d h mi s 0 (by unfold absoluteZeroYear; omega) hm1 hm2 hd1 hd2 hh hmi hs
      (by omega) (by omega)

/-- C4 at the event of the end-to-end scenario: `"2025-12-25T10:30:00"`
yields 2025-12-25T10:30:00Z. -/
theorem ToSMSRecord_local_timestamp_witness :
    "2025-12-25T10:30:00" = formatLocal 2025 12 25 10 30 0 ∧
    ∃ r : SMSRecord,
      KafkaEvent.ToSMSRecord
          ⟨"e1", "+15551234567", "+15559876543", "hi", "DELIVERED", "2025-12-25T10:30:00"⟩
          Time.zero = (some r, none) ∧
        r.CreatedAt = Date (2025 : Nat) (12 : Nat) (25 : Nat) (10 : Nat) (30 : Nat) (0 : Nat) 0 .utc ∧
        r.CreatedAt.loc = .utc ∧
        r.CreatedAt.fields = (((2025 : Nat) : Int), 12, 25, 10, 30, 0) :=
  ⟨by decide,
   ToSMSRecord_local_timestamp
     ⟨"e1", "+15551234567", "+15559876543", "hi", "DELIVERED", "2025-12-25T10:30:00"⟩
     Time.zero 2025 12 25 10 30 0 (by decide) (by decide) (by decide) (by decide) (by decide)
     (by decide) (by decide) (by decide) (by decide)⟩

/-! ## Claims about `kafka/consumer.go` -/

/-- What `processMessage` does: nothing but an error when the payload does not
decode; otherwise exactly one `InsertOne`, for the record converted from the
decoded event, whose outcome decides the result. -/
theorem processMessage_spec (m : Message) (now : Time) (insert : CallResult) :
    ((∃ e, Unmarshal m.Value = .error e) ∧
        processMessage m now insert = ([], .failed "failed to unmarshal Kafka event")) ∨
      (∃ ev rec, Unmarshal m.Value = .ok ev ∧ ev.ToSMSRecord now = (some rec, none) ∧
        processMessage m now insert = ([.insertOne rec insert], wrapSaveResult insert)) := by
  unfold processMessage
  cases hU : Unmarshal m.Value with
  | error e => exact Or.inl ⟨⟨e, rfl⟩, rfl⟩
  | ok ev =>
    refine Or.inr ⟨ev, _, rfl, ToSMSRecord_eq ev now, ?_⟩
    simp only [ToSMSRecord_eq ev now]
    cases insert <;> rfl

/-- The trace of one turn, case by case. -/
theorem loopBody_spec (t : Turn) :
    (t.stopClosed = true ∧ loopBody t = ([.stopReceived], .returned)) ∨
    (t.stopClosed = false ∧ ∃ v, t.fetch = .panics v ∧
      loopBody t = ([.fetchMessage (.panics v)], .panicked v)) ∨
    (t.stopClosed = false ∧ t.fetch = .deadlineExceeded ∧
      loopBody t = ([.fetchMessage .deadlineExceeded], .running)) ∨
    (t.stopClosed = false ∧ ∃ err, t.fetch = .failed err ∧
      loopBody t = ([.fetchMessage (.failed err), .logFetchError err, .sleep 1], .running)) ∨
    (t.stopClosed = false ∧ ∃ m, t.fetch = .message m ∧ (∃ e, Unmarshal m.Value = .error e) ∧
      loopBody t = ([.fetchMessage (.message m),
        .logProcessError "failed to unmarshal Kafka event"], .running)) ∨
    (t.stopClosed = false ∧ ∃ m ev rec, t.fetch = .message m ∧ Unmarshal m.Value = .ok ev ∧
      ev.ToSMSRecord t.now = (some rec, none) ∧
      ((∃ err, t.insert = .failed err ∧ ∃ msg, loopBody t =
          ([.fetchMessage (.message m), .insertOne rec (.failed err), .logProcessError msg],
            .running)) ∨
       (∃ v, t.insert = .panics v ∧ loopBody t =
          ([.fetchMessage (.message m), .insertOne rec (.panics v)], .panicked v)) ∨
       (t.insert = .ok ∧ loopBody t =
          (.fetchMessage (.message m) :: .insertOne rec .ok :: commitEvents m t.commit,
            match t.commit with
            | .panics v => .panicked v
            | _ => .running)))) := by
  unfold loopBody
  cases hs : t.stopClosed with
  | true => exact Or.inl ⟨rfl, by simp⟩
  | false =>
    right
    simp only [Bool.false_eq_true, if_false]
    cases hf : t.fetch with
    | panics v => exact Or.inl ⟨trivial, v, rfl, rfl⟩
    | deadlineExceeded => exact Or.inr (Or.inl ⟨trivial, rfl, rfl⟩)
    | failed err => exact Or.inr (Or.inr (Or.inl ⟨trivial, err, rfl, rfl⟩))
    | message m =>
      right; right; right
      simp only []
      rcases processMessage_spec m t.now t.insert with ⟨he, hp⟩ | ⟨ev, rec, hU, hR, hp⟩
      · exact Or.inl ⟨trivial, m, rfl, he, by rw [hp]; rfl⟩
      · refine Or.inr ⟨trivial, m, ev, rec, rfl, hU, hR, ?_⟩
        rw [hp]
        cases hi : t.insert with
        | failed err => exact Or.inl ⟨err, rfl, _, rfl⟩
        | panics v => exact Or.inr (Or.inl ⟨v, rfl, rfl⟩)
        | ok =>
          refine Or.inr (Or.inr ⟨rfl, ?_⟩)
          simp only [wrapSaveResult]
          cases hc : t.commit <;> rfl

theorem split_unique {α : Type} (P : α → Prop) (A B : List α) (x : α)
    (hA : ∀ a ∈ A, ¬ P a) (hB : ∀ b ∈ B, ¬ P b) :
    ∀ (pre post : List α) (c : α), P c → A ++ x :: B = pre ++ c :: post →
      pre = A ∧ c = x ∧ post = B := by
  induction A with
  | nil =>
    intro pre post c hc h
    cases pre with
    | nil =>
      simp only [List.nil_append, List.cons.injEq] at h
      exact ⟨rfl, h.1.symm, h.2.symm⟩
    | cons p pre1 =>
      simp only [List.nil_append, List.cons_append, List.cons.injEq] at h
      exact absurd hc (hB c (by rw [h.2]; simp))
  | cons a A1 ih =>
    intro pre post c hc h
    cases pre with
    | nil =>
      simp only [List.nil_append, List.cons_append, List.cons.injEq] at h
      exact absurd hc (by rw [← h.1]; exact hA a (by simp))
    | cons p pre1 =>
      simp only [List.cons_append, List.cons.injEq] at h
      obtain ⟨e1, e2, e3⟩ := ih (fun a ha => hA a (by simp [ha])) pre1 post c hc h.2
      exact ⟨by rw [h.1, e1], e2, e3⟩

theorem CommitGuarded_of_no_commit (trace : List Event)
    (h : ∀ e ∈ trace, e.isCommit = false) : CommitGuarded trace := by
  intro pre post m r htr
  have := h (.commitMessages m r) (by rw [htr]; simp)
  simp [Event.isCommit] at this

theorem CommitGuarded_append (a b : List Event) (ha : CommitGuarded a) (hb : CommitGuarded b) :
    CommitGuarded (a ++ b) := by
  intro pre post m r htr
  rcases List.append_eq_append_iff.mp htr with ⟨a1, h1, h2⟩ | ⟨c1, h1, h2⟩
  · -- the commit lies in `b`
    cases a1 with
    | nil =>
      simp only [List.nil_append] at h2
      -- the commit would be the head of `b`, which a guarded trace excludes
      obtain ⟨pre1, ev, now, rec, e1, e2, e3⟩ := hb [] post m r (by simpa using h2)
      exact absurd e1 (by simp)
    | cons x a2 =>
      -- the guard found inside `b` is a guard inside `a ++ b`
      obtain ⟨pre1, ev, now, rec, e1, e2, e3⟩ := hb (x :: a2) post m r h2
      refine ⟨a ++ pre1, ev, now, rec, ?_, e2, e3⟩
      rw [h1, e1, List.append_assoc]
  · cases c1 with
    | nil =>
      simp only [List.nil_append] at h2
      simp only [List.append_nil] at h1
      obtain ⟨pre1, ev, now, rec, e1, e2, e3⟩ := hb [] post m r h2.symm
      exact absurd e1 (by simp)
    | cons x c2 =>
      simp only [List.cons_append, List.cons.injEq] at h2
      obtain ⟨hx, hpost⟩ := h2
      exact ha pre c2 m r (by rw [h1, hx])

theorem commitEvents_tail (m : Message) (c : CallResult) :
    ∃ tail, commitEvents m c = .commitMessages m c :: tail ∧
      ∀ e ∈ tail, e.isCommit = false := by
  cases c with
  | ok => exact ⟨[], rfl, by simp⟩
  | failed err => exact ⟨[.logCommitError err], rfl, by simp [Event.isCommit]⟩
  | panics v => exact ⟨[], rfl, by simp⟩

theorem loopBody_guarded (t : Turn) : CommitGuarded (loopBody t).1 := by
  rcases loopBody_spec t with ⟨-, h⟩ | ⟨-, v, -, h⟩ | ⟨-, -, h⟩ | ⟨-, err, -, h⟩ |
    ⟨-, m, -, -, h⟩ | ⟨-, m, ev, rec, -, hU, hR, h⟩
  · rw [h]; exact CommitGuarded_of_no_commit _ (by simp [Event.isCommit])
  · rw [h]; exact CommitGuarded_of_no_commit _ (by simp [Event.isCommit])
  · rw [h]; exact CommitGuarded_of_no_commit _ (by simp [Event.isCommit])
  · rw [h]; exact CommitGuarded_of_no_commit _ (by simp [Event.isCommit])
  · rw [h]; exact CommitGuarded_of_no_commit _ (by simp [Event.isCommit])
  · rcases h with ⟨err, -, msg, h⟩ | ⟨v, -, h⟩ | ⟨-, h⟩
    · rw [h]; exact CommitGuarded_of_no_commit _ (by simp [Event.isCommit])
    · rw [h]; exact CommitGuarded_of_no_commit _ (by simp [Event.isCommit])
    · rw [h]
      obtain ⟨tail, htail, hno⟩ := commitEvents_tail m t.commit
      intro pre post m1 r htr
      simp only [htail] at htr
      have hsplit := split_unique (fun e => e.isCommit = true)
        [.fetchMessage (.message m), .insertOne rec .ok] tail (.commitMessages m t.commit)
        (by simp [Event.isCommit]) (by intro b hb; simp [hno b hb]) pre post
        (.commitMessages m1 r) rfl (by simpa using htr)
      obtain ⟨e1, e2, -⟩ := hsplit
      simp only [Event.commitMessages.injEq] at e2
      obtain ⟨rfl, -⟩ := e2
      exact ⟨[], ev, t.now, rec, by simp [e1], hU, hR⟩

theorem consumeLoop_cons (t : Turn) (rest : List Turn) :
    consumeLoop (t :: rest) =
      match (loopBody t).2 with
      | .running => ((loopBody t).1 ++ (consumeLoop rest).1, (consumeLoop rest).2)
      | ctl => ((loopBody t).1, ctl) := by
  rw [consumeLoop]
  rcases hb : loopBody t with ⟨evs, ctl⟩
  cases ctl <;> rfl

theorem consumeLoop_guarded (script : List Turn) : CommitGuarded (consumeLoop script).1 := by
  induction script with
  | nil => exact CommitGuarded_of_no_commit _ (by simp [consumeLoop])
  | cons t rest ih =>
    rw [consumeLoop_cons]
    have h := loopBody_guarded t
    cases hc : (loopBody t).2 with
    | running => exact CommitGuarded_append _ _ h ih
    | returned => exact h
    | panicked v => exact h

theorem consume_guarded (script : List Turn) : CommitGuarded (consume script).1 := by
  unfold consume
  have h := consumeLoop_guarded script
  rcases hc : consumeLoop script with ⟨evs, ctl⟩
  rw [hc] at h
  cases ctl with
  | running => exact h
  | returned => exact h
  | panicked v =>
    exact CommitGuarded_append _ _ h (CommitGuarded_of_no_commit _ (by simp [Event.isCommit]))

/-- C1. Insert-before-commit: in every run of `consume`, each `CommitMessages`
call is for the message the `FetchMessage` of the same turn returned and comes
directly after the successful `InsertOne` of the record converted from that
message; and a turn whose message does not decode, or whose insert does not
succeed, issues no commit. -/
theorem commit_only_after_insert (script : List Turn) (t : Turn) (m : Message) :
    CommitGuarded (consume script).1 ∧
      (t.fetch = .message m →
        ((∃ e, Unmarshal m.Value = .error e) ∨ t.insert ≠ .ok) →
        ∀ e ∈ (loopBody t).1, e.isCommit = false) := by
  refine ⟨consume_guarded script, ?_⟩
  intro hf hbad e he
  rcases loopBody_spec t with ⟨-, h⟩ | ⟨-, v, -, h⟩ | ⟨-, -, h⟩ | ⟨-, err, -, h⟩ |
    ⟨-, m1, -, -, h⟩ | ⟨-, m1, ev, rec, hf1, hU, hR, h⟩
  · rw [h] at he; simp at he; subst he; rfl
  · rw [h] at he; simp at he; subst he; rfl
  · rw [h] at he; simp at he; subst he; rfl
  · rw [h] at he; simp at he; rcases he with rfl | rfl | rfl <;> rfl
  · rw [h] at he; simp at he; rcases he with rfl | rfl <;> rfl
  · rcases h with ⟨err, -, msg, h⟩ | ⟨v, -, h⟩ | ⟨hok, h⟩
    · rw [h] at he; simp at he; rcases he with rfl | rfl | rfl <;> rfl
    · rw [h] at he; simp at he; rcases he with rfl | rfl <;> rfl
    · rw [hf] at hf1
      simp only [FetchResult.message.injEq] at hf1
      subst hf1
      rcases hbad with ⟨e1, he1⟩ | hne
      · rw [hU] at he1; simp at he1
      · exact absurd hok hne

set_option maxRecDepth 100000

/-- C1 on a run of two turns: the scenario message is inserted and committed,
then a payload that is not JSON is fetched and nothing is committed for it. -/
theorem commit_only_after_insert_witness :
    consume [scenarioTurn 7 .ok .ok,
        ⟨false, .message ⟨0, 8, "not json"⟩, Time.zero, .ok, .ok⟩] =
      ([.fetchMessage (.message ⟨0, 7, scenarioPayload⟩), .insertOne scenarioRecord .ok,
        .commitMessages ⟨0, 7, scenarioPayload⟩ .ok,
        .fetchMessage (.message ⟨0, 8, "not json"⟩),
        .logProcessError "failed to unmarshal Kafka event"], .stillRunning) ∧
    Unmarshal "not json" = .error .syntaxError ∧
    CommitGuarded (consume [scenarioTurn 7 .ok .ok,
        ⟨false, .message ⟨0, 8, "not json"⟩, Time.zero, .ok, .ok⟩]).1 ∧
    ∀ e ∈ (loopBody ⟨false, .message ⟨0, 8, "not json"⟩, Time.zero, .ok, .ok⟩).1,
      e.isCommit = false :=
  ⟨by rfl, by rfl,
   (commit_only_after_insert [scenarioTurn 7 .ok .ok,
      ⟨false, .message ⟨0, 8, "not json"⟩, Time.zero, .ok, .ok⟩]
      ⟨false, .message ⟨0, 8, "not json"⟩, Time.zero, .ok, .ok⟩ ⟨0, 8, "not json"⟩).1,
   (commit_only_after_insert [] ⟨false, .message ⟨0, 8, "not json"⟩, Time.zero, .ok, .ok⟩
      ⟨0, 8, "not json"⟩).2 rfl (Or.inl ⟨.syntaxError, by rfl⟩)⟩

/-- C5 as stated fails: the payload `{}` decodes to the zero event, and the
record handed to `InsertOne` has an empty `UserID`. -/
theorem empty_owner_is_persisted :
    Unmarshal emptyObjectPayload = .ok KafkaEvent.zero ∧
    processMessage ⟨0, 0, emptyObjectPayload⟩ ⟨1766658700, 0, .utc⟩ .ok =
      ([.insertOne ⟨NilObjectID, "", "", "", "", ⟨1766658700, 0, .utc⟩⟩ .ok], .ok) ∧
    ∃ rec,
      Event.insertOne rec .ok ∈
        (processMessage ⟨0, 0, emptyObjectPayload⟩ ⟨1766658700, 0, .utc⟩ .ok).1 ∧
      rec.UserID = "" :=
  ⟨by rfl, by rfl, ⟨NilObjectID, "", "", "", "", ⟨1766658700, 0, .utc⟩⟩, by decide, rfl⟩

/-- C5, amended. Every record `processMessage` hands to `SaveMessage` /
`InsertOne` is the conversion of the event decoded from the payload and
carries that event's `UserID` unchanged (so it is empty exactly when the
decoded `userId` is empty or absent). -/
theorem saved_owner_is_decoded_owner (m : Message) (now : Time) (insert r : CallResult)
    (rec : SMSRecord) (h : Event.insertOne rec r ∈ (processMessage m now insert).1) :
    ∃ ev, Unmarshal m.Value = .ok ev ∧ ev.ToSMSRecord now = (some rec, none) ∧
      rec.UserID = ev.UserID ∧ (rec.UserID = "" ↔ ev.UserID = "") := by
  rcases processMessage_spec m now insert with ⟨-, hp⟩ | ⟨ev, rec1, hU, hR, hp⟩
  · rw [hp] at h; simp at h
  · rw [hp] at h
    simp only [List.mem_singleton, Event.insertOne.injEq] at h
    obtain ⟨rfl, -⟩ := h
    have hrec := ToSMSRecord_eq ev now
    rw [hR] at hrec
    simp only [Prod.mk.injEq, Option.some.injEq, and_true] at hrec
    have hu : rec.UserID = ev.UserID := by rw [hrec]
    exact ⟨ev, hU, hR, hu, by rw [hu]⟩

/-- C5 amended, at the scenario message. -/
theorem saved_owner_is_decoded_owner_witness :
    Event.insertOne scenarioRecord .ok ∈
      (processMessage ⟨0, 7, scenarioPayload⟩ ⟨1766658700, 0, .utc⟩ .ok).1 ∧
    ∃ ev, Unmarshal scenarioPayload = .ok ev ∧
      ev.ToSMSRecord ⟨1766658700, 0, .utc⟩ = (some scenarioRecord, none) ∧
      scenarioRecord.UserID = ev.UserID ∧ (scenarioRecord.UserID = "" ↔ ev.UserID = "") :=
  ⟨by decide,
   saved_owner_is_decoded_owner ⟨0, 7, scenarioPayload⟩ ⟨1766658700, 0, .utc⟩ .ok .ok
     scenarioRecord (by decide)⟩

theorem consumeLoop_append_done (script rest : List Turn) (h : (consumeLoop script).2 ≠ .running) :
    consumeLoop (script ++ rest) = consumeLoop script := by
  induction script with
  | nil => simp [consumeLoop] at h
  | cons t tl ih =>
    rw [List.cons_append, consumeLoop_cons, consumeLoop_cons]
    rw [consumeLoop_cons] at h
    cases hc : (loopBody t).2 with
    | running =>
      simp only [hc] at h ⊢
      rw [ih h]
    | returned => rfl
    | panicked v => rfl

/-- C6 as stated fails: the first message panics inside `processMessage`
(`InsertOne` panics); the panic is recovered and logged, and `consume` is
over: the second message, ready to be fetched, is never fetched. -/
theorem panic_stops_consumption :
    consume [scenarioTurn 7 (.panics "boom") .ok, scenarioTurn 8 .ok .ok] =
      ([.fetchMessage (.message ⟨0, 7, scenarioPayload⟩),
        .insertOne scenarioRecord (.panics "boom"), .logPanicRecovered "boom"], .recovered) ∧
    Event.fetchMessage (.message ⟨0, 8, scenarioPayload⟩) ∉
      (consume [scenarioTurn 7 (.panics "boom") .ok, scenarioTurn 8 .ok .ok]).1 :=
  ⟨by rfl, by decide⟩

/-- C6, amended. When a panic is raised inside a turn of the consume loop, the
deferred handler of `consume` recovers and logs it and `consume` returns:
whatever would have come next (`rest`), no further turn runs, and the trace
ends with the log line of the recovery. -/
theorem panic_recovered_ends_consume (script rest : List Turn) (evs : List Event) (v : String)
    (h : consumeLoop script = (evs, .panicked v)) :
    consume (script ++ rest) = (evs ++ [.logPanicRecovered v], .recovered) := by
  unfold consume
  rw [consumeLoop_append_done script rest (by rw [h]; simp), h]

/-- C6 amended, at a run whose first turn panics in `InsertOne` while a second
message waits to be fetched. -/
theorem panic_recovered_ends_consume_witness :
    consumeLoop [scenarioTurn 7 (.panics "boom") .ok] =
      ([.fetchMessage (.message ⟨0, 7, scenarioPayload⟩),
        .insertOne scenarioRecord (.panics "boom")], .panicked "boom") ∧
    consume ([scenarioTurn 7 (.panics "boom") .ok] ++ [scenarioTurn 8 .ok .ok]) =
      ([.fetchMessage (.message ⟨0, 7, scenarioPayload⟩),
        .insertOne scenarioRecord (.panics "boom")] ++ [.logPanicRecovered "boom"],
        .recovered) :=
  ⟨by rfl, panic_recovered_ends_consume [scenarioTurn 7 (.panics "boom") .ok]
    [scenarioTurn 8 .ok .ok] _ "boom" (by rfl)⟩

theorem consumeLoop_returned (script : List Turn) (h : (consumeLoop script).2 = .returned) :
    ∃ t ∈ script, t.stopClosed = true := by
  induction script with
  | nil => simp [consumeLoop] at h
  | cons t tl ih =>
    rw [consumeLoop_cons] at h
    cases hc : (loopBody t).2 with
    | running =>
      simp only [hc] at h
      obtain ⟨t1, h1, h2⟩ := ih h
      exact ⟨t1, by simp [h1], h2⟩
    | panicked v => simp [hc] at h
    | returned =>
      refine ⟨t, by simp, ?_⟩
      rcases loopBody_spec t with ⟨hs, -⟩ | ⟨-, v, -, h1⟩ | ⟨-, -, h1⟩ | ⟨-, err, -, h1⟩ |
        ⟨-, m1, -, -, h1⟩ | ⟨-, m1, ev, rec, -, -, -, h1⟩
      · exact hs
      · rw [h1] at hc; simp at hc
      · rw [h1] at hc; simp at hc
      · rw [h1] at hc; simp at hc
      · rw [h1] at hc; simp at hc
      · rcases h1 with ⟨err, -, msg, h1⟩ | ⟨v, -, h1⟩ | ⟨-, h1⟩
        · rw [h1] at hc; simp at hc
        · rw [h1] at hc; simp at hc
        · rw [h1] at hc
          cases hcm : t.commit <;> simp [hcm] at hc

theorem consume_cons_running (t : Turn) (rest : List Turn) (h : (loopBody t).2 = .running) :
    consume (t :: rest) = ((loopBody t).1 ++ (consume rest).1, (consume rest).2) := by
  unfold consume
  rw [consumeLoop_cons, h]
  rcases hc : consumeLoop rest with ⟨evs, ctl⟩
  cases ctl <;> simp

theorem loopBody_panicked (t : Turn) (v : String) (h : (loopBody t).2 = .panicked v) :
    t.stopClosed = false ∧
      (t.fetch = .panics v ∨ t.insert = .panics v ∨ t.commit = .panics v) := by
  rcases loopBody_spec t with ⟨-, h1⟩ | ⟨hs, v1, hf, h1⟩ | ⟨-, -, h1⟩ | ⟨-, err, -, h1⟩ |
    ⟨-, m1, -, -, h1⟩ | ⟨hs, m1, ev, rec, -, -, -, h1⟩
  · rw [h1] at h; simp at h
  · rw [h1] at h
    simp only [Ctl.panicked.injEq] at h
    subst h
    exact ⟨hs, Or.inl hf⟩
  · rw [h1] at h; simp at h
  · rw [h1] at h; simp at h
  · rw [h1] at h; simp at h
  · rcases h1 with ⟨err, -, msg, h1⟩ | ⟨v1, hi, h1⟩ | ⟨-, h1⟩
    · rw [h1] at h; simp at h
    · rw [h1] at h
      simp only [Ctl.panicked.injEq] at h
      subst h
      exact ⟨hs, Or.inr (Or.inl hi)⟩
    · rw [h1] at h
      cases hc : t.commit with
      | ok => simp [hc] at h
      | failed err => simp [hc] at h
      | panics v1 =>
        simp only [hc, Ctl.panicked.injEq] at h
        subst h
        exact ⟨hs, Or.inr (Or.inr rfl)⟩

theorem loopBody_running (t : Turn) (h : (loopBody t).2 = .running) : t.stopClosed = false := by
  rcases loopBody_spec t with ⟨-, h1⟩ | ⟨hs, -⟩ | ⟨hs, -⟩ | ⟨hs, -⟩ | ⟨hs, -⟩ | ⟨hs, -⟩
  · rw [h1] at h; simp at h
  all_goals exact hs

theorem consumeLoop_panicked (script : List Turn) (v : String)
    (h : (consumeLoop script).2 = .panicked v) :
    ∃ t ∈ script, t.stopClosed = false ∧
      (t.fetch = .panics v ∨ t.insert = .panics v ∨ t.commit = .panics v) := by
  induction script with
  | nil => simp [consumeLoop] at h
  | cons t tl ih =>
    rw [consumeLoop_cons] at h
    cases hc : (loopBody t).2 with
    | running =>
      simp only [hc] at h
      obtain ⟨t1, h1, h2⟩ := ih h
      exact ⟨t1, by simp [h1], h2⟩
    | returned => simp [hc] at h
    | panicked v1 =>
      simp only [hc, Ctl.panicked.injEq] at h
      subst h
      exact ⟨t, by simp, loopBody_panicked t v1 hc⟩

theorem consumeLoop_running (script : List Turn) (h : (consumeLoop script).2 = .running) :
    ∀ t ∈ script, t.stopClosed = false := by
  induction script with
  | nil => simp
  | cons t tl ih =>
    rw [consumeLoop_cons] at h
    cases hc : (loopBody t).2 with
    | running =>
      simp only [hc] at h
      intro t1 ht1
      rcases List.mem_cons.mp ht1 with rfl | h2
      · exact loopBody_running _ hc
      · exact ih h t1 h2
    | returned => simp [hc] at h
    | panicked v1 => simp [hc] at h

/-- How `consume` ends, read off the way its loop ended. -/
theorem consume_exit (script : List Turn) :
    ((consume script).2 = .stillRunning ↔ (consumeLoop script).2 = .running) ∧
    ((consume script).2 = .stopped ↔ (consumeLoop script).2 = .returned) ∧
    ((consume script).2 = .recovered ↔ ∃ v, (consumeLoop script).2 = .panicked v) ∧
    (∀ v, (consumeLoop script).2 = .panicked v →
      (consume script).1.getLast? = some (.logPanicRecovered v)) := by
  unfold consume
  rcases hc : consumeLoop script with ⟨evs, ctl⟩
  cases ctl <;> simp

/-- C7 as stated fails in its last sentence: `FetchMessage` panics in the
first turn, the deferred handler recovers, and `consume` has returned although
the stop channel was never closed. -/
theorem consume_ends_with_stop_open :
    consume [⟨false, .panics "reader is nil", Time.zero, .ok, .ok⟩, scenarioTurn 7 .ok .ok] =
      ([.fetchMessage (.panics "reader is nil"), .logPanicRecovered "reader is nil"],
        .recovered) ∧
    ∀ t ∈ [(⟨false, .panics "reader is nil", Time.zero, .ok, .ok⟩ : Turn),
        scenarioTurn 7 .ok .ok], t.stopClosed = false :=
  ⟨by rfl, by decide⟩

/-- C7, amended. Fetch errors never end `consume` and touch neither store nor
offsets: in a turn where the stop channel is open and `FetchMessage` returns an
error, nothing of `processMessage`, `SaveMessage` or `CommitMessages` happens,
the one-second sleep happens exactly when the error is not
`context.DeadlineExceeded`, and `consume` goes on with the next turn.
`consume` ends in two ways only: it returns from the loop in a turn that finds
the stop channel closed, or a panic raised in a turn with the stop channel open
(in `FetchMessage`, `InsertOne` or `CommitMessages`) is recovered and logged by
the deferred handler; as long as neither happens every turn runs. -/
theorem consume_exits (t : Turn) (rest script : List Turn) :
    (t.stopClosed = false → (t.fetch = .deadlineExceeded ∨ ∃ err, t.fetch = .failed err) →
      (∀ e ∈ (loopBody t).1, e.isProcessingOrCommit = false) ∧
      ((∃ n, Event.sleep n ∈ (loopBody t).1) ↔ t.fetch ≠ .deadlineExceeded) ∧
      (∀ n, Event.sleep n ∈ (loopBody t).1 → n = 1) ∧
      consume (t :: rest) = ((loopBody t).1 ++ (consume rest).1, (consume rest).2)) ∧
    ((consume script).2 = .stopped → ∃ t1 ∈ script, t1.stopClosed = true) ∧
    ((consume script).2 = .recovered →
      ∃ t1 ∈ script, ∃ v, t1.stopClosed = false ∧
        (t1.fetch = .panics v ∨ t1.insert = .panics v ∨ t1.commit = .panics v) ∧
        (consume script).1.getLast? = some (.logPanicRecovered v)) ∧
    ((consume script).2 = .stillRunning → ∀ t1 ∈ script, t1.stopClosed = false) := by
  obtain ⟨e1, e2, e3, e4⟩ := consume_exit script
  refine ⟨?_, fun h => consumeLoop_returned script (e2.mp h), ?_,
    fun h => consumeLoop_running script (e1.mp h)⟩
  · intro hs hf
    have hb : loopBody t = ([.fetchMessage .deadlineExceeded], .running) ∧
          t.fetch = .deadlineExceeded ∨
        ∃ err, loopBody t =
            ([.fetchMessage (.failed err), .logFetchError err, .sleep 1], .running) ∧
          t.fetch = .failed err := by
      unfold loopBody
      rcases hf with hf | ⟨err, hf⟩
      · left; simp [hs, hf]
      · right; exact ⟨err, by simp [hs, hf]⟩
    rcases hb with ⟨hb, hf1⟩ | ⟨err, hb, hf1⟩
    · refine ⟨?_, ?_, ?_, consume_cons_running t rest (by rw [hb])⟩
      · rw [hb]; simp [Event.isProcessingOrCommit]
      · rw [hb, hf1]; simp
      · rw [hb]; simp
    · refine ⟨?_, ?_, ?_, consume_cons_running t rest (by rw [hb])⟩
      · rw [hb]; simp [Event.isProcessingOrCommit]
      · rw [hb, hf1]; simp
      · rw [hb]; simp
  · intro h
    obtain ⟨v, hv⟩ := e3.mp h
    obtain ⟨t1, h1, h2, h3⟩ := consumeLoop_panicked script v hv
    exact ⟨t1, h1, v, h2, h3, e4 v hv⟩

/-- C7 amended, on runs: a broker error, then the scenario message, then a
turn with the stop channel closed; and a run that a panic in `CommitMessages`
ends. -/
theorem consume_exits_witness :
    consume [⟨false, .failed "broker down", Time.zero, .ok, .ok⟩, scenarioTurn 7 .ok .ok,
        ⟨true, .deadlineExceeded, Time.zero, .ok, .ok⟩] =
      ([.fetchMessage (.failed "broker down"), .logFetchError "broker down", .sleep 1,
        .fetchMessage (.message ⟨0, 7, scenarioPayload⟩), .insertOne scenarioRecord .ok,
        .commitMessages ⟨0, 7, scenarioPayload⟩ .ok, .stopReceived], .stopped) ∧
    ((∀ e ∈ (loopBody ⟨false, .failed "broker down", Time.zero, .ok, .ok⟩).1,
        e.isProcessingOrCommit = false) ∧
      ((∃ n, Event.sleep n ∈ (loopBody ⟨false, .failed "broker down", Time.zero, .ok, .ok⟩).1) ↔
        FetchResult.failed "broker down" ≠ .deadlineExceeded) ∧
      (∀ n, Event.sleep n ∈ (loopBody ⟨false, .failed "broker down", Time.zero, .ok, .ok⟩).1 →
        n = 1) ∧
      consume (⟨false, .failed "broker down", Time.zero, .ok, .ok⟩ ::
          [scenarioTurn 7 .ok .ok]) =
        ((loopBody ⟨false, .failed "broker down", Time.zero, .ok, .ok⟩).1 ++
            (consume [scenarioTurn 7 .ok .ok]).1,
          (consume [scenarioTurn 7 .ok .ok]).2)) ∧
    (∃ t1 ∈ [⟨false, .failed "broker down", Time.zero, .ok, .ok⟩, scenarioTurn 7 .ok .ok,
        (⟨true, .deadlineExceeded, Time.zero, .ok, .ok⟩ : Turn)], t1.stopClosed = true) ∧
    (∃ t1 ∈ [scenarioTurn 7 .ok (.panics "conn reset")], ∃ v, t1.stopClosed = false ∧
        (t1.fetch = .panics v ∨ t1.insert = .panics v ∨ t1.commit = .panics v) ∧
        (consume [scenarioTurn 7 .ok (.panics "conn reset")]).1.getLast? =
          some (.logPanicRecovered v)) :=
  ⟨by rfl,
   (consume_exits ⟨false, .failed "broker down", Time.zero, .ok, .ok⟩
      [scenarioTurn 7 .ok .ok] []).1 rfl (Or.inr ⟨_, rfl⟩),
   (consume_exits ⟨false, .failed "broker down", Time.zero, .ok, .ok⟩ []
      [⟨false, .failed "broker down", Time.zero, .ok, .ok⟩, scenarioTurn 7 .ok .ok,
        ⟨true, .deadlineExceeded, Time.zero, .ok, .ok⟩]).2.1 (by rfl),
   (consume_exits ⟨false, .failed "broker down", Time.zero, .ok, .ok⟩ []
      [scenarioTurn 7 .ok (.panics "conn reset")]).2.2.1 (by rfl)⟩

/-! ## The regular-expression matcher on the two patterns of the handler -/

theorem mem_stepChar (p : Char → Bool) (st st1 : MState) :
    st1 ∈ stepChar p st ↔
      ∃ c cs, st.rest = c :: cs ∧ p c = true ∧ st1 = ⟨cs, st.pos + 1, st.caps⟩ := by
  unfold stepChar
  cases hr : st.rest with
  | nil => simp
  | cons c cs =>
    by_cases hp : p c = true
    · simp only [hp, if_true, List.mem_singleton]
      constructor
      · intro h; exact ⟨c, cs, rfl, hp, h⟩
      · rintro ⟨c1, cs1, h1, -, h3⟩
        simp only [List.cons.injEq] at h1
        rw [h3, h1.2]
    · simp only [hp, Bool.false_eq_true, if_false, List.not_mem_nil, false_iff]
      rintro ⟨c1, cs1, h1, h2, -⟩
      simp only [List.cons.injEq] at h1
      rw [← h1.1] at h2
      exact hp h2

theorem advance_zero (st : MState) : st.advance 0 = st := by
  simp [MState.advance]

theorem advance_succ (st : MState) (c : Char) (cs : List Char) (k : Nat)
    (h : st.rest = c :: cs) :
    (⟨cs, st.pos + 1, st.caps⟩ : MState).advance k = st.advance (k + 1) := by
  simp only [MState.advance, h, List.drop_succ_cons, MState.mk.injEq, true_and, and_true]
  omega

theorem take_succ_all (p : Char → Bool) (c : Char) (cs : List Char) (k : Nat) :
    (∀ x ∈ (c :: cs).take (k + 1), p x = true) ↔ p c = true ∧ ∀ x ∈ cs.take k, p x = true := by
  simp [List.take_succ_cons]

theorem mem_repeatRun (p : Char → Bool) (hi : Nat) :
    ∀ (lo : Nat) (st st1 : MState), st1 ∈ repeatRun (stepChar p) lo hi st ↔
      ∃ k, lo ≤ k ∧ k ≤ hi ∧ k ≤ st.rest.length ∧ (∀ c ∈ st.rest.take k, p c = true) ∧
        st1 = st.advance k := by
  induction hi with
  | zero =>
    intro lo st st1
    unfold repeatRun
    constructor
    · intro h
      by_cases hlo : lo = 0
      · simp only [hlo, if_true, List.mem_singleton] at h
        exact ⟨0, by omega, le_refl _, by omega, by simp, by rw [h, advance_zero]⟩
      · simp [hlo] at h
    · rintro ⟨k, h1, h2, -, -, h5⟩
      have hk : k = 0 := by omega
      have hlo : lo = 0 := by omega
      subst hk
      simp [hlo, h5, advance_zero]
  | succ hi ih =>
    intro lo st st1
    unfold repeatRun
    simp only [List.mem_append, List.mem_flatMap]
    constructor
    · rintro (⟨st2, h2, h3⟩ | h)
      · obtain ⟨c, cs, hr, hp, rfl⟩ := (mem_stepChar p st st2).mp h2
        obtain ⟨k, k1, k2, k3, k4, k5⟩ := (ih (lo - 1) _ st1).mp h3
        refine ⟨k + 1, by omega, by omega, by rw [hr]; simp at k3 ⊢; omega, ?_, ?_⟩
        · rw [hr]; exact (take_succ_all p c cs k).mpr ⟨hp, k4⟩
        · rw [k5]; exact advance_succ st c cs k hr
      · by_cases hlo : lo = 0
        · simp only [hlo, if_true, List.mem_singleton] at h
          exact ⟨0, by omega, by omega, by omega, by simp, by rw [h, advance_zero]⟩
        · simp [hlo] at h
    · rintro ⟨k, h1, h2, h3, h4, h5⟩
      cases k with
      | zero =>
        right
        have hlo : lo = 0 := by omega
        simp [hlo, h5, advance_zero]
      | succ k =>
        left
        cases hr : st.rest with
        | nil => rw [hr] at h3; simp at h3
        | cons c cs =>
          rw [hr] at h3 h4
          obtain ⟨hp, h4'⟩ := (take_succ_all p c cs k).mp h4
          refine ⟨⟨cs, st.pos + 1, st.caps⟩, (mem_stepChar p st _).mpr ⟨c, cs, hr, hp, rfl⟩, ?_⟩
          refine (ih (lo - 1) _ st1).mpr ⟨k, by omega, by omega, by simp at h3 ⊢; omega, h4', ?_⟩
          rw [h5]; exact (advance_succ st c cs k hr).symm

theorem mem_starRun (p : Char → Bool) (fuel : Nat) :
    ∀ (st st1 : MState), st.rest.length ≤ fuel → (st1 ∈ starRun (stepChar p) fuel st ↔
      ∃ k, k ≤ st.rest.length ∧ (∀ c ∈ st.rest.take k, p c = true) ∧ st1 = st.advance k) := by
  induction fuel with
  | zero =>
    intro st st1 hlen
    unfold starRun
    simp only [List.mem_singleton]
    constructor
    · intro h; exact ⟨0, by omega, by simp, by rw [h, advance_zero]⟩
    · rintro ⟨k, h1, -, h3⟩
      have : k = 0 := by omega
      subst this
      rw [h3, advance_zero]
  | succ fuel ih =>
    intro st st1 hlen
    unfold starRun
    simp only [List.mem_append, List.mem_flatMap, List.mem_filter, List.mem_singleton]
    constructor
    · rintro (⟨st2, ⟨h2, -⟩, h3⟩ | h)
      · obtain ⟨c, cs, hr, hp, rfl⟩ := (mem_stepChar p st st2).mp h2
        have hlen2 : cs.length ≤ fuel := by rw [hr] at hlen; simp at hlen; omega
        obtain ⟨k, k3, k4, k5⟩ := (ih _ st1 hlen2).mp h3
        refine ⟨k + 1, by rw [hr]; simp at k3 ⊢; omega, ?_, ?_⟩
        · rw [hr]; exact (take_succ_all p c cs k).mpr ⟨hp, k4⟩
        · rw [k5]; exact advance_succ st c cs k hr
      · exact ⟨0, by omega, by simp, by rw [h, advance_zero]⟩
    · rintro ⟨k, h3, h4, h5⟩
      cases k with
      | zero => right; rw [h5, advance_zero]
      | succ k =>
        left
        cases hr : st.rest with
        | nil => rw [hr] at h3; simp at h3
        | cons c cs =>
          rw [hr] at h3 h4 hlen
          obtain ⟨hp, h4'⟩ := (take_succ_all p c cs k).mp h4
          refine ⟨⟨cs, st.pos + 1, st.caps⟩,
            ⟨(mem_stepChar p st _).mpr ⟨c, cs, hr, hp, rfl⟩, by simp⟩, ?_⟩
          refine (ih _ st1 (by simp at hlen ⊢; omega)).mpr ⟨k, by simp at h3 ⊢; omega, h4', ?_⟩
          rw [h5]; exact (advance_succ st c cs k hr).symm

theorem mem_run_text (l : List Char) :
    ∀ (st st1 : MState), st1 ∈ (Regex.text l).run st ↔
      ∃ tl, st.rest = l ++ tl ∧ st1 = ⟨tl, st.pos + l.length, st.caps⟩ := by
  induction l with
  | nil =>
    intro st st1
    simp only [Regex.text, Regex.run, List.mem_singleton, List.nil_append, List.length_nil,
      Nat.add_zero]
    constructor
    · intro h; exact ⟨st.rest, rfl, h⟩
    · rintro ⟨tl, h1, h2⟩; rw [h2, ← h1]
  | cons c cs ih =>
    intro st st1
    simp only [Regex.text, Regex.run, List.mem_flatMap]
    constructor
    · rintro ⟨st2, h2, h3⟩
      obtain ⟨x, xs, hr, hp, rfl⟩ := (mem_stepChar _ st st2).mp h2
      obtain ⟨tl, t1, t2⟩ := (ih _ st1).mp h3
      simp only [beq_iff_eq] at hp
      simp only at t1
      refine ⟨tl, by rw [hr, hp, t1]; rfl, ?_⟩
      rw [t2]
      simp only [List.length_cons, MState.mk.injEq, true_and, and_true]
      omega
    · rintro ⟨tl, h1, h2⟩
      refine ⟨⟨cs ++ tl, st.pos + 1, st.caps⟩,
        (mem_stepChar _ st _).mpr ⟨c, cs ++ tl, by rw [h1]; rfl, by simp, rfl⟩, ?_⟩
      refine (ih _ st1).mpr ⟨tl, rfl, ?_⟩
      rw [h2]
      simp only [List.length_cons, MState.mk.injEq, true_and, and_true]
      omega

/-- A pattern that starts with `^` can match at the start of the text only. -/
theorem search_bol (r : Regex) (s : List Char) :
    (Regex.seq .bol r).search s 0 = ((r.run ⟨s, 0, []⟩).head?).map fun st => (s, st) := by
  have hrun0 : ∀ s : List Char, (Regex.seq .bol r).run ⟨s, 0, []⟩ = r.run ⟨s, 0, []⟩ := by
    intro s; simp [Regex.run]
  have hpos : ∀ (s : List Char) (pos : Nat), 0 < pos →
      (Regex.seq .bol r).run ⟨s, pos, []⟩ = [] := by
    intro s pos hp
    have : pos ≠ 0 := by omega
    simp [Regex.run, this]
  have hlater : ∀ (s : List Char) (pos : Nat), 0 < pos →
      (Regex.seq .bol r).search s pos = none := by
    intro s
    induction s with
    | nil => intro pos hp; simp [Regex.search, hpos [] pos hp]
    | cons c cs ih =>
      intro pos hp
      rw [Regex.search, hpos _ pos hp]
      exact ih (pos + 1) (by omega)
  cases s with
  | nil => rw [Regex.search, hrun0]
  | cons c cs =>
    rw [Regex.search, hrun0]
    cases hres : r.run ⟨c :: cs, 0, []⟩ with
    | nil => simp [hlater cs 1 (by omega)]
    | cons st tl => simp

theorem run_cls (ranges : List (Char × Char)) (negated : Bool) :
    (Regex.cls ranges negated).run = stepChar (inClass ranges negated) := by
  funext st
  simp [Regex.run]

theorem inClass_digit (c : Char) : inClass [('0', '9')] false c = isDigit c := by
  simp [inClass, isDigit]

theorem inClass_nonzero (c : Char) :
    inClass [('1', '9')] false c = true ↔ (isDigit c = true ∧ c ≠ '0') := by
  have h0 : c = '0' ↔ c.toNat = 48 := by
    constructor
    · intro h; subst h; rfl
    · intro h
      have := Char.ofNat_toNat c
      rw [h] at this
      exact this.symm
  simp only [inClass, isDigit, List.any_cons, List.any_nil, Bool.or_false, bne_iff_ne, ne_eq,
    Bool.and_eq_true, decide_eq_true_eq, h0]
  have e1 : ('1' : Char).toNat = 49 := rfl
  have e9 : ('9' : Char).toNat = 57 := rfl
  rw [e1, e9]
  simp only [Bool.not_eq_false, Bool.and_eq_true, decide_eq_true_eq]
  omega

theorem inClass_notSlash (c : Char) : inClass [('/', '/')] true c = true ↔ c ≠ '/' := by
  have h0 : c = '/' ↔ c.toNat = 47 := by
    constructor
    · intro h; subst h; rfl
    · intro h
      have := Char.ofNat_toNat c
      rw [h] at this
      exact this.symm
  have e1 : ('/' : Char).toNat = 47 := rfl
  simp only [inClass, List.any_cons, List.any_nil, Bool.or_false, bne_iff_ne, ne_eq, h0, e1,
    Bool.and_eq_true, decide_eq_true_eq]
  omega

theorem matchString_bol (r : Regex) (s : String) :
    (Regex.seq .bol r).MatchString s = true ↔ ∃ st, st ∈ r.run ⟨s.data, 0, []⟩ := by
  unfold Regex.MatchString
  rw [search_bol]
  cases h : r.run ⟨s.data, 0, []⟩ with
  | nil => simp
  | cons st tl => simp

/-- C10. Identifier validation: `isValidPhoneNumber s` holds exactly when `s`
is an optional single leading `+` followed by 10 to 15 ASCII decimal digits of
which the first is not `0`, and nothing else; the listed examples are accepted
and rejected as the claim says. -/
theorem isValidPhoneNumber_iff (s : String) :
    (isValidPhoneNumber s = true ↔ PhoneShape s.data) ∧
      isValidPhoneNumber "+1234567890" = true ∧ isValidPhoneNumber "1234567890" = true ∧
      isValidPhoneNumber "abc" = false ∧ isValidPhoneNumber "0123456789" = false ∧
      isValidPhoneNumber "123456789" = false ∧ isValidPhoneNumber "1234567890123456" = false ∧
      isValidPhoneNumber "1234567890\n" = false ∧ isValidPhoneNumber " 1234567890" = false := by
  refine ⟨?_, by decide, by decide, by decide, by decide, by decide, by decide, by decide,
    by decide⟩
  unfold isValidPhoneNumber phonePattern
  rw [matchString_bol]
  simp only [Regex.run, List.mem_flatMap, List.mem_append, List.mem_singleton, run_cls]
  constructor
  · rintro ⟨st, st1, hst1, st2, hst2, st3, hst3, hst⟩
    obtain ⟨first, more, hr, hp, rfl⟩ := (mem_stepChar _ st1 st2).mp hst2
    obtain ⟨k, k1, k2, k3, k4, rfl⟩ := (mem_repeatRun _ 14 9 _ st3).mp hst3
    have hend : (List.drop k more) = [] := by
      by_contra hne
      have : (List.drop k more).isEmpty = false := by
        cases hd : List.drop k more with
        | nil => exact absurd hd hne
        | cons _ _ => rfl
      simp [MState.advance, this] at hst
    have hk : k = more.length := by
      have := List.drop_eq_nil_iff.mp hend
      simp only at k3
      omega
    have hmore : ∀ c ∈ more, isDigit c = true := by
      intro c hc
      have := k4 c (by simp only; rw [hk, List.take_length]; exact hc)
      rwa [inClass_digit] at this
    have hfirst := (inClass_nonzero first).mp hp
    have hlen : 10 ≤ (first :: more).length ∧ (first :: more).length ≤ 15 := by
      simp only [List.length_cons]; omega
    rcases hst1 with hplus | rfl
    · obtain ⟨c, cs, hr0, hc, rfl⟩ := (mem_stepChar _ _ st1).mp hplus
      simp only [beq_iff_eq] at hc
      simp only at hr0 hr
      exact ⟨['+'], first, more, by rw [hr0, hc, hr]; rfl, Or.inr rfl, hfirst, hmore, hlen⟩
    · simp only at hr
      exact ⟨[], first, more, by rw [hr]; rfl, Or.inl rfl, hfirst, hmore, hlen⟩
  · rintro ⟨sign, first, more, hs, hsign, hfirst, hmore, hlen1, hlen2⟩
    simp only [List.length_cons] at hlen1 hlen2
    have hp := (inClass_nonzero first).mpr hfirst
    have tail : ∀ st1 : MState, st1.rest = first :: more →
        ∃ st, ∃ st2 ∈ stepChar (inClass [('1', '9')] false) st1,
          ∃ st3 ∈ repeatRun (stepChar (inClass [('0', '9')] false)) 9 14 st2,
            st ∈ (if st3.rest.isEmpty = true then [st3] else []) := by
      intro st1 hr
      refine ⟨(MState.mk more (st1.pos + 1) st1.caps).advance more.length,
        ⟨more, st1.pos + 1, st1.caps⟩,
        (mem_stepChar _ st1 _).mpr ⟨first, more, hr, hp, rfl⟩,
        (MState.mk more (st1.pos + 1) st1.caps).advance more.length,
        (mem_repeatRun _ 14 9 _ _).mpr ⟨more.length, by omega, by omega, le_refl _, ?_, rfl⟩, ?_⟩
      · intro c hc
        simp only [List.take_length] at hc
        rw [inClass_digit]; exact hmore c hc
      · simp [MState.advance]
    rcases hsign with rfl | rfl
    · obtain ⟨st, st2, h2, st3, h3, h4⟩ := tail ⟨s.data, 0, []⟩ (by simpa using hs)
      exact ⟨st, ⟨s.data, 0, []⟩, Or.inr rfl, st2, h2, st3, h3, h4⟩
    · obtain ⟨st, st2, h2, st3, h3, h4⟩ := tail ⟨first :: more, 0 + 1, []⟩ rfl
      exact ⟨st, ⟨first :: more, 0 + 1, []⟩,
        Or.inl ((mem_stepChar _ _ _).mpr ⟨'+', first :: more, by simpa using hs, by simp, rfl⟩),
        st2, h2, st3, h3, h4⟩

theorem run_plus_cls (ranges : List (Char × Char)) (negated : Bool) (st st1 : MState) :
    st1 ∈ (Regex.plus (.cls ranges negated)).run st ↔
      ∃ k, 1 ≤ k ∧ k ≤ st.rest.length ∧
        (∀ c ∈ st.rest.take k, inClass ranges negated c = true) ∧ st1 = st.advance k := by
  simp only [Regex.run, List.mem_flatMap, run_cls]
  constructor
  · rintro ⟨st2, h2, h3⟩
    obtain ⟨c, cs, hr, hp, rfl⟩ := (mem_stepChar _ st st2).mp h2
    obtain ⟨k, k1, k2, k3⟩ :=
      (mem_starRun _ st.rest.length _ st1 (by rw [hr]; simp)).mp h3
    refine ⟨k + 1, by omega, by rw [hr]; simp at k1 ⊢; omega, ?_, ?_⟩
    · rw [hr]; exact (take_succ_all _ c cs k).mpr ⟨hp, k2⟩
    · rw [k3]; exact advance_succ st c cs k hr
  · rintro ⟨k, h1, h2, h3, h4⟩
    cases k with
    | zero => omega
    | succ k =>
      cases hr : st.rest with
      | nil => rw [hr] at h2; simp at h2
      | cons c cs =>
        rw [hr] at h2 h3
        obtain ⟨hp, h3'⟩ := (take_succ_all _ c cs k).mp h3
        refine ⟨⟨cs, st.pos + 1, st.caps⟩, (mem_stepChar _ st _).mpr ⟨c, cs, hr, hp, rfl⟩, ?_⟩
        refine (mem_starRun _ (c :: cs).length _ st1 (by simp)).mpr
          ⟨k, by simp at h2 ⊢; omega, h3', ?_⟩
        rw [h4]; exact (advance_succ st c cs k hr).symm

theorem run_seq (a b : Regex) (st : MState) :
    (Regex.seq a b).run st = (a.run st).flatMap b.run := by
  simp [Regex.run]

theorem run_group (i : Nat) (a : Regex) (st : MState) :
    (Regex.group i a).run st = (a.run st).map fun st1 =>
      { st1 with caps := st1.caps ++ [(i, st.rest.take (st1.pos - st.pos))] } := by
  simp [Regex.run]

theorem run_eol (st : MState) : Regex.eol.run st = if st.rest.isEmpty then [st] else [] := by
  simp [Regex.run]

/-- All matches of `l1([^/]+)l2$` at the start of a text: there is one exactly
when the text is `l1 ++ id ++ l2` with `id` non-empty and free of `/`; it
covers the whole text and its group holds `id`. -/
theorem mem_run_captureBetween (l1 l2 s : List Char) (st : MState) :
    st ∈ (Regex.seq (Regex.text l1)
        (.seq (.group 1 (.plus (.cls [('/', '/')] true)))
          (.seq (Regex.text l2) .eol))).run ⟨s, 0, []⟩ ↔
      ∃ id, (s = l1 ++ id ++ l2 ∧ id ≠ [] ∧ '/' ∉ id) ∧ st = ⟨[], s.length, [(1, id)]⟩ := by
  simp only [run_seq, run_group, run_eol, List.mem_flatMap, List.mem_map]
  constructor
  · rintro ⟨st1, h1, st2, ⟨st2a, h2, rfl⟩, st3, h3, h4⟩
    obtain ⟨tl1, e1, rfl⟩ := (mem_run_text _ _ st1).mp h1
    obtain ⟨k, k1, k2, k3, rfl⟩ := (run_plus_cls _ _ _ st2a).mp h2
    obtain ⟨tl3, e3, rfl⟩ := (mem_run_text _ _ st3).mp h3
    simp only [MState.advance] at e3 k2 k3 h4 ⊢
    simp only at e1
    have htl3 : tl3 = [] := by
      cases tl3 with
      | nil => rfl
      | cons _ _ => simp at h4
    subst htl3
    simp only [List.isEmpty_nil, if_true, List.mem_singleton, List.append_nil] at h4 e3
    have hsplit : tl1 = tl1.take k ++ l2 := by
      conv_lhs => rw [← List.take_append_drop k tl1, e3]
    have hid : tl1.take k ≠ [] := by
      intro hnil
      have := congrArg List.length hnil
      simp only [List.length_take, List.length_nil] at this
      omega
    have hns : '/' ∉ tl1.take k := by
      intro hmem
      exact (inClass_notSlash '/').mp (k3 '/' hmem) rfl
    refine ⟨tl1.take k, ⟨by rw [e1, List.append_assoc, ← hsplit], hid, hns⟩, ?_⟩
    rw [h4]
    have hlen : s.length = l1.length + (k + l2.length) := by
      rw [e1, hsplit]
      simp only [List.length_append, List.length_take]
      have hk : min k tl1.length = k := by omega
      omega
    simp only [MState.mk.injEq, true_and, List.nil_append, List.cons.injEq, Prod.mk.injEq,
      and_true]
    refine ⟨by omega, ?_⟩
    congr 1
    omega
  · rintro ⟨id, ⟨hs, hid, hns⟩, rfl⟩
    have hk : 1 ≤ id.length := by
      cases id with
      | nil => exact absurd rfl hid
      | cons _ _ => simp
    refine ⟨⟨id ++ l2, 0 + l1.length, []⟩,
      (mem_run_text _ _ _).mpr ⟨_, by rw [hs, List.append_assoc], rfl⟩, ?_⟩
    refine ⟨_, ⟨(MState.mk (id ++ l2) (0 + l1.length) []).advance
        id.length, (run_plus_cls _ _ _ _).mpr ⟨id.length, hk, by simp, ?_, rfl⟩, rfl⟩, ?_⟩
    · intro c hc
      simp only [List.take_left'] at hc
      rw [inClass_notSlash]
      intro h
      exact hns (h ▸ hc)
    · refine ⟨⟨[], 0 + l1.length + id.length + l2.length,
        [] ++ [(1, id)]⟩, (mem_run_text _ _ _).mpr ⟨[], ?_, ?_⟩, ?_⟩
      · simp [MState.advance]
      · simp [MState.advance]
      · simp only [List.isEmpty_nil, if_true, List.mem_singleton, MState.mk.injEq, true_and,
          List.nil_append, and_true]
        rw [hs]
        simp only [List.length_append]
        omega

theorem UserMessagesPath_unique (s id1 id2 : List Char) (h1 : UserMessagesPath s id1)
    (h2 : UserMessagesPath s id2) : id1 = id2 := by
  have h := h1.1.symm.trans h2.1
  rw [List.append_assoc, List.append_assoc] at h
  exact List.append_cancel_right (List.append_cancel_left h)

/-- What `FindStringSubmatch` returns for `userMessagesPattern`: the path and
the `id` when the path is `/v0/user/{id}/messages`, nil otherwise. -/
theorem findStringSubmatch_path (path : String) :
    (∃ id, UserMessagesPath path.data id ∧
        userMessagesPattern.FindStringSubmatch path = [path, String.mk id]) ∨
      ((∀ id, ¬ UserMessagesPath path.data id) ∧
        userMessagesPattern.FindStringSubmatch path = []) := by
  unfold Regex.FindStringSubmatch userMessagesPattern
  rw [search_bol]
  have hmem := mem_run_captureBetween "/v0/user/".data "/messages".data path.data
  cases hrun : (Regex.seq (Regex.text "/v0/user/".data)
        (.seq (.group 1 (.plus (.cls [('/', '/')] true)))
          (.seq (Regex.text "/messages".data) .eol))).run ⟨path.data, 0, []⟩ with
  | nil =>
    right
    refine ⟨?_, by simp⟩
    intro id hid
    have := (hmem ⟨[], path.data.length, [(1, id)]⟩).mpr ⟨id, hid, rfl⟩
    rw [hrun] at this
    simp at this
  | cons st tl =>
    left
    obtain ⟨id, hid, rfl⟩ := (hmem st).mp (by rw [hrun]; simp)
    refine ⟨id, hid, ?_⟩
    simp only [Regex.numSubexp, Option.map_some', List.head?_cons, List.length_nil, Nat.sub_zero,
      Nat.zero_add, Nat.add_zero]
    have hr : List.range 1 = [0] := rfl
    have ht : String.mk (List.take path.data.length path.data) = path := by
      rw [List.take_length]
    rw [hr, ht]
    rfl

/-! ## Claims about the query path -/

/-- C10 at `"+1234567890"`. -/
theorem isValidPhoneNumber_iff_witness :
    (isValidPhoneNumber "+1234567890" = true ↔ PhoneShape "+1234567890".data) ∧
      PhoneShape "+1234567890".data :=
  ⟨(isValidPhoneNumber_iff "+1234567890").1,
   ((isValidPhoneNumber_iff "+1234567890").1).mp (by decide)⟩

/-- C8 as stated fails: for an owner without records the cursor yields no
document, `records` stays the nil slice it was declared as, and
`GetMessagesByUserID` returns it with a nil error. -/
theorem GetMessagesByUserID_nil_on_empty :
    GetMessagesByUserID (fun _ => .documents []) "+15551234567" = (none, none) := by
  rfl

/-- C8, amended. Whenever `GetMessagesByUserID` returns a nil error, the
slice it returns is what `cursor.All` left in the nil-initialised `records`:
the documents of the cursor, and the nil slice exactly when there is none.
The empty-sequence guarantee is given one level up: every 200 response of
`GetUserMessages` carries a non-nil (possibly empty) sequence. -/
theorem GetMessagesByUserID_result (store : String → QueryResult) (userID path : String)
    (recs : Slice SMSRecord) (h : GetMessagesByUserID store userID = (recs, none)) :
    (∃ docs, store userID = .documents docs ∧ recs.getD [] = docs ∧
        (recs = none ↔ docs = [])) ∧
      ((GetUserMessages store path).status = 200 →
        ∃ l, (GetUserMessages store path).body = .messages (some l)) := by
  constructor
  · unfold GetMessagesByUserID at h
    cases hs : store userID with
    | findFails err => simp [hs] at h
    | allFails err => simp [hs] at h
    | documents docs =>
      simp only [hs, Prod.mk.injEq, and_true] at h
      subst h
      cases docs with
      | nil => exact ⟨[], rfl, rfl, by simp [cursorAll]⟩
      | cons d ds => exact ⟨d :: ds, rfl, rfl, by simp [cursorAll]⟩
  · unfold GetUserMessages
    simp only [respondWithError]
    split
    · intro h4; simp at h4
    · split
      · intro h4; simp at h4
      · rcases hg : GetMessagesByUserID store _ with ⟨ms, err⟩
        cases err with
        | some e => intro h4; simp at h4
        | none =>
          intro _
          cases ms with
          | none => exact ⟨[], by simp⟩
          | some l => exact ⟨l, by simp⟩

/-- C8 amended, at an owner with one stored record. -/
theorem GetMessagesByUserID_result_witness :
    GetMessagesByUserID (fun _ => .documents [scenarioRecord]) "+15551234567" =
        (some [scenarioRecord], none) ∧
    ((∃ docs, (fun _ => QueryResult.documents [scenarioRecord]) "+15551234567" = .documents docs ∧
        (some [scenarioRecord] : Slice SMSRecord).getD [] = docs ∧
        ((some [scenarioRecord] : Slice SMSRecord) = none ↔ docs = [])) ∧
      ((GetUserMessages (fun _ => .documents [scenarioRecord])
          "/v0/user/+15551234567/messages").status = 200 →
        ∃ l, (GetUserMessages (fun _ => .documents [scenarioRecord])
          "/v0/user/+15551234567/messages").body = .messages (some l))) :=
  ⟨by rfl, GetMessagesByUserID_result (fun _ => .documents [scenarioRecord]) "+15551234567"
    "/v0/user/+15551234567/messages" (some [scenarioRecord]) (by rfl)⟩

/-- C9. Status mapping of `GetUserMessages`: a path that is not
`/v0/user/{id}/messages` (with `id` non-empty and free of `/`) gets 400
without a service call, and so does one whose `id` fails
`isValidPhoneNumber`; otherwise `GetMessagesByUserID` is called once, with
`id`, and the response is 500 if it returns an error and 200 with the returned
records (the nil slice replaced by an empty one) if not.  The path
`/v0/user/abc/messages` gets 400 with the invalid-format message. -/
theorem GetUserMessages_status (store : String → QueryResult) (path : String) :
    ((∀ id, ¬ UserMessagesPath path.data id) →
        GetUserMessages store path = ⟨[], 400, .error "Bad Request" "Invalid URL format"⟩) ∧
      (∀ id, UserMessagesPath path.data id →
        (isValidPhoneNumber (String.mk id) = false →
          GetUserMessages store path =
            ⟨[], 400, .error "Bad Request" "Invalid user_id format. Expected phone number."⟩) ∧
        (isValidPhoneNumber (String.mk id) = true →
          (∀ recs err, GetMessagesByUserID store (String.mk id) = (recs, some err) →
            GetUserMessages store path =
              ⟨[String.mk id], 500,
                .error "Internal Server Error" "Failed to retrieve messages"⟩) ∧
          (∀ recs, GetMessagesByUserID store (String.mk id) = (recs, none) →
            GetUserMessages store path =
              ⟨[String.mk id], 200, .messages (some (recs.getD []))⟩))) ∧
      GetUserMessages store "/v0/user/abc/messages" =
        ⟨[], 400, .error "Bad Request" "Invalid user_id format. Expected phone number."⟩ := by
  refine ⟨?_, ?_, by rfl⟩
  · intro hno
    rcases findStringSubmatch_path path with ⟨id, hid, -⟩ | ⟨-, hnil⟩
    · exact absurd hid (hno id)
    · unfold GetUserMessages
      simp only [hnil]
      rfl
  · intro id hid
    rcases findStringSubmatch_path path with ⟨id1, hid1, hm⟩ | ⟨hno, -⟩
    · have e := UserMessagesPath_unique _ _ _ hid1 hid
      subst e
      have hlen : ([path, String.mk id1] : List String).length = 2 := rfl
      have hget : ([path, String.mk id1] : List String).getD 1 "" = String.mk id1 := rfl
      refine ⟨?_, ?_⟩
      · intro hv
        unfold GetUserMessages
        simp only [hm, hlen, hget, hv]
        rfl
      · intro hv
        refine ⟨?_, ?_⟩
        · intro recs err hg
          unfold GetUserMessages
          simp only [hm, hlen, hget, hv, hg]
          rfl
        · intro recs hg
          unfold GetUserMessages
          simp only [hm, hlen, hget, hv, hg]
          cases recs <;> rfl
    · exact absurd hid (hno id)

/-- C9 at the request of the end-to-end scenario, against a store that holds
the scenario record. -/
theorem GetUserMessages_status_witness :
    UserMessagesPath "/v0/user/+15551234567/messages".data "+15551234567".data ∧
    isValidPhoneNumber (String.mk "+15551234567".data) = true ∧
    GetMessagesByUserID (fun _ => .documents [scenarioRecord]) (String.mk "+15551234567".data) =
      (some [scenarioRecord], none) ∧
    GetUserMessages (fun _ => .documents [scenarioRecord]) "/v0/user/+15551234567/messages" =
      ⟨[String.mk "+15551234567".data], 200,
        .messages (some ((some [scenarioRecord] : Slice SMSRecord).getD []))⟩ :=
  ⟨⟨by rfl, by decide, by decide⟩, by decide, by rfl,
   ((((GetUserMessages_status (fun _ => .documents [scenarioRecord])
      "/v0/user/+15551234567/messages").2.1 "+15551234567".data
        ⟨by rfl, by decide, by decide⟩).2 (by decide)).2) (some [scenarioRecord]) (by rfl)⟩

/-! ## Claims about the record conversion and the configuration -/

/-- C11. Verbatim field copy: the record `ToSMSRecord` returns has the event's
`UserID`, `PhoneNumber`, `Message` and `Status`, whatever they are, and the
zero `ObjectID`; the event's `EventID` has no influence on the record. -/
theorem ToSMSRecord_copies_fields (k : KafkaEvent) (now : Time) (eventID : String) :
    (∃ r : SMSRecord, k.ToSMSRecord now = (some r, none) ∧ r.UserID = k.UserID ∧
        r.PhoneNumber = k.PhoneNumber ∧ r.Message = k.Message ∧ r.Status = k.Status ∧
        r.ID = NilObjectID) ∧
      KafkaEvent.ToSMSRecord { k with EventID := eventID } now = k.ToSMSRecord now := by
  refine ⟨⟨_, ToSMSRecord_eq k now, rfl, rfl, rfl, rfl, rfl⟩, ?_⟩
  rw [ToSMSRecord_eq, ToSMSRecord_eq]

/-- C11 at an event whose fields are empty or not phone numbers at all: they
are copied as they are. -/
theorem ToSMSRecord_copies_fields_witness :
    (∃ r : SMSRecord,
        KafkaEvent.ToSMSRecord ⟨"e1", "", "not a number", " hi ", "??", "x"⟩ Time.zero
          = (some r, none) ∧
        r.UserID = "" ∧ r.PhoneNumber = "not a number" ∧ r.Message = " hi " ∧
        r.Status = "??" ∧ r.ID = NilObjectID) ∧
      KafkaEvent.ToSMSRecord
          { (⟨"e1", "", "not a number", " hi ", "??", "x"⟩ : KafkaEvent) with EventID := "e2" }
          Time.zero
        = KafkaEvent.ToSMSRecord ⟨"e1", "", "not a number", " hi ", "??", "x"⟩ Time.zero :=
  ToSMSRecord_copies_fields ⟨"e1", "", "not a number", " hi ", "??", "x"⟩ Time.zero "e2"

theorem getEnv_ne_empty (env : Environ) (key defaultValue : String) (h : defaultValue ≠ "") :
    getEnv env key defaultValue ≠ "" := by
  unfold getEnv
  split
  · rename_i hne
    simpa using hne
  · exact h

theorem append_ne_empty (a b : String) (h : a ≠ "") : a ++ b ≠ "" := by
  intro hab
  apply h
  have hd := congrArg String.data hab
  simp only [String.data_append] at hd
  have : a.data = [] := (List.append_eq_nil.mp hd).1
  exact String.ext this

/-- `Load` never fails, and the broker list it builds has exactly one entry:
the whole value of `KAFKA_BROKERS`, or the default. -/
theorem Load_brokers (env : Environ) :
    ∃ c, Load env = (some c, none) ∧
      c.KafkaBrokers = [getEnv env "KAFKA_BROKERS" "kafka:9092"] := by
  have h1 := getEnv_ne_empty env "GO_SERVICE_PORT" "8090" (by decide)
  have h2 := getEnv_ne_empty env "MONGO_DATABASE" "sms_store" (by decide)
  have h3 := getEnv_ne_empty env "KAFKA_TOPIC" "sms.events" (by decide)
  have h4 := getEnv_ne_empty env "KAFKA_GROUP_ID" "sms-store-consumer-group" (by decide)
  have h5 : ∀ a b c d e f g h i j : String,
      "mongodb://" ++ a ++ b ++ c ++ d ++ e ++ f ++ g ++ h ++ i ++ j ≠ "" := by
    intro a b c d e f g h i j
    repeat' apply append_ne_empty
    decide
  unfold Load
  simp only [Config.validate, beq_iff_eq, h1, h2, h3, h4, h5, List.length_singleton,
    if_false]
  exact ⟨_, rfl, rfl⟩

/-- C12, the defect. With `KAFKA_BROKERS` set to `a:9092,b:9092`, `Load`
succeeds and `KafkaBrokers` holds the single entry `a:9092,b:9092`, not the
two entries `a:9092` and `b:9092` of the comma-separated list; with the
variable unset or empty the list is `kafka:9092` alone. -/
theorem Load_keeps_broker_list_whole :
    (∃ c, Load (brokersOnly "a:9092,b:9092") = (some c, none) ∧
        c.KafkaBrokers = ["a:9092,b:9092"] ∧ c.KafkaBrokers ≠ ["a:9092", "b:9092"]) ∧
      (commaSeparated "a:9092,b:9092".data).map String.mk = ["a:9092", "b:9092"] ∧
      (∃ c, Load (brokersOnly "") = (some c, none) ∧ c.KafkaBrokers = ["kafka:9092"]) ∧
      (∃ c, Load (fun _ => "") = (some c, none) ∧ c.KafkaBrokers = ["kafka:9092"]) := by
  refine ⟨?_, by decide, ?_, ?_⟩
  · obtain ⟨c, hc, hb⟩ := Load_brokers (brokersOnly "a:9092,b:9092")
    refine ⟨c, hc, ?_, ?_⟩
    · rw [hb]; decide
    · rw [hb]; decide
  · obtain ⟨c, hc, hb⟩ := Load_brokers (brokersOnly "")
    exact ⟨c, hc, by rw [hb]; decide⟩
  · obtain ⟨c, hc, hb⟩ := Load_brokers (fun _ => "")
    exact ⟨c, hc, by rw [hb]; decide⟩

/-! ## The timestamp texts `parseJavaLocalDateTime` accepts -/

theorem zone_endsFraction (zone : ZoneText) : EndsFraction zone.text := by
  cases zone with
  | absent => exact Or.inl rfl
  | zulu => exact Or.inr ⟨'Z', [], rfl, by decide, by decide⟩
  | offset neg hh mm =>
    cases neg
    · exact Or.inr ⟨'+', _, rfl, by decide, by decide⟩
    · exact Or.inr ⟨'-', _, rfl, by decide, by decide⟩

theorem takeWhile_digits (frac : List Nat) (tail : List Char) (ht : EndsFraction tail) :
    ((frac.map digitChar) ++ tail).takeWhile isDigit = frac.map digitChar ∧
      ((frac.map digitChar) ++ tail).dropWhile isDigit = tail := by
  induction frac with
  | nil =>
    rcases ht with rfl | ⟨c, cs, rfl, -, hd⟩
    · simp
    · simp [List.takeWhile, List.dropWhile, hd]
  | cons d ds ih =>
    have hd := (digitChar_facts d).1
    simp only [List.map_cons, List.cons_append, List.takeWhile_cons, List.dropWhile_cons, hd,
      if_true]
    exact ⟨by rw [ih.1], ih.2⟩

theorem leadingInt_digits (frac : List Nat) :
    ∀ x : Int, leadingInt (frac.map digitChar) x = (decimalValue frac x, []) := by
  induction frac with
  | nil => intro x; rfl
  | cons d ds ih =>
    intro x
    obtain ⟨hd, hv, -, -⟩ := digitChar_facts d
    simp only [List.map_cons, leadingInt, hd, if_true, hv, ih]
    rfl

theorem atoi_digits (frac : List Nat) (h : frac ≠ []) :
    atoi (frac.map digitChar) = some (decimalValue frac 0) := by
  cases frac with
  | nil => exact absurd rfl h
  | cons d ds =>
    obtain ⟨hd, hv, hm, hp⟩ := digitChar_facts d
    have e1 : (some (digitChar d) == some '-') = false := by simpa using hm
    have e2 : (some (digitChar d) == some '+') = false := by simpa using hp
    have hl := leadingInt_digits (d :: ds) 0
    simp only [List.map_cons] at hl
    simp only [atoi, List.map_cons, List.head?_cons, e1, e2, Bool.or_self, Bool.false_eq_true,
      if_false, hl, List.isEmpty_nil, if_true]

theorem decimalValue_nonneg (frac : List Nat) : ∀ x : Int, 0 ≤ x → 0 ≤ decimalValue frac x := by
  induction frac with
  | nil => intro x hx; exact hx
  | cons d ds ih =>
    intro x hx
    unfold decimalValue
    simp only [List.foldl_cons]
    exact ih _ (by omega)

theorem parseNanoseconds_frac (frac : List Nat) (tail : List Char) (h : frac ≠ []) :
    parseNanoseconds ('.' :: (frac.map digitChar ++ tail)) (1 + frac.length) =
      .ok (fracNanos frac) := by
  have hcp : commaOrPeriod '.' = true := by decide
  have htake : (List.take (if 1 + frac.length > 10 then 10 else 1 + frac.length)
      ('.' :: (frac.map digitChar ++ tail))).drop 1 = (frac.take 9).map digitChar := by
    split
    · rename_i hgt
      simp only [List.take_succ_cons, List.drop_succ_cons, List.drop_zero]
      rw [List.take_append_of_le_length (by simp; omega), List.map_take]
    · rename_i hle
      have : 1 + frac.length = frac.length + 1 := by omega
      rw [this]
      simp only [List.take_succ_cons, List.drop_succ_cons, List.drop_zero]
      rw [List.take_append_of_le_length (by simp), List.take_of_length_le (by simp),
        List.take_of_length_le (by omega)]
  have hne : frac.take 9 ≠ [] := by
    cases frac with
    | nil => exact absurd rfl h
    | cons d ds => simp
  have hpow : 10 - (if 1 + frac.length > 10 then 10 else 1 + frac.length)
      = 9 - (frac.take 9).length := by
    simp only [List.length_take]
    split <;> omega
  unfold parseNanoseconds
  simp only [hcp, Bool.not_true, Bool.false_eq_true, if_false, htake, atoi_digits _ hne]
  have hnn := decimalValue_nonneg (frac.take 9) 0 (le_refl _)
  have : ¬ decimalValue (List.take 9 frac) 0 < 0 := by omega
  simp only [this, if_false, hpow]
  rfl

theorem formatTimestamp_data (y m d h mi s : Nat) (frac : List Nat) (zone : ZoneText) :
    (formatTimestamp y m d h mi s frac zone).data =
      fourDigits y ++ ('-' :: (twoDigits m ++ ('-' :: (twoDigits d ++ ('T' :: (twoDigits h ++
        (':' :: (twoDigits mi ++ (':' :: (twoDigits s ++ (fracText frac ++ zone.text))))))))))) := by
  simp [formatTimestamp, formatLocal, List.append_assoc]

/-- The first five elements of the three layouts, on a timestamp text. -/
theorem parseChunks_dateTime (y m d h mi : Nat) (tailLayout : Layout) (tail : List Char)
    (hy : y < 10000) (hm1 : 1 ≤ m) (hm2 : m ≤ 12) (hd : d < 100) (hh : h < 24) (hmi : mi < 60) :
    parseChunks (([], .stdLongYear) :: (['-'], .stdZeroMonth) :: (['-'], .stdZeroDay) ::
        (['T'], .stdHour) :: ([':'], .stdZeroMinute) :: tailLayout)
      (fourDigits y ++ ('-' :: (twoDigits m ++ ('-' :: (twoDigits d ++ ('T' :: (twoDigits h ++
        (':' :: (twoDigits mi ++ tail))))))))) {} =
    parseChunks tailLayout tail { year := y, month := m, day := d, hour := h, min := mi } := by
  rw [parseChunks_step _ _ _ _ _ _ _ _ (skip_nil _) (parseStd_year y hy _ _ _),
    parseChunks_step _ _ _ _ _ _ _ _ (skip_one _ _) (parseStd_month m hm1 hm2 _ _ _),
    parseChunks_step _ _ _ _ _ _ _ _ (skip_one _ _) (parseStd_day d hd _ _ _),
    parseChunks_step _ _ _ _ _ _ _ _ (skip_one _ _) (parseStd_hour h hh _ _ _),
    parseChunks_step _ _ _ _ _ _ _ _ (skip_one _ _) (parseStd_minute mi hmi _ _ _)]

theorem parseStd_second_plain (s : Nat) (hs : s < 60) (f : Bool) (rest : List Char) (p : Parsed)
    (h : f = true ∨ EndsFraction rest) :
    parseStd .stdZeroSecond f (twoDigits s ++ rest) p = .ok (rest, { p with sec := s }) := by
  have r : (decide ((s : Int) < 0) || decide ((60 : Int) ≤ s)) = false := by
    simp only [Bool.or_eq_false_iff, decide_eq_false_iff_not]; omega
  simp only [parseStd, getnum_twoDigits s (by omega) rest true, r, Bool.false_eq_true, if_false]
  cases rest with
  | nil => rfl
  | cons c0 tl =>
    cases tl with
    | nil => rfl
    | cons c1 more =>
      have hc : (commaOrPeriod c0 && isDigit c1 && !f) = false := by
        rcases h with rfl | h
        · simp
        · rcases h with h | ⟨c, cs, e, hcp, -⟩
          · cases h
          · simp only [List.cons.injEq] at e
            rw [e.1, hcp]; rfl
      simp only [hc, Bool.false_eq_true, if_false]

theorem drop_frac (frac : List Nat) (tail : List Char) :
    List.drop (1 + frac.length) ('.' :: (frac.map digitChar ++ tail)) = tail := by
  have : 1 + frac.length = frac.length + 1 := by omega
  rw [this, List.drop_succ_cons]
  rw [List.drop_append_of_le_length (by simp)]
  simp

theorem parseStd_second_frac (s : Nat) (hs : s < 60) (frac : List Nat) (hf : frac ≠ [])
    (tail : List Char) (ht : EndsFraction tail) (p : Parsed) :
    parseStd .stdZeroSecond false (twoDigits s ++ (fracText frac ++ tail)) p =
      .ok (tail, { p with sec := s, nsec := fracNanos frac }) := by
  have r : (decide ((s : Int) < 0) || decide ((60 : Int) ≤ s)) = false := by
    simp only [Bool.or_eq_false_iff, decide_eq_false_iff_not]; omega
  cases frac with
  | nil => exact absurd rfl hf
  | cons d0 ds =>
    have hd0 := (digitChar_facts d0).1
    have hcp : commaOrPeriod '.' = true := by decide
    have htw := (takeWhile_digits ds tail ht).1
    have hn : 2 + (ds.map digitChar).length = 1 + (d0 :: ds).length := by
      simp only [List.length_map, List.length_cons]; omega
    have hpn := parseNanoseconds_frac (d0 :: ds) tail (by simp)
    have hdrop := drop_frac (d0 :: ds) tail
    simp only [List.map_cons, List.cons_append] at hpn hdrop
    simp only [parseStd, getnum_twoDigits s (by omega) _ true, r, Bool.false_eq_true, if_false,
      fracText, List.isEmpty_cons, List.map_cons, List.cons_append, hcp, hd0, Bool.and_self,
      Bool.not_false, if_true, htw, hn, hpn, hdrop]

theorem parseStd_frac9 (k : Nat) (f : Bool) (frac : List Nat) (tail : List Char)
    (ht : EndsFraction tail) (p : Parsed) :
    parseStd (.stdFracSecond9 k) f (fracText frac ++ tail) p =
      .ok (tail, { p with nsec := if frac.isEmpty then p.nsec else fracNanos frac }) := by
  cases frac with
  | nil =>
    simp only [fracText, List.isEmpty_nil, if_true, List.nil_append, parseStd]
    cases tail with
    | nil => rfl
    | cons c0 tl =>
      cases tl with
      | nil => rfl
      | cons c1 more =>
        have hc : commaOrPeriod c0 = false := by
          rcases ht with h | ⟨c, cs, e, hcp, -⟩
          · cases h
          · simp only [List.cons.injEq] at e
            rw [e.1, hcp]
        simp only [hc, Bool.false_and, Bool.false_eq_true, if_false]
  | cons d0 ds =>
    have hd0 := (digitChar_facts d0).1
    have hcp : commaOrPeriod '.' = true := by decide
    have htw := (takeWhile_digits ds tail ht).1
    have hn : 1 + (1 + (ds.map digitChar).length) = 1 + (d0 :: ds).length := by
      simp only [List.length_map, List.length_cons]; omega
    have hpn := parseNanoseconds_frac (d0 :: ds) tail (by simp)
    have hdrop := drop_frac (d0 :: ds) tail
    simp only [List.map_cons, List.cons_append] at hpn hdrop
    simp only [parseStd, fracText, List.isEmpty_cons, Bool.false_eq_true, if_false,
      List.map_cons, List.cons_append, hcp, hd0, Bool.and_self, if_true, htw, hn, hpn, hdrop]

theorem parseStd_zone_zulu (f : Bool) (p : Parsed) :
    parseStd .stdISO8601ColonTZ f ZoneText.zulu.text p = .ok ([], { p with z := some .utc }) := by
  rfl

theorem parseStd_zone_offset (f : Bool) (neg : Bool) (hh mm : Nat) (h1 : hh ≤ 23) (h2 : mm ≤ 59)
    (p : Parsed) :
    parseStd .stdISO8601ColonTZ f (ZoneText.offset neg hh mm).text p =
      .ok ([], { p with zoneOffset := (ZoneText.offset neg hh mm).seconds }) := by
  have g1 := getnum_twoDigits hh (by omega) [] true
  have g2 := getnum_twoDigits mm (by omega) [] true
  simp only [twoDigits, List.cons_append, List.nil_append] at g1 g2
  have r1 : ¬ ((hh : Int) > 24) := by omega
  have r2 : ¬ ((mm : Int) > 60) := by omega
  have hsec : ((hh : Int) * 60 + mm) * 60 + 0 = (hh : Int) * 3600 + (mm : Int) * 60 := by ring
  cases neg
  · have hs : (('+' : Char) == 'Z') = false := by decide
    simp [parseStd, ZoneText.text, twoDigits, hs, parseColonTZ, g1, g2, r1, r2,
      ZoneText.seconds, hsec]
  · have hs : (('-' : Char) == 'Z') = false := by decide
    have hs2 : (('-' : Char) == '+') = false := by decide
    simp [parseStd, ZoneText.text, twoDigits, hs, hs2, parseColonTZ, g1, g2, r1, r2,
      ZoneText.seconds, hsec]

theorem fracNanos_range (frac : List Nat) : 0 ≤ fracNanos frac ∧ fracNanos frac < 1000000000 := by
  cases frac with
  | nil => decide
  | cons d ds =>
    exact parseNanoseconds_range _ _ _ (parseNanoseconds_frac (d :: ds) [] (by simp))

theorem fracNanos_if (frac : List Nat) (n : Int) (hn : n = 0) :
    (if frac.isEmpty then n else fracNanos frac) = fracNanos frac := by
  cases frac with
  | nil => subst hn; rfl
  | cons d ds => rfl

/-- The seconds element, with the fraction the value may carry, when the next
layout element is not a fraction. -/
theorem parseStd_second_any (s : Nat) (hs : s < 60) (frac : List Nat) (tail : List Char)
    (ht : EndsFraction tail) (p : Parsed) (hp : p.nsec = 0) :
    parseStd .stdZeroSecond false (twoDigits s ++ (fracText frac ++ tail)) p =
      .ok (tail, { p with sec := s, nsec := fracNanos frac }) := by
  cases frac with
  | nil =>
    have := parseStd_second_plain s hs false tail p (Or.inr ht)
    simp only [fracText, List.isEmpty_nil, if_true, List.nil_append]
    rw [this]
    have h0 : fracNanos [] = 0 := by decide
    rw [h0, ← hp]
  | cons d ds => exact parseStd_second_frac s hs (d :: ds) (by simp) tail ht p

theorem parseChunks_local (y m d h mi s : Nat) (frac : List Nat) (zone : ZoneText)
    (hy : y < 10000) (hm1 : 1 ≤ m) (hm2 : m ≤ 12) (hd : d < 100) (hh : h < 24) (hmi : mi < 60)
    (hs : s < 60) :
    parseChunks layoutLocal (formatTimestamp y m d h mi s frac zone).data {} =
      if zone.text.isEmpty then .ok (parsedTimestamp y m d h mi s frac)
      else .error .extraText := by
  rw [formatTimestamp_data]
  unfold layoutLocal
  rw [parseChunks_dateTime y m d h mi _ _ hy hm1 hm2 hd hh hmi,
    parseChunks_step _ _ _ _ _ _ _ _ (skip_one _ _)
      (parseStd_second_any s hs frac zone.text (zone_endsFraction zone) _ rfl)]
  rfl

theorem parseChunks_micro (y m d h mi s : Nat) (frac : List Nat) (zone : ZoneText)
    (hy : y < 10000) (hm1 : 1 ≤ m) (hm2 : m ≤ 12) (hd : d < 100) (hh : h < 24) (hmi : mi < 60)
    (hs : s < 60) :
    parseChunks layoutMicro (formatTimestamp y m d h mi s frac zone).data {} =
      if zone.text.isEmpty then .ok (parsedTimestamp y m d h mi s frac)
      else .error .extraText := by
  rw [formatTimestamp_data]
  unfold layoutMicro layoutLocal
  simp only [List.cons_append, List.nil_append]
  rw [parseChunks_dateTime y m d h mi _ _ hy hm1 hm2 hd hh hmi,
    parseChunks_step _ _ _ _ _ _ _ _ (skip_one _ _)
      (parseStd_second_plain s hs true _ _ (Or.inl rfl)),
    parseChunks_step _ _ _ _ _ _ _ _ (skip_nil _)
      (parseStd_frac9 6 _ frac zone.text (zone_endsFraction zone) _)]
  simp only [fracNanos_if frac 0 rfl]
  rfl

theorem parseChunks_rfc3339 (y m d h mi s : Nat) (frac : List Nat) (zone : ZoneText)
    (hy : y < 10000) (hm1 : 1 ≤ m) (hm2 : m ≤ 12) (hd : d < 100) (hh : h < 24) (hmi : mi < 60)
    (hs : s < 60) (hz : zone.Valid) (hza : zone ≠ .absent) :
    parseChunks layoutRFC3339 (formatTimestamp y m d h mi s frac zone).data {} =
      .ok (match zone with
        | .zulu => { parsedTimestamp y m d h mi s frac with z := some .utc }
        | _ => { parsedTimestamp y m d h mi s frac with zoneOffset := zone.seconds }) := by
  rw [formatTimestamp_data]
  unfold layoutRFC3339 layoutLocal
  simp only [List.cons_append, List.nil_append]
  rw [parseChunks_dateTime y m d h mi _ _ hy hm1 hm2 hd hh hmi,
    parseChunks_step _ _ _ _ _ _ _ _ (skip_one _ _)
      (parseStd_second_any s hs frac zone.text (zone_endsFraction zone) _ rfl)]
  cases zone with
  | absent => exact absurd rfl hza
  | zulu =>
    rw [parseChunks_step _ _ _ _ _ _ _ _ (skip_nil _) (parseStd_zone_zulu _ _)]
    rfl
  | offset neg hh1 mm1 =>
    rw [parseChunks_step _ _ _ _ _ _ _ _ (skip_nil _)
      (parseStd_zone_offset _ neg hh1 mm1 hz.1 hz.2 _)]
    rfl

theorem zone_text_empty (zone : ZoneText) : zone.text.isEmpty = true ↔ zone = .absent := by
  cases zone with
  | absent => simp [ZoneText.text]
  | zulu => simp [ZoneText.text]
  | offset neg hh mm => simp [ZoneText.text]

theorem zone_seconds_ne (zone : ZoneText) : zone.seconds ≠ -1 := by
  cases zone with
  | absent => simp [ZoneText.seconds]
  | zulu => simp [ZoneText.seconds]
  | offset neg hh mm =>
    simp only [ZoneText.seconds]
    split <;> omega

theorem parseLayouts_ok (layout : Layout) (rest : List Layout) (ts : String) (t : Time)
    (e : Option ParseError) (h : Parse layout ts = .ok t) :
    parseLayouts (layout :: rest) ts e = (t.UTC, none) := by
  simp only [parseLayouts, h]

theorem parseLayouts_error (layout : Layout) (rest : List Layout) (ts : String)
    (e1 : ParseError) (e : Option ParseError) (h : Parse layout ts = .error e1) :
    parseLayouts (layout :: rest) ts e = parseLayouts rest ts (some e1) := by
  simp only [parseLayouts, h]

/-- The time `parseJavaLocalDateTime` returns for a timestamp text. -/
theorem parseJavaLocalDateTime_formatTimestamp (y m d h mi s : Nat) (frac : List Nat)
    (zone : ZoneText) (hy : y ≤ 9999) (hm1 : 1 ≤ m) (hm2 : m ≤ 12) (hd1 : 1 ≤ d)
    (hd2 : d ≤ daysIn m y) (hh : h < 24) (hmi : mi < 60) (hs : s < 60) (hz : zone.Valid) :
    parseJavaLocalDateTime (formatTimestamp y m d h mi s frac zone) =
      (⟨(Date y m d h mi s 0 .utc).unixSec - zone.seconds, fracNanos frac, .utc⟩, none) := by
  have hd3 : d < 100 := by have := daysIn_le m y hm1 hm2; omega
  have hn := fracNanos_range frac
  have hU := fun (ns : Int) (h1 : 0 ≤ ns) (h2 : ns < 1000000000) (loc : Location) =>
    Date_unixSec y m d h mi s ns loc hm1 hm2 hh hmi hs h1 h2
  have hday : (decide ((d : Int) < 1) || decide ((d : Int) > ((daysIn (m : Int).toNat y : Nat) : Int)))
      = false := by
    simp only [Int.toNat_ofNat, Bool.or_eq_false_iff, decide_eq_false_iff_not]
    omega
  have hL := parseChunks_local y m d h mi s frac zone (by omega) hm1 hm2 hd3 hh hmi hs
  have hM := parseChunks_micro y m d h mi s frac zone (by omega) hm1 hm2 hd3 hh hmi hs
  unfold parseJavaLocalDateTime layouts
  by_cases hza : zone = .absent
  · subst hza
    have hP : Parse layoutLocal (formatTimestamp y m d h mi s frac .absent) =
        .ok (Date y m d h mi s (fracNanos frac) .utc) := by
      unfold Parse
      rw [hL]
      simp only [ZoneText.text, List.isEmpty_nil, if_true, buildTime, parsedTimestamp, hday,
        Bool.false_eq_true, if_false]
      rfl
    rw [parseLayouts_ok _ _ _ _ _ hP]
    rw [hU _ hn.1 hn.2 .utc, hU 0 (by omega) (by omega) .utc]
    simp [Time.UTC, ZoneText.seconds, Location.offset]
  · have hne : zone.text.isEmpty = false := by
      cases hc : zone.text.isEmpty with
      | false => rfl
      | true => exact absurd ((zone_text_empty zone).mp hc) hza
    have hP1 : Parse layoutLocal (formatTimestamp y m d h mi s frac zone) = .error .extraText := by
      unfold Parse
      rw [hL, hne]
      rfl
    have hP2 : Parse layoutMicro (formatTimestamp y m d h mi s frac zone) = .error .extraText := by
      unfold Parse
      rw [hM, hne]
      rfl
    have hR := parseChunks_rfc3339 y m d h mi s frac zone (by omega) hm1 hm2 hd3 hh hmi hs hz hza
    have hP3 : Parse layoutRFC3339 (formatTimestamp y m d h mi s frac zone) =
        .ok ⟨(Date y m d h mi s 0 .utc).unixSec - zone.seconds, fracNanos frac,
          match zone with
          | .zulu => .utc
          | _ => .fixed zone.seconds⟩ := by
      unfold Parse
      rw [hR]
      cases zone with
      | absent => exact absurd rfl hza
      | zulu =>
        simp only [buildTime, parsedTimestamp, hday, Bool.false_eq_true, if_false]
        rw [hU _ hn.1 hn.2 .utc, hU 0 (by omega) (by omega) .utc]
        simp [ZoneText.seconds, Location.offset]
      | offset neg hh1 mm1 =>
        have hoff : ((ZoneText.offset neg hh1 mm1).seconds != -1) = true := by
          simpa using zone_seconds_ne (ZoneText.offset neg hh1 mm1)
        simp only [buildTime, parsedTimestamp, hday, Bool.false_eq_true, if_false, hoff, if_true]
        rw [hU _ hn.1 hn.2 .utc, hU 0 (by omega) (by omega) .utc]
        simp only [Time.addSec, Location.offset, Except.ok.injEq, Time.mk.injEq, and_true]
        omega
    rw [parseLayouts_error _ _ _ _ _ hP1, parseLayouts_error _ _ _ _ _ hP2,
      parseLayouts_ok _ _ _ _ _ hP3]
    rfl

/-! ## Every text `time.Parse` accepts under the three layouts is a timestamp text -/

theorem isDigit_digitChar (c : Char) (h : isDigit c = true) :
    ∃ a : Nat, a < 10 ∧ c = digitChar a ∧ digitVal c = (a : Int) := by
  unfold isDigit at h
  simp only [Bool.and_eq_true, decide_eq_true_eq] at h
  refine ⟨c.toNat - 48, by omega, ?_, rfl⟩
  unfold digitChar
  have : 48 + (c.toNat - 48) % 10 = c.toNat := by omega
  rw [this, Char.ofNat_toNat]

theorem digitChar_mod (n : Nat) : digitChar (n % 10) = digitChar n := by
  unfold digitChar
  rw [Nat.mod_mod]

theorem twoDigits_of (a b : Nat) (_ : a < 10) (hb : b < 10) :
    twoDigits (a * 10 + b) = [digitChar a, digitChar b] := by
  unfold twoDigits
  have e1 : (a * 10 + b) / 10 = a := by omega
  have e2 : (a * 10 + b) % 10 = b % 10 := by omega
  rw [e1, ← digitChar_mod (a * 10 + b), e2, digitChar_mod]

theorem getnum_fixed_inv (v : List Char) (n : Int) (rest : List Char)
    (h : getnum v true = some (n, rest)) :
    ∃ k : Nat, k < 100 ∧ n = (k : Int) ∧ v = twoDigits k ++ rest := by
  unfold getnum at h
  split at h
  · simp at h
  · rename_i c0
    by_cases h0 : isDigit c0 = true <;> simp [h0] at h
  · rename_i c0 c1 tl
    by_cases h0 : isDigit c0 = true
    · by_cases h1 : isDigit c1 = true
      · obtain ⟨a, ha, ea, va⟩ := isDigit_digitChar c0 h0
        obtain ⟨b, hb, eb, vb⟩ := isDigit_digitChar c1 h1
        simp only [h0, h1, Bool.not_true, Bool.false_eq_true, if_false, Option.some.injEq,
          Prod.mk.injEq] at h
        obtain ⟨hn, hr⟩ := h
        refine ⟨a * 10 + b, by omega, ?_, ?_⟩
        · rw [← hn, va, vb]; push_cast; ring
        · rw [twoDigits_of a b ha hb, ea, eb, hr]; rfl
      · simp [h0, h1] at h
    · simp [h0] at h

theorem getnum_free_inv (v : List Char) (n : Int) (rest : List Char)
    (h : getnum v false = some (n, rest)) :
    ∃ (k : Nat) (short : Bool), k < 100 ∧ (short = true → k < 10) ∧ n = (k : Int) ∧
      v = hourText k short ++ rest := by
  unfold getnum at h
  split at h
  · simp at h
  · rename_i c0
    by_cases h0 : isDigit c0 = true
    · obtain ⟨a, ha, ea, va⟩ := isDigit_digitChar c0 h0
      simp only [h0, Bool.not_true, Bool.false_eq_true, if_false, Option.some.injEq,
        Prod.mk.injEq] at h
      obtain ⟨hn, hr⟩ := h
      exact ⟨a, true, by omega, fun _ => ha, by rw [← hn, va], by rw [ea, ← hr]; rfl⟩
    · simp [h0] at h
  · rename_i c0 c1 tl
    by_cases h0 : isDigit c0 = true
    · obtain ⟨a, ha, ea, va⟩ := isDigit_digitChar c0 h0
      by_cases h1 : isDigit c1 = true
      · obtain ⟨b, hb, eb, vb⟩ := isDigit_digitChar c1 h1
        simp only [h0, h1, Bool.not_true, Bool.false_eq_true, if_false, Option.some.injEq,
          Prod.mk.injEq] at h
        obtain ⟨hn, hr⟩ := h
        refine ⟨a * 10 + b, false, by omega, by simp, ?_, ?_⟩
        · rw [← hn, va, vb]; push_cast; ring
        · simp only [hourText, Bool.false_eq_true, if_false]
          rw [twoDigits_of a b ha hb, ea, eb, hr]; rfl
      · simp only [h0, h1, Bool.not_true, Bool.not_false, Bool.false_eq_true, if_false, if_true,
          Option.some.injEq, Prod.mk.injEq] at h
        obtain ⟨hn, hr⟩ := h
        exact ⟨a, true, by omega, fun _ => ha, by rw [← hn, va], by rw [ea, ← hr]; rfl⟩
    · simp [h0] at h

theorem fourDigits_of (a b c d : Nat) (_ : a < 10) (hb : b < 10) (hc : c < 10) (hd : d < 10) :
    fourDigits (((a * 10 + b) * 10 + c) * 10 + d) =
      [digitChar a, digitChar b, digitChar c, digitChar d] := by
  unfold fourDigits
  have e1 : (((a * 10 + b) * 10 + c) * 10 + d) / 1000 = a := by omega
  have e2 : (((a * 10 + b) * 10 + c) * 10 + d) / 100 % 10 = b % 10 := by omega
  have e3 : (((a * 10 + b) * 10 + c) * 10 + d) / 10 % 10 = c % 10 := by omega
  have e4 : (((a * 10 + b) * 10 + c) * 10 + d) % 10 = d % 10 := by omega
  rw [e1, ← digitChar_mod ((((a * 10 + b) * 10 + c) * 10 + d) / 100), e2, digitChar_mod,
    ← digitChar_mod ((((a * 10 + b) * 10 + c) * 10 + d) / 10), e3, digitChar_mod,
    ← digitChar_mod (((a * 10 + b) * 10 + c) * 10 + d), e4, digitChar_mod]

theorem year_inv (f : Bool) (v v1 : List Char) (p p1 : Parsed)
    (h : parseStd .stdLongYear f v p = .ok (v1, p1)) :
    ∃ y : Nat, y ≤ 9999 ∧ v = fourDigits y ++ v1 ∧ p1 = { p with year := y } := by
  unfold parseStd at h
  simp only [] at h
  split at h
  · rename_i a b c d rest
    by_cases ha : isDigit a = true
    · simp only [ha, Bool.not_true, Bool.false_eq_true, if_false] at h
      split at h
      · simp at h
      · rename_i yv hyv
        simp only [Except.ok.injEq, Prod.mk.injEq] at h
        obtain ⟨hr, hp⟩ := h
        -- all four characters are digits, or `atoi` would have left a remainder
        have hsign := isDigit_ne_minus a ha
        obtain ⟨a1, ha1, ea, va⟩ := isDigit_digitChar a ha
        have hplus : (some a == some '+') = false := by
          rw [ea]; simpa using (digitChar_facts a1).2.2.2
        unfold atoi at hyv
        simp only [List.head?_cons, hsign, hplus, Bool.or_self, Bool.false_eq_true, if_false,
          leadingInt, ha, if_true] at hyv
        by_cases hb : isDigit b = true
        · by_cases hc : isDigit c = true
          · by_cases hd : isDigit d = true
            · obtain ⟨b1, hb1, eb, vb⟩ := isDigit_digitChar b hb
              obtain ⟨c1, hc1, ec, vc⟩ := isDigit_digitChar c hc
              obtain ⟨d1, hd1, ed, vd⟩ := isDigit_digitChar d hd
              simp only [hb, hc, hd, if_true, List.isEmpty_nil, Option.some.injEq] at hyv
              refine ⟨((a1 * 10 + b1) * 10 + c1) * 10 + d1, by omega, ?_, ?_⟩
              · rw [fourDigits_of a1 b1 c1 d1 ha1 hb1 hc1 hd1, ea, eb, ec, ed, hr]; rfl
              · rw [← hp, ← hyv, va, vb, vc, vd]
                congr 1
                push_cast
                ring
            · simp [hb, hc, hd] at hyv
          · simp [hb, hc] at hyv
        · simp [hb] at hyv
    · simp [ha] at h
  · simp at h

theorem parseNanoseconds_sep (sep : Char) (hsep : commaOrPeriod sep = true) (frac : List Nat)
    (tail : List Char) (h : frac ≠ []) :
    parseNanoseconds (sep :: (frac.map digitChar ++ tail)) (1 + frac.length) =
      .ok (fracNanos frac) := by
  have htake : (List.take (if 1 + frac.length > 10 then 10 else 1 + frac.length)
      (sep :: (frac.map digitChar ++ tail))).drop 1 = (frac.take 9).map digitChar := by
    split
    · rename_i hgt
      simp only [List.take_succ_cons, List.drop_succ_cons, List.drop_zero]
      rw [List.take_append_of_le_length (by simp; omega), List.map_take]
    · rename_i hle
      have : 1 + frac.length = frac.length + 1 := by omega
      rw [this]
      simp only [List.take_succ_cons, List.drop_succ_cons, List.drop_zero]
      rw [List.take_append_of_le_length (by simp), List.take_of_length_le (by simp),
        List.take_of_length_le (by omega)]
  have hne : frac.take 9 ≠ [] := by
    cases frac with
    | nil => exact absurd rfl h
    | cons d ds => simp
  have hpow : 10 - (if 1 + frac.length > 10 then 10 else 1 + frac.length)
      = 9 - (frac.take 9).length := by
    simp only [List.length_take]
    split <;> omega
  unfold parseNanoseconds
  simp only [hsep, Bool.not_true, Bool.false_eq_true, if_false, htake, atoi_digits _ hne]
  have hnn := decimalValue_nonneg (frac.take 9) 0 (le_refl _)
  have : ¬ decimalValue (List.take 9 frac) 0 < 0 := by omega
  simp only [this, if_false, hpow]
  rfl

theorem digits_of_all (l : List Char) (h : ∀ c ∈ l, isDigit c = true) :
    ∃ frac : List Nat, l = frac.map digitChar := by
  induction l with
  | nil => exact ⟨[], rfl⟩
  | cons c cs ih =>
    obtain ⟨a, -, ea, -⟩ := isDigit_digitChar c (h c (by simp))
    obtain ⟨frac, hf⟩ := ih (fun x hx => h x (by simp [hx]))
    exact ⟨a :: frac, by rw [ea, hf]; rfl⟩

theorem drop_takeWhile_length (l : List Char) :
    List.drop (l.takeWhile isDigit).length l = l.dropWhile isDigit := by
  induction l with
  | nil => rfl
  | cons c cs ih =>
    by_cases hc : isDigit c = true
    · simp only [List.takeWhile_cons, List.dropWhile_cons, hc, if_true, List.length_cons,
        List.drop_succ_cons, ih]
    · simp [List.takeWhile_cons, List.dropWhile_cons, hc]

/-- The fraction read at the head of `sep :: c1 :: more` when `c1` is a digit:
the digits, the text after them, and the nanoseconds `parseNanoseconds` gives. -/
theorem fraction_inv (sep c1 : Char) (more : List Char) (hsep : commaOrPeriod sep = true)
    (h1 : isDigit c1 = true) (n : Nat) (hn : n = 2 + (more.takeWhile isDigit).length) :
    ∃ frac : List Nat, frac ≠ [] ∧
      sep :: c1 :: more = fracTextSep sep frac ++ (sep :: c1 :: more).drop n ∧
      parseNanoseconds (sep :: c1 :: more) n = .ok (fracNanos frac) := by
  obtain ⟨frac, hfrac⟩ := digits_of_all (c1 :: more.takeWhile isDigit) (by
    intro c hc
    rcases List.mem_cons.mp hc with rfl | hc
    · exact h1
    · exact (List.mem_takeWhile_imp hc))
  have hne : frac ≠ [] := by
    intro h0
    rw [h0] at hfrac
    simp at hfrac
  have hlen : frac.length = 1 + (more.takeWhile isDigit).length := by
    have := congrArg List.length hfrac
    simp only [List.length_cons, List.length_map] at this
    omega
  have hdrop : (sep :: c1 :: more).drop n = more.dropWhile isDigit := by
    rw [hn]
    have : 2 + (List.takeWhile isDigit more).length
        = (List.takeWhile isDigit more).length + 1 + 1 := by omega
    rw [this, List.drop_succ_cons, List.drop_succ_cons, drop_takeWhile_length]
  have htext : sep :: c1 :: more = sep :: (frac.map digitChar ++ more.dropWhile isDigit) := by
    rw [← hfrac]
    simp only [List.cons_append, List.takeWhile_append_dropWhile]
  refine ⟨frac, hne, ?_, ?_⟩
  · rw [hdrop]
    have hfe : frac.isEmpty = false := by
      cases frac with
      | nil => exact absurd rfl hne
      | cons _ _ => rfl
    simp only [fracTextSep, hfe, Bool.false_eq_true, if_false, List.cons_append]
    exact htext
  · have hn2 : n = 1 + frac.length := by omega
    rw [hn2, htext]
    exact parseNanoseconds_sep sep hsep frac _ hne

theorem parseChunks_cons_inv (pre : List Char) (std : Std) (layout : Layout) (v : List Char)
    (p p1 : Parsed) (h : parseChunks ((pre, std) :: layout) v p = .ok p1) :
    ∃ v0 v1 p0, skip v pre = some v0 ∧ parseStd std (nextIsFrac layout) v0 p = .ok (v1, p0) ∧
      parseChunks layout v1 p0 = .ok p1 := by
  unfold parseChunks at h
  split at h
  · simp at h
  · rename_i v0 hskip
    split at h
    · simp at h
    · rename_i v1 p0 hstd
      exact ⟨v0, v1, p0, hskip, hstd, h⟩

theorem parseChunks_nil_inv (v : List Char) (p p1 : Parsed)
    (h : parseChunks [] v p = .ok p1) : v = [] ∧ p1 = p := by
  unfold parseChunks at h
  cases v with
  | nil => simp at h; exact ⟨rfl, h.symm⟩
  | cons c cs => simp at h

theorem skip_one_inv (c : Char) (v v0 : List Char) (h : skip v [c] = some v0) : v = c :: v0 := by
  cases v with
  | nil => simp [skip] at h
  | cons x xs =>
    unfold skip at h
    by_cases hx : x = c
    · subst hx
      simp [skip] at h
      rw [h]
    · simp [hx] at h

theorem skip_nil_inv (v v0 : List Char) (h : skip v [] = some v0) : v0 = v := by
  rw [skip_nil] at h
  simp at h
  exact h.symm

theorem month_inv (f : Bool) (v v1 : List Char) (p p1 : Parsed)
    (h : parseStd .stdZeroMonth f v p = .ok (v1, p1)) :
    ∃ m : Nat, 1 ≤ m ∧ m ≤ 12 ∧ v = twoDigits m ++ v1 ∧ p1 = { p with month := m } := by
  unfold parseStd at h
  simp only [] at h
  split at h
  · simp at h
  · rename_i n rest hg
    obtain ⟨k, -, hn, hv⟩ := getnum_fixed_inv _ _ _ hg
    split at h
    · simp at h
    · rename_i hr
      simp only [Bool.or_eq_true, decide_eq_true_eq, not_or, not_le, not_lt] at hr
      simp only [Except.ok.injEq, Prod.mk.injEq] at h
      obtain ⟨h1, h2⟩ := h
      subst hn
      exact ⟨k, by omega, by omega, by rw [hv, h1], h2.symm⟩

theorem day_inv (f : Bool) (v v1 : List Char) (p p1 : Parsed)
    (h : parseStd .stdZeroDay f v p = .ok (v1, p1)) :
    ∃ d : Nat, d < 100 ∧ v = twoDigits d ++ v1 ∧ p1 = { p with day := d } := by
  unfold parseStd at h
  simp only [] at h
  split at h
  · simp at h
  · rename_i n rest hg
    obtain ⟨k, hk, hn, hv⟩ := getnum_fixed_inv _ _ _ hg
    simp only [Except.ok.injEq, Prod.mk.injEq] at h
    obtain ⟨h1, h2⟩ := h
    subst hn
    exact ⟨k, hk, by rw [hv, h1], h2.symm⟩

theorem hour_inv (f : Bool) (v v1 : List Char) (p p1 : Parsed)
    (h : parseStd .stdHour f v p = .ok (v1, p1)) :
    ∃ (hr : Nat) (short : Bool), hr < 24 ∧ (short = true → hr < 10) ∧
      v = hourText hr short ++ v1 ∧ p1 = { p with hour := hr } := by
  unfold parseStd at h
  simp only [] at h
  split at h
  · simp at h
  · rename_i n rest hg
    obtain ⟨k, short, -, hsh, hn, hv⟩ := getnum_free_inv _ _ _ hg
    split at h
    · simp at h
    · rename_i hr
      simp only [Bool.or_eq_true, decide_eq_true_eq, not_or, not_le, not_lt] at hr
      simp only [Except.ok.injEq, Prod.mk.injEq] at h
      obtain ⟨h1, h2⟩ := h
      subst hn
      exact ⟨k, short, by omega, hsh, by rw [hv, h1], h2.symm⟩

theorem minute_inv (f : Bool) (v v1 : List Char) (p p1 : Parsed)
    (h : parseStd .stdZeroMinute f v p = .ok (v1, p1)) :
    ∃ mi : Nat, mi < 60 ∧ v = twoDigits mi ++ v1 ∧ p1 = { p with min := mi } := by
  unfold parseStd at h
  simp only [] at h
  split at h
  · simp at h
  · rename_i n rest hg
    obtain ⟨k, -, hn, hv⟩ := getnum_fixed_inv _ _ _ hg
    split at h
    · simp at h
    · rename_i hr
      simp only [Bool.or_eq_true, decide_eq_true_eq, not_or, not_le, not_lt] at hr
      simp only [Except.ok.injEq, Prod.mk.injEq] at h
      obtain ⟨h1, h2⟩ := h
      subst hn
      exact ⟨k, by omega, by rw [hv, h1], h2.symm⟩

theorem second_inv (f : Bool) (v v1 : List Char) (p p1 : Parsed)
    (h : parseStd .stdZeroSecond f v p = .ok (v1, p1)) :
    ∃ s : Nat, s < 60 ∧
      ((v = twoDigits s ++ v1 ∧ p1 = { p with sec := s }) ∨
        (f = false ∧ ∃ sep frac, commaOrPeriod sep = true ∧ frac ≠ [] ∧
          v = twoDigits s ++ (fracTextSep sep frac ++ v1) ∧
          p1 = { p with sec := s, nsec := fracNanos frac })) := by
  unfold parseStd at h
  simp only [] at h
  split at h
  · simp at h
  · rename_i n rest hg
    obtain ⟨k, -, hn, hv⟩ := getnum_fixed_inv _ _ _ hg
    split at h
    · simp at h
    · rename_i hr
      simp only [Bool.or_eq_true, decide_eq_true_eq, not_or, not_le, not_lt] at hr
      subst hn
      refine ⟨k, by omega, ?_⟩
      split at h
      · rename_i c0 c1 more
        split at h
        · rename_i hcond
          simp only [Bool.and_eq_true, Bool.not_eq_true'] at hcond
          obtain ⟨⟨hsep, hdig⟩, hf⟩ := hcond
          obtain ⟨frac, hne, htext, hpn⟩ := fraction_inv c0 c1 more hsep hdig _ rfl
          rw [hpn] at h
          simp only [Except.ok.injEq, Prod.mk.injEq] at h
          obtain ⟨h1, h2⟩ := h
          right
          refine ⟨hf, c0, frac, hsep, hne, ?_, h2.symm⟩
          rw [hv, htext, h1]
        · simp only [Except.ok.injEq, Prod.mk.injEq] at h
          obtain ⟨h1, h2⟩ := h
          exact Or.inl ⟨by rw [hv, h1], h2.symm⟩
      · simp only [Except.ok.injEq, Prod.mk.injEq] at h
        obtain ⟨h1, h2⟩ := h
        exact Or.inl ⟨by rw [hv, h1], h2.symm⟩

theorem frac9_inv (k : Nat) (f : Bool) (v v1 : List Char) (p p1 : Parsed)
    (h : parseStd (.stdFracSecond9 k) f v p = .ok (v1, p1)) :
    (v = v1 ∧ p1 = p) ∨
      ∃ sep frac, commaOrPeriod sep = true ∧ frac ≠ [] ∧ v = fracTextSep sep frac ++ v1 ∧
        p1 = { p with nsec := fracNanos frac } := by
  unfold parseStd at h
  simp only [] at h
  split at h
  · rename_i c0 c1 more
    split at h
    · rename_i hcond
      simp only [Bool.and_eq_true] at hcond
      obtain ⟨hsep, hdig⟩ := hcond
      obtain ⟨frac, hne, htext, hpn⟩ := fraction_inv c0 c1 more hsep hdig
        (1 + (1 + (more.takeWhile isDigit).length)) (by omega)
      rw [hpn] at h
      simp only [Except.ok.injEq, Prod.mk.injEq] at h
      obtain ⟨h1, h2⟩ := h
      exact Or.inr ⟨c0, frac, hsep, hne, by rw [htext, h1], h2.symm⟩
    · simp only [Except.ok.injEq, Prod.mk.injEq] at h
      exact Or.inl ⟨h.1, h.2.symm⟩
  · simp only [Except.ok.injEq, Prod.mk.injEq] at h
    exact Or.inl ⟨h.1, h.2.symm⟩

theorem zone_inv (f : Bool) (v v1 : List Char) (p p1 : Parsed)
    (h : parseStd .stdISO8601ColonTZ f v p = .ok (v1, p1)) :
    ∃ zone : ZoneText, zone ≠ .absent ∧ zone.Accepted ∧ v = zone.text ++ v1 ∧
      p1 = p.withZone zone := by
  unfold parseStd at h
  simp only [] at h
  split at h
  · simp at h
  · rename_i c rest
    split at h
    · rename_i hz
      simp only [beq_iff_eq] at hz
      simp only [Except.ok.injEq, Prod.mk.injEq] at h
      subst hz
      exact ⟨.zulu, by simp, trivial, by rw [h.1]; rfl, h.2.symm⟩
    · rename_i hz
      split at h
      · rename_i sign h1 h2 colon m1 m2 rest6 heq
        split at h
        · simp at h
        · rename_i off hoff
          simp only [Except.ok.injEq, Prod.mk.injEq] at h
          obtain ⟨hr, hp⟩ := h
          unfold parseColonTZ at hoff
          simp only [] at hoff
          split at hoff
          · simp at hoff
          · rename_i hcolon
            simp only [bne_iff_ne, ne_eq, not_not] at hcolon
            cases hg1 : getnum [h1, h2] true with
            | none => simp [hg1] at hoff
            | some r1 =>
              obtain ⟨n1, rest1⟩ := r1
              cases hg2 : getnum [m1, m2] true with
              | none => simp [hg1, hg2] at hoff; split at hoff <;> simp at hoff
              | some r2 =>
                obtain ⟨n2, rest2⟩ := r2
                obtain ⟨k1, hk1, e1, t1⟩ := getnum_fixed_inv _ _ _ hg1
                obtain ⟨k2, hk2, e2, t2⟩ := getnum_fixed_inv _ _ _ hg2
                have hl1 : rest1 = [] := by
                  have := congrArg List.length t1
                  simp only [twoDigits, List.length_append, List.length_cons,
                    List.length_nil] at this
                  exact List.length_eq_zero.mp (by omega)
                have hl2 : rest2 = [] := by
                  have := congrArg List.length t2
                  simp only [twoDigits, List.length_append, List.length_cons,
                    List.length_nil] at this
                  exact List.length_eq_zero.mp (by omega)
                subst hl1 hl2 e1 e2
                simp only [hg1, hg2, Option.isSome_some, if_true, Option.map_some', Option.getD_some,
                  Option.isNone_some, Bool.or_self, Bool.false_eq_true, if_false] at hoff
                simp only [List.append_nil] at t1 t2
                simp only [List.cons.injEq] at heq
                obtain ⟨hc, hrest⟩ := heq
                have hsec : ((k1 : Int) * 60 + k2) * 60 + 0 = (k1 : Int) * 3600 + (k2 : Int) * 60 := by
                  ring
                have htxt : ∀ sg : Char, sg :: h1 :: h2 :: ':' :: m1 :: m2 :: v1 =
                    (sg :: (twoDigits k1 ++ (':' :: twoDigits k2))) ++ v1 := by
                  intro sg
                  rw [← t1, ← t2]
                  rfl
                split at hoff
                · simp at hoff
                · rename_i hr1
                  split at hoff
                  · simp at hoff
                  · rename_i hr2
                    split at hoff
                    · rename_i hplus
                      simp only [beq_iff_eq] at hplus
                      simp only [Except.ok.injEq] at hoff
                      refine ⟨.offset false k1 k2, by simp, ⟨by omega, by omega⟩, ?_, ?_⟩
                      · rw [hc, hrest, hplus, hcolon, hr, htxt]
                        rfl
                      · rw [← hp, ← hoff, hsec]
                        rfl
                    · split at hoff
                      · rename_i hminus
                        simp only [beq_iff_eq] at hminus
                        simp only [Except.ok.injEq] at hoff
                        refine ⟨.offset true k1 k2, by simp, ⟨by omega, by omega⟩, ?_, ?_⟩
                        · rw [hc, hrest, hminus, hcolon, hr, htxt]
                          rfl
                        · rw [← hp, ← hoff, hsec]
                          rfl
                      · simp at hoff
      · simp at h

/-- The first five elements of the three layouts, read back. -/
theorem dateTime_inv (tailLayout : Layout) (v : List Char) (p1 : Parsed)
    (h : parseChunks (([], .stdLongYear) :: (['-'], .stdZeroMonth) :: (['-'], .stdZeroDay) ::
        (['T'], .stdHour) :: ([':'], .stdZeroMinute) :: tailLayout) v {} = .ok p1) :
    ∃ (y m d hr : Nat) (short : Bool) (mi : Nat) (v5 : List Char),
      y ≤ 9999 ∧ 1 ≤ m ∧ m ≤ 12 ∧ d < 100 ∧ hr < 24 ∧ (short = true → hr < 10) ∧ mi < 60 ∧
      v = fourDigits y ++ ('-' :: (twoDigits m ++ ('-' :: (twoDigits d ++ ('T' ::
        (hourText hr short ++ (':' :: (twoDigits mi ++ v5)))))))) ∧
      parseChunks tailLayout v5 { year := y, month := m, day := d, hour := hr, min := mi } =
        .ok p1 := by
  obtain ⟨a0, a1, q1, hs1, hp1, h⟩ := parseChunks_cons_inv _ _ _ _ _ _ h
  obtain ⟨b0, b1, q2, hs2, hp2, h⟩ := parseChunks_cons_inv _ _ _ _ _ _ h
  obtain ⟨c0, c1, q3, hs3, hp3, h⟩ := parseChunks_cons_inv _ _ _ _ _ _ h
  obtain ⟨d0, d1, q4, hs4, hp4, h⟩ := parseChunks_cons_inv _ _ _ _ _ _ h
  obtain ⟨e0, e1, q5, hs5, hp5, h⟩ := parseChunks_cons_inv _ _ _ _ _ _ h
  have t1 := skip_nil_inv _ _ hs1
  have t2 := skip_one_inv _ _ _ hs2
  have t3 := skip_one_inv _ _ _ hs3
  have t4 := skip_one_inv _ _ _ hs4
  have t5 := skip_one_inv _ _ _ hs5
  obtain ⟨y, hy, ty, ey⟩ := year_inv _ _ _ _ _ hp1
  obtain ⟨m, hm1, hm2, tm, em⟩ := month_inv _ _ _ _ _ hp2
  obtain ⟨d, hd, td, ed⟩ := day_inv _ _ _ _ _ hp3
  obtain ⟨hr, short, hhr, hsh, thr, ehr⟩ := hour_inv _ _ _ _ _ hp4
  obtain ⟨mi, hmi, tmi, emi⟩ := minute_inv _ _ _ _ _ hp5
  refine ⟨y, m, d, hr, short, mi, e1, hy, hm1, hm2, hd, hhr, hsh, hmi, ?_, ?_⟩
  · rw [← t1, ty, t2, tm, t3, td, t4, thr, t5, tmi]
  · rw [emi, ehr, ed, em, ey] at h
    exact h

theorem fracNanos_nil : fracNanos [] = 0 := by decide

theorem commaOrPeriod_period : commaOrPeriod '.' = true := by decide

/-- The seconds element read back, fraction or not, when no fraction was read
before. -/
theorem second_frac_inv (f : Bool) (v v1 : List Char) (p p1 : Parsed) (hp : p.nsec = 0)
    (h : parseStd .stdZeroSecond f v p = .ok (v1, p1)) :
    ∃ (s : Nat) (sep : Char) (frac : List Nat), s < 60 ∧ commaOrPeriod sep = true ∧
      (f = true → frac = []) ∧ v = twoDigits s ++ (fracTextSep sep frac ++ v1) ∧
      p1 = { p with sec := s, nsec := fracNanos frac } := by
  obtain ⟨s, hs, ⟨hv, hp1⟩ | ⟨hf, sep, frac, hsep, -, hv, hp1⟩⟩ := second_inv f v v1 p p1 h
  · refine ⟨s, '.', [], hs, commaOrPeriod_period, fun _ => rfl, ?_, ?_⟩
    · rw [hv]; rfl
    · rw [hp1, fracNanos_nil, ← hp]
  · exact ⟨s, sep, frac, hs, hsep, (fun h1 => by rw [hf] at h1; cases h1), hv, hp1⟩

/-- The fraction element read back, fraction or not, when no fraction was read
before. -/
theorem frac9_frac_inv (k : Nat) (f : Bool) (v v1 : List Char) (p p1 : Parsed) (hp : p.nsec = 0)
    (h : parseStd (.stdFracSecond9 k) f v p = .ok (v1, p1)) :
    ∃ (sep : Char) (frac : List Nat), commaOrPeriod sep = true ∧
      v = fracTextSep sep frac ++ v1 ∧ p1 = { p with nsec := fracNanos frac } := by
  rcases frac9_inv k f v v1 p p1 h with ⟨hv, hp1⟩ | ⟨sep, frac, hsep, -, hv, hp1⟩
  · refine ⟨'.', [], commaOrPeriod_period, ?_, ?_⟩
    · rw [hv]; rfl
    · rw [hp1, fracNanos_nil, ← hp]
  · exact ⟨sep, frac, hsep, hv, hp1⟩

/-- What a text is when `time.parse` walks one of the three layouts over it to
the end: a timestamp text, and the fields held are the ones written. -/
theorem layouts_inv (layout : Layout) (hl : layout ∈ layouts) (v : List Char) (p1 : Parsed)
    (h : parseChunks layout v {} = .ok p1) :
    ∃ (y m d hr : Nat) (short : Bool) (mi s : Nat) (sep : Char) (frac : List Nat)
      (zone : ZoneText),
      y ≤ 9999 ∧ 1 ≤ m ∧ m ≤ 12 ∧ d < 100 ∧ hr < 24 ∧ (short = true → hr < 10) ∧ mi < 60 ∧
      s < 60 ∧ commaOrPeriod sep = true ∧ zone.Accepted ∧
      v = timestampText y m d hr short mi s sep frac zone ∧
      p1 = (parsedTimestamp y m d hr mi s frac).withZone zone := by
  simp only [layouts, List.mem_cons, List.mem_singleton, List.not_mem_nil, or_false] at hl
  rcases hl with rfl | rfl | rfl
  · unfold layoutLocal at h
    obtain ⟨y, m, d, hr, short, mi, v5, hy, hm1, hm2, hd, hhr, hsh, hmi, hv, h5⟩ :=
      dateTime_inv _ _ _ h
    obtain ⟨a0, a1, q1, hs1, hp1, h6⟩ := parseChunks_cons_inv _ _ _ _ _ _ h5
    obtain ⟨s, sep, frac, hs, hsep, -, hv6, hq1⟩ := second_frac_inv _ _ _ _ _ rfl hp1
    obtain ⟨hnil, hp⟩ := parseChunks_nil_inv _ _ _ h6
    refine ⟨y, m, d, hr, short, mi, s, sep, frac, .absent, hy, hm1, hm2, hd, hhr, hsh, hmi, hs,
      hsep, trivial, ?_, ?_⟩
    · rw [hv, skip_one_inv _ _ _ hs1, hv6, hnil]
      rfl
    · rw [hp, hq1]
      rfl
  · unfold layoutMicro layoutLocal at h
    simp only [List.cons_append, List.nil_append] at h
    obtain ⟨y, m, d, hr, short, mi, v5, hy, hm1, hm2, hd, hhr, hsh, hmi, hv, h5⟩ :=
      dateTime_inv _ _ _ h
    obtain ⟨a0, a1, q1, hs1, hp1, h6⟩ := parseChunks_cons_inv _ _ _ _ _ _ h5
    obtain ⟨s, sep0, frac0, hs, -, hf0, hv6, hq1⟩ := second_frac_inv _ _ _ _ _ rfl hp1
    have hf0 := hf0 rfl
    subst hf0
    obtain ⟨b0, b1, q2, hs2, hp2, h7⟩ := parseChunks_cons_inv _ _ _ _ _ _ h6
    have e2 := skip_nil_inv _ _ hs2
    subst e2
    obtain ⟨sep, frac, hsep, hv7, hq2⟩ := frac9_frac_inv _ _ _ _ _ _ (by rw [hq1]; rfl) hp2
    obtain ⟨hnil, hp⟩ := parseChunks_nil_inv _ _ _ h7
    refine ⟨y, m, d, hr, short, mi, s, sep, frac, .absent, hy, hm1, hm2, hd, hhr, hsh, hmi, hs,
      hsep, trivial, ?_, ?_⟩
    · rw [hv, skip_one_inv _ _ _ hs1, hv6, hv7, hnil]
      rfl
    · rw [hp, hq2, hq1]
      rfl
  · unfold layoutRFC3339 layoutLocal at h
    simp only [List.cons_append, List.nil_append] at h
    obtain ⟨y, m, d, hr, short, mi, v5, hy, hm1, hm2, hd, hhr, hsh, hmi, hv, h5⟩ :=
      dateTime_inv _ _ _ h
    obtain ⟨a0, a1, q1, hs1, hp1, h6⟩ := parseChunks_cons_inv _ _ _ _ _ _ h5
    obtain ⟨s, sep, frac, hs, hsep, -, hv6, hq1⟩ := second_frac_inv _ _ _ _ _ rfl hp1
    obtain ⟨b0, b1, q2, hs2, hp2, h7⟩ := parseChunks_cons_inv _ _ _ _ _ _ h6
    have e2 := skip_nil_inv _ _ hs2
    subst e2
    obtain ⟨zone, -, hz, hv7, hq2⟩ := zone_inv _ _ _ _ _ hp2
    obtain ⟨hnil, hp⟩ := parseChunks_nil_inv _ _ _ h7
    refine ⟨y, m, d, hr, short, mi, s, sep, frac, zone, hy, hm1, hm2, hd, hhr, hsh, hmi, hs,
      hsep, hz, ?_, ?_⟩
    · rw [hv, skip_one_inv _ _ _ hs1, hv6, hv7, hnil]
      simp [timestampText]
    · rw [hp, hq2, hq1]
      rfl

/-- The time `time.parse` builds from the fields of a timestamp text: the day
is one of the month, and the time shown in UTC is the written date and time
read as UTC moved back by the written offset. -/
theorem buildTime_timestamp (y m d h mi s : Nat) (frac : List Nat) (zone : ZoneText) (t0 : Time)
    (hm1 : 1 ≤ m) (hm2 : m ≤ 12) (hh : h < 24) (hmi : mi < 60) (hs : s < 60)
    (hb : buildTime ((parsedTimestamp y m d h mi s frac).withZone zone) = .ok t0) :
    1 ≤ d ∧ d ≤ daysIn m y ∧
      t0.UTC = ⟨(Date y m d h mi s 0 .utc).unixSec - zone.seconds, fracNanos frac, .utc⟩ := by
  have hn := fracNanos_range frac
  have hU := fun (ns : Int) (h1 : 0 ≤ ns) (h2 : ns < 1000000000) (loc : Location) =>
    Date_unixSec y m d h mi s ns loc hm1 hm2 hh hmi hs h1 h2
  have hfields : ((parsedTimestamp y m d h mi s frac).withZone zone).day = d ∧
      ((parsedTimestamp y m d h mi s frac).withZone zone).month = m ∧
      ((parsedTimestamp y m d h mi s frac).withZone zone).year = y := by
    cases zone <;> exact ⟨rfl, rfl, rfl⟩
  have hday : 1 ≤ d ∧ d ≤ daysIn m y := by
    unfold buildTime at hb
    split at hb
    · simp at hb
    · rename_i hd
      rw [hfields.1, hfields.2.1, hfields.2.2] at hd
      simp only [Int.toNat_ofNat, Bool.or_eq_true, decide_eq_true_eq, not_or, not_lt] at hd
      omega
  refine ⟨hday.1, hday.2, ?_⟩
  have hdayb : (decide ((d : Int) < 1) || decide ((d : Int) > ((daysIn (m : Int).toNat y : Nat) : Int)))
      = false := by
    simp only [Int.toNat_ofNat, Bool.or_eq_false_iff, decide_eq_false_iff_not]
    omega
  cases zone with
  | absent =>
    simp only [buildTime, Parsed.withZone, parsedTimestamp, hdayb, Bool.false_eq_true,
      if_false] at hb
    have hb1 : t0 = Date y m d h mi s (fracNanos frac) .utc := by
      simp at hb
      exact hb.symm
    rw [hb1, hU _ hn.1 hn.2 .utc, hU 0 (by omega) (by omega) .utc]
    simp [Time.UTC, ZoneText.seconds, Location.offset]
  | zulu =>
    simp only [buildTime, Parsed.withZone, parsedTimestamp, hdayb, Bool.false_eq_true,
      if_false] at hb
    have hb1 : t0 = Date y m d h mi s (fracNanos frac) .utc := by
      simp at hb
      exact hb.symm
    rw [hb1, hU _ hn.1 hn.2 .utc, hU 0 (by omega) (by omega) .utc]
    simp [Time.UTC, ZoneText.seconds, Location.offset]
  | offset neg hh1 mm1 =>
    have hoff : ((ZoneText.offset neg hh1 mm1).seconds != -1) = true := by
      simpa using zone_seconds_ne (ZoneText.offset neg hh1 mm1)
    simp only [buildTime, Parsed.withZone, parsedTimestamp, hdayb, Bool.false_eq_true,
      if_false, hoff, if_true] at hb
    simp only [Except.ok.injEq] at hb
    rw [← hb, hU _ hn.1 hn.2 .utc, hU 0 (by omega) (by omega) .utc]
    simp only [Time.addSec, Time.UTC, Location.offset, Time.mk.injEq, and_true]
    omega

/-- A time at the written date and time of day moved back by an offset, shown
at that offset, reads the written fields. -/
theorem timestamp_fields (y m d h mi s : Nat) (ns o : Int) (loc : Location)
    (ho : loc.offset = o) (hy : y ≤ 9999) (hm1 : 1 ≤ m) (hm2 : m ≤ 12) (hd1 : 1 ≤ d)
    (hd2 : d ≤ daysIn m y) (hh : h < 24) (hmi : mi < 60) (hs : s < 60) :
    (⟨(Date y m d h mi s 0 .utc).unixSec - o, ns, loc⟩ : Time).fields =
      ((y : Int), m, d, h, mi, s) := by
  rw [← Date_fields y m d h mi s 0 (by unfold absoluteZeroYear; omega) hm1 hm2 hd1 hd2 hh hmi hs
    (by omega) (by omega)]
  apply fields_congr
  unfold Time.abs
  rw [Date_unixSec y m d h mi s 0 .utc hm1 hm2 hh hmi hs (by omega) (by omega)]
  simp only [ho]
  simp only [Location.offset]
  congr 1
  omega

/-- C3, amended. The timestamp texts are `YYYY-MM-DDTHH:MM:SS`, then an
optional fraction of a second, then an optional zone `Z` or `+hh:mm` / `-hh:mm`.
For every such text of a valid date and time of day, `parseJavaLocalDateTime`
returns, without error, a time in UTC that is the instant written: the written
date and time read as UTC and moved back by the written offset, with the
written fraction as nanoseconds.  Shown at the written offset that instant
reads the written year, month, day, hour, minute and second; shown in UTC, as
returned, it reads them when the written offset is zero.  Conversely every
string `parseJavaLocalDateTime` accepts is such a text (the hour may then have
one digit, the fraction may follow a comma, the offset may go up to 24 hours
and 60 minutes) and the time returned is that same instant. -/
theorem parseJavaLocalDateTime_instant :
    (∀ (y m d h mi s : Nat) (frac : List Nat) (zone : ZoneText),
      y ≤ 9999 → 1 ≤ m → m ≤ 12 → 1 ≤ d → d ≤ daysIn m y → h < 24 → mi < 60 → s < 60 →
      zone.Valid →
      ∃ t : Time, parseJavaLocalDateTime (formatTimestamp y m d h mi s frac zone) = (t, none) ∧
        t.loc = .utc ∧ t.nsec = fracNanos frac ∧
        t.unixSec = (Date y m d h mi s 0 .utc).unixSec - zone.seconds ∧
        (⟨t.unixSec, t.nsec, .fixed zone.seconds⟩ : Time).fields = ((y : Int), m, d, h, mi, s) ∧
        (zone.seconds = 0 → t.fields = ((y : Int), m, d, h, mi, s))) ∧
    (∀ (ts : String) (t : Time), parseJavaLocalDateTime ts = (t, none) →
      ∃ (y m d h : Nat) (short : Bool) (mi s : Nat) (sep : Char) (frac : List Nat)
        (zone : ZoneText),
        ts.data = timestampText y m d h short mi s sep frac zone ∧
        y ≤ 9999 ∧ 1 ≤ m ∧ m ≤ 12 ∧ 1 ≤ d ∧ d ≤ daysIn m y ∧ h < 24 ∧ (short = true → h < 10) ∧
        mi < 60 ∧ s < 60 ∧ commaOrPeriod sep = true ∧ zone.Accepted ∧
        t.loc = .utc ∧ t.nsec = fracNanos frac ∧
        t.unixSec = (Date y m d h mi s 0 .utc).unixSec - zone.seconds ∧
        (⟨t.unixSec, t.nsec, .fixed zone.seconds⟩ : Time).fields = ((y : Int), m, d, h, mi, s) ∧
        (zone.seconds = 0 → t.fields = ((y : Int), m, d, h, mi, s))) := by
  constructor
  · intro y m d h mi s frac zone hy hm1 hm2 hd1 hd2 hh hmi hs hz
    refine ⟨_, parseJavaLocalDateTime_formatTimestamp y m d h mi s frac zone hy hm1 hm2 hd1 hd2
      hh hmi hs hz, rfl, rfl, rfl, ?_, ?_⟩
    · exact timestamp_fields y m d h mi s _ _ _ rfl hy hm1 hm2 hd1 hd2 hh hmi hs
    · intro h0
      have := timestamp_fields y m d h mi s (fracNanos frac) zone.seconds .utc (by rw [h0]; rfl)
        hy hm1 hm2 hd1 hd2 hh hmi hs
      exact this
  · intro ts t hts
    obtain ⟨layout, t0, hl, hparse, rfl⟩ := parseJavaLocalDateTime_inv ts t hts
    unfold Parse at hparse
    split at hparse
    · simp at hparse
    · rename_i p hp
      obtain ⟨y, m, d, h, short, mi, s, sep, frac, zone, hy, hm1, hm2, -, hh, hsh, hmi, hs, hsep,
        hz, hv, rfl⟩ := layouts_inv layout hl _ _ hp
      obtain ⟨hd1, hd2, ht⟩ := buildTime_timestamp y m d h mi s frac zone t0 hm1 hm2 hh hmi hs
        hparse
      refine ⟨y, m, d, h, short, mi, s, sep, frac, zone, hv, hy, hm1, hm2, hd1, hd2, hh, hsh, hmi,
        hs, hsep, hz, ?_⟩
      rw [ht]
      refine ⟨rfl, rfl, rfl, ?_, ?_⟩
      · exact timestamp_fields y m d h mi s _ _ _ rfl hy hm1 hm2 hd1 hd2 hh hmi hs
      · intro h0
        exact timestamp_fields y m d h mi s (fracNanos frac) zone.seconds .utc (by rw [h0]; rfl)
          hy hm1 hm2 hd1 hd2 hh hmi hs

/-- C3 amended, at `"2025-12-25T10:30:00+05:30"`, which yields
2025-12-25T05:00:00Z, and at `"2025-12-25T10:30:00.25-05:30"`, which yields
2025-12-25T16:00:00.25Z. -/
theorem parseJavaLocalDateTime_instant_witness :
    formatTimestamp 2025 12 25 10 30 0 [] (.offset false 5 30) = "2025-12-25T10:30:00+05:30" ∧
    parseJavaLocalDateTime "2025-12-25T10:30:00+05:30" = (⟨1766638800, 0, .utc⟩, none) ∧
    (⟨1766638800, 0, .utc⟩ : Time).fields = (2025, 12, 25, 5, 0, 0) ∧
    (∃ t : Time,
      parseJavaLocalDateTime (formatTimestamp 2025 12 25 10 30 0 [] (.offset false 5 30)) =
        (t, none) ∧
      t.loc = .utc ∧ t.nsec = fracNanos [] ∧
      t.unixSec = (Date (2025 : Nat) (12 : Nat) (25 : Nat) (10 : Nat) (30 : Nat) (0 : Nat) 0
        .utc).unixSec - (ZoneText.offset false 5 30).seconds ∧
      (⟨t.unixSec, t.nsec, .fixed (ZoneText.offset false 5 30).seconds⟩ : Time).fields =
        (((2025 : Nat) : Int), 12, 25, 10, 30, 0) ∧
      ((ZoneText.offset false 5 30).seconds = 0 →
        t.fields = (((2025 : Nat) : Int), 12, 25, 10, 30, 0))) ∧
    parseJavaLocalDateTime "2025-12-25T10:30:00.25-05:30" =
      (⟨1766678400, 250000000, .utc⟩, none) ∧
    (⟨1766678400, 250000000, .utc⟩ : Time).fields = (2025, 12, 25, 16, 0, 0) ∧
    (∃ (y m d h : Nat) (short : Bool) (mi s : Nat) (sep : Char) (frac : List Nat)
        (zone : ZoneText),
      "2025-12-25T10:30:00.25-05:30".data = timestampText y m d h short mi s sep frac zone ∧
      y ≤ 9999 ∧ 1 ≤ m ∧ m ≤ 12 ∧ 1 ≤ d ∧ d ≤ daysIn m y ∧ h < 24 ∧ (short = true → h < 10) ∧
      mi < 60 ∧ s < 60 ∧ commaOrPeriod sep = true ∧ zone.Accepted ∧
      (⟨1766678400, 250000000, .utc⟩ : Time).loc = .utc ∧
      (⟨1766678400, 250000000, .utc⟩ : Time).nsec = fracNanos frac ∧
      (⟨1766678400, 250000000, .utc⟩ : Time).unixSec =
        (Date y m d h mi s 0 .utc).unixSec - zone.seconds ∧
      (⟨(⟨1766678400, 250000000, .utc⟩ : Time).unixSec,
          (⟨1766678400, 250000000, .utc⟩ : Time).nsec, .fixed zone.seconds⟩ : Time).fields =
        ((y : Int), m, d, h, mi, s) ∧
      (zone.seconds = 0 →
        (⟨1766678400, 250000000, .utc⟩ : Time).fields = ((y : Int), m, d, h, mi, s))) :=
  ⟨by decide, by rfl, by rfl,
   parseJavaLocalDateTime_instant.1 2025 12 25 10 30 0 [] (.offset false 5 30) (by decide)
     (by decide) (by decide) (by decide) (by decide) (by decide) (by decide) (by decide)
     ⟨by decide, by decide⟩,
   by rfl, by rfl,
   parseJavaLocalDateTime_instant.2 "2025-12-25T10:30:00.25-05:30"
     ⟨1766678400, 250000000, .utc⟩ (by rfl)⟩

end GoStore
